import Mathlib

/-! Rapier core data structures: B+ tree (sorted set engine) and expiring dictionary.

A shallow embedding of `internal/core/ds/bplustree.go` and
`internal/core/ds/dictionary.go`.

* Go pointers (`*Item`, `*Node`) are addresses into two explicit memories kept
  next to the tree: `items` (every `&Item{..}` ever allocated, in allocation
  order) and `nodes` (every `&Node{..}` ever allocated).  A leaf entry and the
  separator promoted from it are the *same* `*Item` in the source, so an in-place
  score update is visible through both; the item memory keeps that sharing.
* `float64` scores are values of `Float64`: NaN or a number.  Numbers are integers,
  of which only the order and equality are used (the source does no arithmetic on
  scores; `-0` and `+0`, which compare equal, are one number); a comparison with
  NaN is false, as in Go.
* Go compares strings bytewise; Lean orders `String` by code point, which is the
  same order on valid UTF-8.
* Every loop that follows pointers takes a fuel argument; a nil dereference, an
  index out of range or exhausted fuel is the result `none`.
* The wall clock read by `HasExpired` is an explicit argument `now`.
-/

namespace ds

/-! ## bplustree.go -/

/-- The type `float64` as the comparisons of the source see it: NaN or a number. -/
inductive Float64 where
  | nan : Float64
  | num (x : Int) : Float64
deriving DecidableEq, Repr

namespace Float64

/-- The comparison `a < b` of Go on `float64`: false when either side is NaN. -/
def lt : Float64 → Float64 → Bool
  | num a, num b => decide (a < b)
  | _, _ => false

/-- The comparison `a <= b` of Go on `float64`: false when either side is NaN. -/
def le : Float64 → Float64 → Bool
  | num a, num b => decide (a ≤ b)
  | _, _ => false

instance : LT Float64 := ⟨fun a b => lt a b = true⟩

instance : LE Float64 := ⟨fun a b => le a b = true⟩

instance (a b : Float64) : Decidable (a < b) := inferInstanceAs (Decidable (lt a b = true))

instance (a b : Float64) : Decidable (a ≤ b) := inferInstanceAs (Decidable (le a b = true))

instance (n : Nat) : OfNat Float64 n := ⟨num n⟩

/-- The number behind a score that is not NaN (0 for NaN). -/
def toInt : Float64 → Int
  | nan => 0
  | num x => x

end Float64

/-- The struct `Item`. -/
structure Item where
  Score : Float64
  Member : String
deriving DecidableEq, Repr

/-- The method `(*Item).CompareTo`, branch for branch (the source tests
`i.Score > other.Score` twice). -/
def Item.CompareTo (i other : Item) : Int :=
  if i.Score < other.Score then -1
  else if i.Score > other.Score then 1
  else if i.Score > other.Score then 1
  else if i.Member < other.Member then -1
  else if i.Member > other.Member then 1
  else 0

/-- The struct `Node`; `Items` are addresses into the item memory, `Children`,
`Parent` and `Next` are addresses into the node memory (`none` is `nil`). -/
structure Node where
  Items : List Nat
  Children : List Nat
  IsLeaf : Bool
  Parent : Option Nat
  Next : Option Nat
deriving DecidableEq, Repr

/-- The struct `BPlusTree` (`Root`, `Degree`) together with the memory its
pointers refer to. -/
structure BPlusTree where
  items : List Item
  nodes : List Node
  Root : Nat
  Degree : Int
deriving DecidableEq, Repr

/-- The function `NewBPlusTree`: one empty leaf, which is the root. -/
def NewBPlusTree (degree : Int) : BPlusTree :=
  { items := []
    nodes := [{ Items := [], Children := [], IsLeaf := true, Parent := none, Next := none }]
    Root := 0
    Degree := degree }

namespace BPlusTree

/-- The loop `for !node.IsLeaf { node = node.Children[0] }` of `Score` and `GetRank`. -/
def leftmostLeaf : Nat → BPlusTree → Nat → Option Nat
  | 0, _, _ => none
  | f + 1, t, node =>
    match t.nodes[node]? with
    | none => none
    | some nd =>
      if nd.IsLeaf then some node
      else
        match nd.Children[0]? with
        | none => none
        | some c => leftmostLeaf f t c

/-- The inner loop of `Score` over one leaf: `some (some s)` is `return s, true`,
`some none` is falling out of the `range` loop. -/
def scoreInLeaf (t : BPlusTree) (member : String) : List Nat → Option (Option Float64)
  | [] => some none
  | a :: as =>
    match t.items[a]? with
    | none => none
    | some it => if it.Member = member then some (some it.Score) else scoreInLeaf t member as

/-- The outer loop `for node != nil { ...; node = node.Next }` of `Score`. -/
def scoreWalk : Nat → BPlusTree → String → Option Nat → Option (Float64 × Bool)
  | _, _, _, none => some (0, false)
  | 0, _, _, some _ => none
  | f + 1, t, member, some node =>
    match t.nodes[node]? with
    | none => none
    | some nd =>
      match scoreInLeaf t member nd.Items with
      | none => none
      | some (some s) => some (s, true)
      | some none => scoreWalk f t member nd.Next

/-- The method `(*BPlusTree).Score`. -/
def Score (t : BPlusTree) (member : String) : Option (Float64 × Bool) :=
  match leftmostLeaf t.nodes.length t t.Root with
  | none => none
  | some leaf => scoreWalk t.nodes.length t member (some leaf)

/-- The inner loop of `GetRank` over one leaf, started with counter `rank`:
`some (Sum.inl r)` is `return r`, `some (Sum.inr r)` is falling out of the loop
with the counter at `r`. -/
def rankInLeaf (t : BPlusTree) (member : String) : Nat → List Nat → Option (Nat ⊕ Nat)
  | rank, [] => some (Sum.inr rank)
  | rank, a :: as =>
    match t.items[a]? with
    | none => none
    | some it => if it.Member = member then some (Sum.inl rank) else rankInLeaf t member (rank + 1) as

/-- The outer loop of `GetRank`. -/
def rankWalk : Nat → BPlusTree → String → Nat → Option Nat → Option Int
  | _, _, _, _, none => some (-1)
  | 0, _, _, _, some _ => none
  | f + 1, t, member, rank, some node =>
    match t.nodes[node]? with
    | none => none
    | some nd =>
      match rankInLeaf t member rank nd.Items with
      | none => none
      | some (Sum.inl r) => some (r : Int)
      | some (Sum.inr r) => rankWalk f t member r nd.Next

/-- The method `(*BPlusTree).GetRank`. -/
def GetRank (t : BPlusTree) (member : String) : Option Int :=
  match leftmostLeaf t.nodes.length t t.Root with
  | none => none
  | some leaf => rankWalk t.nodes.length t member 0 (some leaf)

/-- The descent loop body of `Add`:
`i := 0; for i < len(node.Items) && score >= node.Items[i].Score { i++ }`. -/
def descentIndex (t : BPlusTree) (score : Float64) : List Nat → Option Nat
  | [] => some 0
  | a :: as =>
    match t.items[a]? with
    | none => none
    | some it => if score ≥ it.Score then (descentIndex t score as).map (· + 1) else some 0

/-- The descent loop of `Add`: `for !node.IsLeaf { ...; node = node.Children[i] }`. -/
def findLeaf : Nat → BPlusTree → Float64 → Nat → Option Nat
  | 0, _, _, _ => none
  | f + 1, t, score, node =>
    match t.nodes[node]? with
    | none => none
    | some nd =>
      if nd.IsLeaf then some node
      else
        match descentIndex t score nd.Items with
        | none => none
        | some i =>
          match nd.Children[i]? with
          | none => none
          | some c => findLeaf f t score c

/-- The update loop of `Add` over the chosen leaf: the address of the first item
whose `Member` equals `member`, if any. -/
def findMember (t : BPlusTree) (member : String) : List Nat → Option (Option Nat)
  | [] => some none
  | a :: as =>
    match t.items[a]? with
    | none => none
    | some it => if it.Member = member then some (some a) else findMember t member as

/-- The insertion-point loop of `Add`:
`i := 0; for i < len(node.Items) && score > node.Items[i].Score { i++ }`. -/
def insertIndex (t : BPlusTree) (score : Float64) : List Nat → Option Nat
  | [] => some 0
  | a :: as =>
    match t.items[a]? with
    | none => none
    | some it => if score > it.Score then (insertIndex t score as).map (· + 1) else some 0

/-- The search loop shared by `splitLeaf` and `splitInternal`:
`for childIndex < len(parent.Children) && parent.Children[childIndex] != node`. -/
def childIndexOf (node : Nat) : List Nat → Nat
  | [] => 0
  | c :: cs => if c = node then 0 else childIndexOf node cs + 1

/-- The slice expression `append(xs[:i], append([]T{x}, xs[i:]...)...)`. -/
def insertAt {α : Type} (xs : List α) (i : Nat) (x : α) : List α :=
  xs.take i ++ x :: xs.drop i

/-- The loop `for _, child := range newInternal.Children { child.Parent = newInternal }`. -/
def reparent (newInternal : Nat) : List Node → List Nat → Option (List Node)
  | nodes, [] => some nodes
  | nodes, c :: cs =>
    match nodes[c]? with
    | none => none
    | some cd => reparent newInternal (nodes.set c { cd with Parent := some newInternal }) cs

/-- The last statement of `splitLeaf` and of `splitInternal`:
`if len(parent.Items) > t.Degree-1 { t.splitNode(parent) }`. -/
def splitParent (splitNode : BPlusTree → Nat → Option BPlusTree) (t : BPlusTree) (parent : Nat) :
    Option BPlusTree :=
  match t.nodes[parent]? with
  | none => none
  | some pd => if (pd.Items.length : Int) > t.Degree - 1 then splitNode t parent else some t

/-- The statements of `splitLeaf` before its last one: the tree after them and
`parent`.  Slicing past the length of a slice is a fault here. -/
def splitLeafBody (t : BPlusTree) (node : Nat) : Option (BPlusTree × Nat) :=
  match t.nodes[node]? with
  | none => none
  | some nd =>
    let medianIndex := nd.Items.length / 2
    let newLeaf := t.nodes.length
    let newLeafNode : Node :=
      { Items := nd.Items.drop medianIndex, Children := [], IsLeaf := true,
        Parent := nd.Parent, Next := nd.Next }
    let nodes1 :=
      t.nodes.set node { nd with Items := nd.Items.take medianIndex, Next := some newLeaf }
        ++ [newLeafNode]
    match nd.Parent with
    | none => none
    | some parent =>
      match newLeafNode.Items[0]? with
      | none => none
      | some promotedItem =>
        match nodes1[parent]? with
        | none => none
        | some pd =>
          let childIndex := childIndexOf node pd.Children
          if childIndex ≤ pd.Items.length ∧ childIndex + 1 ≤ pd.Children.length then
            let pd1 : Node :=
              { pd with
                Items := insertAt pd.Items childIndex promotedItem
                Children := insertAt pd.Children (childIndex + 1) newLeaf }
            some ({ t with nodes := nodes1.set parent pd1 }, parent)
          else none

/-- The method `splitLeaf`; `splitNode` is the recursive call made when the
parent overflows. -/
def splitLeaf (splitNode : BPlusTree → Nat → Option BPlusTree) (t : BPlusTree) (node : Nat) :
    Option BPlusTree :=
  match splitLeafBody t node with
  | none => none
  | some (t1, parent) => splitParent splitNode t1 parent

/-- The statements of `splitInternal` before its last one: the tree after them
and `parent`.  Slicing past the length of a slice is a fault here. -/
def splitInternalBody (t : BPlusTree) (node : Nat) : Option (BPlusTree × Nat) :=
  match t.nodes[node]? with
  | none => none
  | some nd =>
    let medianIndex := nd.Items.length / 2
    let newInternal := t.nodes.length
    match nd.Items[medianIndex]? with
    | none => none
    | some promotedItem =>
      if medianIndex + 1 ≤ nd.Children.length then
        let newInternalNode : Node :=
          { Items := nd.Items.drop (medianIndex + 1)
            Children := nd.Children.drop (medianIndex + 1)
            IsLeaf := false, Parent := nd.Parent, Next := none }
        let nodes1 :=
          t.nodes.set node
              { nd with
                Items := nd.Items.take medianIndex
                Children := nd.Children.take (medianIndex + 1) }
            ++ [newInternalNode]
        match reparent newInternal nodes1 newInternalNode.Children with
        | none => none
        | some nodes2 =>
          match nd.Parent with
          | none => none
          | some parent =>
            match nodes2[parent]? with
            | none => none
            | some pd =>
              let childIndex := childIndexOf node pd.Children
              if childIndex ≤ pd.Items.length ∧ childIndex + 1 ≤ pd.Children.length then
                let pd1 : Node :=
                  { pd with
                    Items := insertAt pd.Items childIndex promotedItem
                    Children := insertAt pd.Children (childIndex + 1) newInternal }
                some ({ t with nodes := nodes2.set parent pd1 }, parent)
              else none
      else none

/-- The method `splitInternal`; `splitNode` is the recursive call made when the
parent overflows. -/
def splitInternal (splitNode : BPlusTree → Nat → Option BPlusTree) (t : BPlusTree) (node : Nat) :
    Option BPlusTree :=
  match splitInternalBody t node with
  | none => none
  | some (t1, parent) => splitParent splitNode t1 parent

/-- The first four statements of `splitRoot`: a new empty internal root whose only
child is the old root. -/
def wrapRoot (t : BPlusTree) : Option BPlusTree :=
  match t.nodes[t.Root]? with
  | none => none
  | some od =>
    some
      { t with
        Root := t.nodes.length
        nodes := t.nodes.set t.Root { od with Parent := some t.nodes.length }
          ++ [{ Items := [], Children := [t.Root], IsLeaf := false, Parent := none, Next := none }] }

/-- The method `splitRoot`. -/
def splitRoot (splitNode : BPlusTree → Nat → Option BPlusTree) (t : BPlusTree) :
    Option BPlusTree :=
  let oldRoot := t.Root
  match wrapRoot t with
  | none => none
  | some t1 =>
    match t1.nodes[oldRoot]? with
    | none => none
    | some od =>
      if od.IsLeaf then splitLeaf splitNode t1 oldRoot else splitInternal splitNode t1 oldRoot

/-- The method `splitNode`; the fuel bounds the depth of the split cascade. -/
def splitNode : Nat → BPlusTree → Nat → Option BPlusTree
  | 0, _, _ => none
  | f + 1, t, node =>
    match t.nodes[node]? with
    | none => none
    | some nd =>
      match nd.Parent with
      | none => splitRoot (splitNode f) t
      | some _ =>
        if nd.IsLeaf then splitLeaf (splitNode f) t node else splitInternal (splitNode f) t node

/-- The method `(*BPlusTree).Add`: the tree after the call and the returned `int`. -/
def Add (t : BPlusTree) (score : Float64) (member : String) : Option (BPlusTree × Int) :=
  let item := t.items.length
  let t0 : BPlusTree := { t with items := t.items ++ [{ Score := score, Member := member }] }
  match findLeaf t0.nodes.length t0 score t0.Root with
  | none => none
  | some node =>
    match t0.nodes[node]? with
    | none => none
    | some nd =>
      match findMember t0 member nd.Items with
      | none => none
      | some (some a) =>
        match t0.items[a]? with
        | none => none
        | some it => some ({ t0 with items := t0.items.set a { it with Score := score } }, 1)
      | some none =>
        match insertIndex t0 score nd.Items with
        | none => none
        | some i =>
          let nd1 : Node := { nd with Items := insertAt nd.Items i item }
          let t1 : BPlusTree := { t0 with nodes := t0.nodes.set node nd1 }
          if (nd1.Items.length : Int) > t1.Degree - 1 then
            match splitNode (t1.nodes.length + 1) t1 node with
            | none => none
            | some t2 => some (t2, 1)
          else some (t1, 1)

/-- The tree after a sequence of `Add` calls applied to `t`, each given as
`(score, member)`. -/
def addAll : BPlusTree → List (Float64 × String) → Option BPlusTree
  | t, [] => some t
  | t, (score, member) :: rest =>
    match Add t score member with
    | none => none
    | some (t1, _) => addAll t1 rest

/-- Walking the leaf chain from `node` along `Next`, collecting item addresses. -/
def chainWalk : Nat → BPlusTree → Option Nat → Option (List Nat)
  | _, _, none => some []
  | 0, _, some _ => none
  | f + 1, t, some node =>
    match t.nodes[node]? with
    | none => none
    | some nd => (chainWalk f t nd.Next).map (nd.Items ++ ·)

/-- Dereferencing a list of item addresses. -/
def loadItems (t : BPlusTree) : List Nat → Option (List Item)
  | [] => some []
  | a :: as =>
    match t.items[a]? with
    | none => none
    | some it => (loadItems t as).map (it :: ·)

/-- The full leaf-chain traversal: descend through `Children[0]` to the leftmost
leaf, then follow `Next`, reading every entry. -/
def leafChain (t : BPlusTree) : Option (List Item) :=
  match leftmostLeaf t.nodes.length t t.Root with
  | none => none
  | some leaf =>
    match chainWalk t.nodes.length t (some leaf) with
    | none => none
    | some as => loadItems t as

end BPlusTree

/-- The tree reached from `NewBPlusTree degree` by a sequence of `Add` calls. -/
def build (degree : Int) (ops : List (Float64 × String)) : Option BPlusTree :=
  BPlusTree.addAll (NewBPlusTree degree) ops

/-! ## dictionary.go -/

/-- The struct `Object`. -/
structure Object (V : Type) where
  Value : V

/-- The struct `Dictionary`: the two Go maps as partial functions. -/
structure Dictionary (V : Type) where
  objects : String → Option (Object V)
  expired : String → Option Nat

/-- The function `NewDictionary`. -/
def NewDictionary (V : Type) : Dictionary V :=
  { objects := fun _ => none, expired := fun _ => none }

namespace Dictionary

variable {V : Type}

/-- The Go statement `m[key] = v`. -/
def mapSet {β : Type} (m : String → Option β) (key : String) (v : β) : String → Option β :=
  fun k => if k = key then some v else m k

/-- The Go statement `delete(m, key)`. -/
def mapDelete {β : Type} (m : String → Option β) (key : String) : String → Option β :=
  fun k => if k = key then none else m k

/-- The method `(*Dictionary).Set`. -/
def Set (d : Dictionary V) (key : String) (value : V) (expire : Nat) : Dictionary V :=
  let d1 : Dictionary V := { d with objects := mapSet d.objects key { Value := value } }
  if expire > 0 then { d1 with expired := mapSet d1.expired key expire }
  else { d1 with expired := mapDelete d1.expired key }

/-- The method `(*Dictionary).HasExpired`; `now` is `uint64(time.Now().UnixMilli())`. -/
def HasExpired (d : Dictionary V) (key : String) (now : Nat) : Bool :=
  match d.expired key with
  | none => false
  | some expired => decide (expired ≤ now)

/-- The method `(*Dictionary).Delete`. -/
def Delete (d : Dictionary V) (key : String) : Dictionary V :=
  match d.objects key with
  | some _ => { objects := mapDelete d.objects key, expired := mapDelete d.expired key }
  | none => d

/-- The method `(*Dictionary).Get`: the dictionary after the call and the
returned pair (`none` is the `nil` interface value). -/
def Get (d : Dictionary V) (key : String) (now : Nat) : Dictionary V × (Option V × Bool) :=
  match d.objects key with
  | some obj =>
    if d.HasExpired key now then (d.Delete key, (none, false))
    else (d, (some obj.Value, true))
  | none => (d, (none, false))

/-- One call on a dictionary, with the clock reading it observes. -/
inductive Call (V : Type) where
  | set (key : String) (value : V) (expire : Nat)
  | get (key : String) (now : Nat)
  | delete (key : String)
  | hasExpired (key : String) (now : Nat)

/-- The dictionary after one call. -/
def step (d : Dictionary V) : Call V → Dictionary V
  | .set key value expire => d.Set key value expire
  | .get key now => (d.Get key now).1
  | .delete key => d.Delete key
  | .hasExpired _ _ => d

/-- The dictionary after a sequence of calls. -/
def run (d : Dictionary V) : List (Call V) → Dictionary V
  | [] => d
  | c :: cs => run (step d c) cs

/-- The call is a `Set` or a `Delete` of `key`. -/
def Call.writes (key : String) : Call V → Prop
  | .set k _ _ => k = key
  | .delete k => k = key
  | _ => False

/-- The map invariant: a key with an expiry record has a value record. -/
def MapInv (d : Dictionary V) : Prop :=
  ∀ k e, d.expired k = some e → ∃ o, d.objects k = some o

end Dictionary

namespace BPlusTree

/-- Walking the leaf chain from `node` along `Next`, collecting leaf addresses. -/
def leafWalk : Nat → BPlusTree → Option Nat → Option (List Nat)
  | _, _, none => some []
  | 0, _, some _ => none
  | f + 1, t, some node =>
    match t.nodes[node]? with
    | none => none
    | some nd => (leafWalk f t nd.Next).map (node :: ·)

/-- The leaves of the leaf chain, from the leftmost leaf on. -/
def chainLeaves (t : BPlusTree) : Option (List Nat) :=
  match leftmostLeaf t.nodes.length t t.Root with
  | none => none
  | some leaf => leafWalk t.nodes.length t (some leaf)

end BPlusTree

/-- A sequence of entries is non-decreasing in the composite order of `CompareTo`. -/
def NonDecreasing (l : List Item) : Prop :=
  l.Chain' (fun a b => a.CompareTo b ≤ 0)

/-- A sequence of entries is non-decreasing in `Score`. -/
def ScoreSorted (l : List Item) : Prop :=
  l.Chain' (fun a b => a.Score ≤ b.Score)

/-- The number of distinct members among the entries `l` whose composite key is
strictly less than that of the entry `e`. -/
def membersBelow (l : List Item) (e : Item) : Nat :=
  ((l.filter (fun x => decide (x.CompareTo e < 0))).map Item.Member).dedup.length

namespace BPlusTree

/-- Node `n` is reached from the root by following `k` child pointers. -/
inductive Reach (t : BPlusTree) : Nat → Nat → Prop
  | root : Reach t t.Root 0
  | child {n k c : Nat} {nd : Node} :
      Reach t n k → t.nodes[n]? = some nd → c ∈ nd.Children → Reach t c (k + 1)

/-- The shape invariant of the node memory, with a height `ht n` for every node;
`ov` is the one node allowed to hold `Degree` items (a pending split). -/
structure Shape (t : BPlusTree) (ht : Nat → Nat) (ov : Option Nat) : Prop where
  deg : 2 ≤ t.Degree
  root_lt : t.Root < t.nodes.length
  ht_fuel : ht t.Root < t.nodes.length
  ht_le : ∀ n, n < t.nodes.length → ht n ≤ ht t.Root
  leaf_ht : ∀ (n : Nat) (nd : Node), t.nodes[n]? = some nd → (nd.IsLeaf = true ↔ ht n = 0)
  leaf_children : ∀ (n : Nat) (nd : Node), t.nodes[n]? = some nd → nd.IsLeaf = true → nd.Children = []
  arity : ∀ (n : Nat) (nd : Node), t.nodes[n]? = some nd → nd.IsLeaf = false →
    nd.Children.length = nd.Items.length + 1
  child : ∀ (n : Nat) (nd : Node) (c : Nat), t.nodes[n]? = some nd → c ∈ nd.Children →
    ∃ cd, t.nodes[c]? = some cd ∧ cd.Parent = some n ∧ ht c + 1 = ht n
  nodup : ∀ (n : Nat) (nd : Node), t.nodes[n]? = some nd → nd.Children.Nodup
  parent : ∀ (n : Nat) (nd : Node) (p : Nat), t.nodes[n]? = some nd → nd.Parent = some p →
    ∃ pd, t.nodes[p]? = some pd ∧ n ∈ pd.Children
  orphan : ∀ (n : Nat) (nd : Node), t.nodes[n]? = some nd → nd.Parent = none → n = t.Root
  root_parent : ∀ (nd : Node), t.nodes[t.Root]? = some nd → nd.Parent = none
  item_lt : ∀ (n : Nat) (nd : Node) (a : Nat), t.nodes[n]? = some nd → a ∈ nd.Items → a < t.items.length
  size : ∀ (n : Nat) (nd : Node), t.nodes[n]? = some nd →
    (nd.Items.length : Int) ≤ t.Degree - 1 ∨ (ov = some n ∧ (nd.Items.length : Int) = t.Degree)

/-- The tree `t2` is `t` after node `x` (record `xd`, parent `p` with record `pd`)
has been split: `x` keeps the items `I1` and its first `k` children, the new node
at address `t.nodes.length` takes the items `I2` and the other children, and
`sep` goes into the parent. -/
structure SplitStep (t t2 : BPlusTree) (x p : Nat) (xd pd : Node) (I1 I2 : List Nat) (sep k : Nat)
    (nx1 nx2 : Option Nat) : Prop where
  items : t2.items = t.items
  root : t2.Root = t.Root
  degree : t2.Degree = t.Degree
  length : t2.nodes.length = t.nodes.length + 1
  at_x : t2.nodes[x]? = some { xd with Items := I1, Children := xd.Children.take k, Next := nx1 }
  at_new : t2.nodes[t.nodes.length]? =
    some { Items := I2, Children := xd.Children.drop k, IsLeaf := xd.IsLeaf,
           Parent := some p, Next := nx2 }
  at_p : t2.nodes[p]? =
    some { pd with
           Items := insertAt pd.Items (childIndexOf x pd.Children) sep
           Children := insertAt pd.Children (childIndexOf x pd.Children + 1) t.nodes.length }
  at_moved : ∀ (c : Nat) (cd : Node), c ∈ xd.Children.drop k → t.nodes[c]? = some cd →
    t2.nodes[c]? = some { cd with Parent := some t.nodes.length }
  at_other : ∀ n, n ≠ x → n ≠ p → n ≠ t.nodes.length → n ∉ xd.Children.drop k →
    t2.nodes[n]? = t.nodes[n]?

end BPlusTree

namespace BPlusTree

/-- The tree `t1` is `t` after `wrapRoot`: the old root (record `od`) has the new
root, at address `t.nodes.length`, as its parent. -/
structure WrapStep (t t1 : BPlusTree) (od : Node) : Prop where
  items : t1.items = t.items
  root : t1.Root = t.nodes.length
  degree : t1.Degree = t.Degree
  length : t1.nodes.length = t.nodes.length + 1
  at_old : t1.nodes[t.Root]? = some { od with Parent := some t.nodes.length }
  at_new : t1.nodes[t.nodes.length]? =
    some { Items := [], Children := [t.Root], IsLeaf := false, Parent := none, Next := none }
  at_other : ∀ (n : Nat), n ≠ t.Root → n ≠ t.nodes.length → t1.nodes[n]? = t.nodes[n]?

end BPlusTree

namespace BPlusTree

/-- A predicate `I t ht ov` on trees (with node heights `ht` and pending split `ov`)
that implies the shape invariant and is kept by every step of the split cascade. -/
structure SplitClosed (I : BPlusTree → (Nat → Nat) → Option Nat → Prop) : Prop where
  shape : ∀ (t : BPlusTree) (ht : Nat → Nat) (ov : Option Nat), I t ht ov → Shape t ht ov
  wrap : ∀ (t t1 : BPlusTree) (ht : Nat → Nat) (od : Node),
    I t ht (some t.Root) → t.nodes[t.Root]? = some od → WrapStep t t1 od →
    I t1 (Function.update ht t.nodes.length (ht t.Root + 1)) (some t.Root)
  leaf : ∀ (t t2 : BPlusTree) (ht : Nat → Nat) (x p : Nat) (xd pd : Node) (sep : Nat),
    I t ht (some x) → t.nodes[x]? = some xd → xd.IsLeaf = true → xd.Parent = some p →
    t.nodes[p]? = some pd → (xd.Items.length : Int) = t.Degree →
    xd.Items[xd.Items.length / 2]? = some sep →
    SplitStep t t2 x p xd pd (xd.Items.take (xd.Items.length / 2))
      (xd.Items.drop (xd.Items.length / 2)) sep xd.Children.length
      (some t.nodes.length) xd.Next →
    I t2 (Function.update ht t.nodes.length (ht x)) (some p)
  internal : ∀ (t t2 : BPlusTree) (ht : Nat → Nat) (x p : Nat) (xd pd : Node) (sep : Nat),
    I t ht (some x) → t.nodes[x]? = some xd → xd.IsLeaf = false → xd.Parent = some p →
    t.nodes[p]? = some pd → (xd.Items.length : Int) = t.Degree →
    xd.Items[xd.Items.length / 2]? = some sep →
    SplitStep t t2 x p xd pd (xd.Items.take (xd.Items.length / 2))
      (xd.Items.drop (xd.Items.length / 2 + 1)) sep (xd.Items.length / 2 + 1)
      xd.Next none →
    I t2 (Function.update ht t.nodes.length (ht x)) (some p)
  done : ∀ (t : BPlusTree) (ht : Nat → Nat) (p : Nat) (pd : Node),
    I t ht (some p) → t.nodes[p]? = some pd → (pd.Items.length : Int) ≤ t.Degree - 1 →
    I t ht none

end BPlusTree

namespace BPlusTree

/-- The tree after the allocation `item := &Item{Score: score, Member: member}`
at the top of `Add`; the new item has address `t.items.length`. -/
def withItem (t : BPlusTree) (score : Float64) (member : String) : BPlusTree :=
  { t with items := t.items ++ [{ Score := score, Member := member }] }

/-- The tree after item address `a` has been put at index `i` of the leaf `l`
(record `ld`): the three statements after the insertion-point loop of `Add`. -/
def withEntry (t : BPlusTree) (l : Nat) (ld : Node) (i a : Nat) : BPlusTree :=
  { t with nodes := t.nodes.set l { ld with Items := insertAt ld.Items i a } }

/-- The tree after the statement `node.Items[i].Score = score` on item address `a`
(record `it`). -/
def withScore (t : BPlusTree) (a : Nat) (it : Item) (score : Float64) : BPlusTree :=
  { t with items := t.items.set a { it with Score := score } }

end BPlusTree

namespace BPlusTree

/-- The number of the score read through item address `a` (0 when the score is NaN or
the address is not allocated). -/
def scoreAt (t : BPlusTree) (a : Nat) : Int :=
  match t.items[a]? with
  | some it => it.Score.toInt
  | none => 0

/-- The item read through item address `a`. -/
def itemAt (t : BPlusTree) (a : Nat) : Item :=
  match t.items[a]? with
  | some it => it
  | none => { Score := 0, Member := "" }

/-- The score `s` is at or above the lower bound `lo` (`none` is no bound). -/
def LoLe (lo : Option Int) (s : Int) : Prop :=
  ∀ b, lo = some b → b ≤ s

/-- The score `s` is at or below the upper bound `hi` (`none` is no bound). -/
def LeHi (s : Int) (hi : Option Int) : Prop :=
  ∀ b, hi = some b → s ≤ b

/-- The separators `items` and the children `children` of an internal node with
score range `[l, h]` fit: child `i` ranges from separator `i - 1` to separator `i`. -/
def ChildBounds (sc : Nat → Int) (lo hi : Nat → Option Int) :
    Option Int → Option Int → List Nat → List Nat → Prop
  | l, h, [], [c] => lo c = l ∧ hi c = h
  | l, h, a :: as, c :: cs =>
    lo c = l ∧ hi c = some (sc a) ∧ ChildBounds sc lo hi (some (sc a)) h as cs
  | _, _, _, _ => False

/-- The order invariant, with a score range `[lo n, hi n]` for every node `n`:
leaves are sorted by score within their range, the ranges of the children of an
internal node are cut out by its separators, and a leaf's range ends where the
range of its `Next` leaf begins. -/
structure Ord (t : BPlusTree) (lo hi : Nat → Option Int) : Prop where
  root_lo : lo t.Root = none
  root_hi : hi t.Root = none
  within : ∀ (n : Nat) (nd : Node) (a : Nat), t.nodes[n]? = some nd → nd.IsLeaf = true →
    a ∈ nd.Items → LoLe (lo n) (scoreAt t a) ∧ LeHi (scoreAt t a) (hi n)
  lo_le_hi : ∀ (n : Nat) (nd : Node), t.nodes[n]? = some nd →
    ∀ a b, lo n = some a → hi n = some b → a ≤ b
  sorted : ∀ (n : Nat) (nd : Node), t.nodes[n]? = some nd → nd.IsLeaf = true →
    (nd.Items.map (scoreAt t)).Pairwise (· ≤ ·)
  bounds : ∀ (n : Nat) (nd : Node), t.nodes[n]? = some nd → nd.IsLeaf = false →
    ChildBounds (scoreAt t) lo hi (lo n) (hi n) nd.Items nd.Children
  next : ∀ (n : Nat) (nd : Node) (m : Nat), t.nodes[n]? = some nd → nd.IsLeaf = true →
    nd.Next = some m → m < t.nodes.length ∧ ∃ b, hi n = some b ∧ lo m = some b

/-- The leaves `L` are linked by `Next` in this order and the last has no `Next`. -/
def Linked (t : BPlusTree) : List Nat → Prop
  | [] => True
  | [l] => ∃ ld, t.nodes[l]? = some ld ∧ ld.IsLeaf = true ∧ ld.Next = none
  | l :: m :: rest =>
    (∃ ld, t.nodes[l]? = some ld ∧ ld.IsLeaf = true ∧ ld.Next = some m) ∧ Linked t (m :: rest)

/-- The item addresses held by the leaves `L`, in order. -/
def chainIds (t : BPlusTree) : List Nat → List Nat
  | [] => []
  | l :: rest =>
    (match t.nodes[l]? with
      | some ld => ld.Items
      | none => []) ++ chainIds t rest

/-- The leaf-chain invariant: `L` lists every leaf once, starts at the leaf reached
from the root through first children, and is linked by `Next`. -/
structure Chain (t : BPlusTree) (L : List Nat) : Prop where
  first : leftmostLeaf t.nodes.length t t.Root = L.head?
  nonempty : L ≠ []
  nodup : L.Nodup
  linked : Linked t L
  all : ∀ (n : Nat) (nd : Node), t.nodes[n]? = some nd → nd.IsLeaf = true → n ∈ L

/-- The list `L` with `new` put right after `x`. -/
def insertAfter (x new : Nat) : List Nat → List Nat
  | [] => []
  | l :: rest => if l = x then l :: new :: rest else l :: insertAfter x new rest

end BPlusTree

namespace BPlusTree

/-- The invariant of trees built by `Add` calls with pairwise distinct members and no
NaN score: shape, order and leaf chain, the chain holds every allocated item exactly
once, and no allocated item has a NaN score. -/
def Good (t : BPlusTree) : Prop :=
  ∃ (ht : Nat → Nat) (lo hi : Nat → Option Int) (L : List Nat),
    Shape t ht none ∧ Ord t lo hi ∧ Chain t L ∧
      (chainIds t L).Perm (List.range t.items.length) ∧
      ∀ it ∈ t.items, it.Score ≠ Float64.nan

/-- The entry allocated by the call `Add(score, member)`. -/
def toItem (op : Float64 × String) : Item :=
  { Score := op.1, Member := op.2 }

end BPlusTree

namespace BPlusTree

/-- The invariant of every tree built by `Add` calls, whatever the members and
scores: the shape of the node memory and the leaf chain. -/
def Sound (t : BPlusTree) : Prop :=
  ∃ (ht : Nat → Nat) (L : List Nat), Shape t ht none ∧ Chain t L

/-- Node `d` lies in the subtree rooted at node `n`. -/
inductive Below (t : BPlusTree) : Nat → Nat → Prop
  | self (n : Nat) : Below t n n
  | child {n c d : Nat} {nd : Node} :
      t.nodes[n]? = some nd → c ∈ nd.Children → Below t c d → Below t n d

end BPlusTree

namespace BPlusTree

/-- The strict part of the order invariant, for trees whose entries have pairwise
distinct scores: every leaf is strictly ascending in score, and every entry of a leaf
is strictly below the upper end `hi n` of the range of the leaf. -/
structure Strict (t : BPlusTree) (hi : Nat → Option Int) : Prop where
  ascending : ∀ (n : Nat) (nd : Node), t.nodes[n]? = some nd → nd.IsLeaf = true →
    (nd.Items.map (scoreAt t)).Pairwise (· < ·)
  upper : ∀ (n : Nat) (nd : Node) (a : Nat), t.nodes[n]? = some nd → nd.IsLeaf = true →
    a ∈ nd.Items → ∀ b, hi n = some b → scoreAt t a < b

/-- The invariant of trees built by `Add` calls with pairwise distinct members and
pairwise distinct scores, none of them NaN: shape, order and strict order. -/
def Tight (t : BPlusTree) : Prop :=
  ∃ (ht : Nat → Nat) (lo hi : Nat → Option Int),
    Shape t ht none ∧ Ord t lo hi ∧ Strict t hi ∧ ∀ it ∈ t.items, it.Score ≠ Float64.nan

end BPlusTree

namespace BPlusTree

/-- The separator coverage property with the relations `upper` and `lower` between an
entry and a separator: at every internal node and every child index `i`, every entry
stored in a leaf of the subtree `Children[i]` is in the relation `upper` with
`Items[i]` (when `i < len(Items)`) and in the relation `lower` with `Items[i-1]`
(when `i > 0`). -/
def Coverage (t : BPlusTree) (upper lower : Item → Item → Prop) : Prop :=
  ∀ (n : Nat) (nd : Node) (i c d : Nat) (dd : Node) (a : Nat),
    t.nodes[n]? = some nd → nd.IsLeaf = false → nd.Children[i]? = some c →
    Below t c d → t.nodes[d]? = some dd → dd.IsLeaf = true → a ∈ dd.Items →
    (∀ s, nd.Items[i]? = some s → upper (itemAt t a) (itemAt t s)) ∧
    (∀ j s, i = j + 1 → nd.Items[j]? = some s → lower (itemAt t a) (itemAt t s))

end BPlusTree

end ds

/-! # Theorems -/

namespace ds

namespace Float64

theorem num_lt_num (a b : Int) : (num a < num b) ↔ a < b := by
  show lt (num a) (num b) = true ↔ a < b
  simp [lt]

theorem num_le_num (a b : Int) : (num a ≤ num b) ↔ a ≤ b := by
  show le (num a) (num b) = true ↔ a ≤ b
  simp [le]

theorem eq_num_of_ne_nan {a : Float64} (h : a ≠ nan) : a = num a.toInt := by
  cases a with
  | nan => exact absurd rfl h
  | num x => rfl

theorem not_nan_lt (b : Float64) : ¬ (nan < b) := by
  show ¬ (lt nan b = true)
  simp [lt]

theorem not_lt_nan (a : Float64) : ¬ (a < nan) := by
  show ¬ (lt a nan = true)
  cases a <;> simp [lt]

theorem not_nan_le (b : Float64) : ¬ (nan ≤ b) := by
  show ¬ (le nan b = true)
  simp [le]

theorem not_le_nan (a : Float64) : ¬ (a ≤ nan) := by
  show ¬ (le a nan = true)
  cases a <;> simp [le]

theorem lt_iff_toInt {a b : Float64} (ha : a ≠ nan) (hb : b ≠ nan) :
    a < b ↔ a.toInt < b.toInt := by
  rw [eq_num_of_ne_nan ha, eq_num_of_ne_nan hb, num_lt_num]
  rfl

theorem le_iff_toInt {a b : Float64} (ha : a ≠ nan) (hb : b ≠ nan) :
    a ≤ b ↔ a.toInt ≤ b.toInt := by
  rw [eq_num_of_ne_nan ha, eq_num_of_ne_nan hb, num_le_num]
  rfl

theorem le_chain {a b c : Float64} (h1 : a ≤ b) (h2 : b ≤ c) : a ≤ c := by
  cases a with
  | nan => exact absurd h1 (not_nan_le _)
  | num x =>
    cases b with
    | nan => exact absurd h1 (not_le_nan _)
    | num y =>
      cases c with
      | nan => exact absurd h2 (not_le_nan _)
      | num z =>
        rw [num_le_num] at h1 h2 ⊢
        omega

theorem lt_of_le_ne {a b : Float64} (h1 : a ≤ b) (h2 : a ≠ b) : a < b := by
  cases a with
  | nan => exact absurd h1 (not_nan_le _)
  | num x =>
    cases b with
    | nan => exact absurd h1 (not_le_nan _)
    | num y =>
      rw [num_le_num] at h1
      rw [num_lt_num]
      have : x ≠ y := fun e => h2 (by rw [e])
      omega

theorem lt_irr (a : Float64) : ¬ a < a := by
  cases a with
  | nan => exact not_nan_lt _
  | num x => rw [num_lt_num]; omega

theorem lt_asym {a b : Float64} (h : a < b) : ¬ b < a := by
  cases a with
  | nan => exact absurd h (not_nan_lt _)
  | num x =>
    cases b with
    | nan => exact absurd h (not_lt_nan _)
    | num y =>
      rw [num_lt_num] at h ⊢
      omega

theorem lt_chain {a b c : Float64} (h1 : a < b) (h2 : b < c) : a < c := by
  cases a with
  | nan => exact absurd h1 (not_nan_lt _)
  | num x =>
    cases b with
    | nan => exact absurd h1 (not_lt_nan _)
    | num y =>
      cases c with
      | nan => exact absurd h2 (not_lt_nan _)
      | num z =>
        rw [num_lt_num] at h1 h2 ⊢
        omega

theorem lt_tri {a b : Float64} (ha : a ≠ nan) (hb : b ≠ nan) : a < b ∨ a = b ∨ b < a := by
  cases a with
  | nan => exact absurd rfl ha
  | num x =>
    cases b with
    | nan => exact absurd rfl hb
    | num y =>
      rw [num_lt_num, num_lt_num]
      rcases lt_trichotomy x y with h | h | h
      · exact Or.inl h
      · exact Or.inr (Or.inl (by rw [h]))
      · exact Or.inr (Or.inr h)

theorem ne_nan_of_lt {a b : Float64} (h : a < b) : a ≠ nan ∧ b ≠ nan := by
  constructor
  · intro e; rw [e] at h; exact not_nan_lt _ h
  · intro e; rw [e] at h; exact not_lt_nan _ h

theorem toInt_inj {a b : Float64} (ha : a ≠ nan) (hb : b ≠ nan) (h : a.toInt = b.toInt) :
    a = b := by
  rw [eq_num_of_ne_nan ha, eq_num_of_ne_nan hb, h]

end Float64

namespace Dictionary

variable {V : Type}

theorem set_objects (d : Dictionary V) (k : String) (v : V) (e : Nat) :
    (d.Set k v e).objects k = some { Value := v } := by
  unfold Set
  split <;> simp [mapSet]

theorem set_expired_pos (d : Dictionary V) (k : String) (v : V) (e : Nat) (he : 0 < e) :
    (d.Set k v e).expired k = some e := by
  simp [Set, he, mapSet]

theorem set_expired_zero (d : Dictionary V) (k : String) (v : V) :
    (d.Set k v 0).expired k = none := by
  simp [Set, mapDelete]


/-- C7 (Dictionary TTL): after `Set(k, v, e)` with `e > 0`, a `Get(k)` at a clock
time before `e` returns `(v, true)`; a `Get(k)` at a clock time at or after `e`
returns `(nil, false)` and leaves `k` absent from both maps. -/
theorem get_after_set_ttl (d : Dictionary V) (k : String) (v : V) (e now : Nat) (he : 0 < e) :
    (now < e → ((d.Set k v e).Get k now).2 = (some v, true)) ∧
    (e ≤ now →
      ((d.Set k v e).Get k now).2 = (none, false) ∧
      ((d.Set k v e).Get k now).1.objects k = none ∧
      ((d.Set k v e).Get k now).1.expired k = none) := by
  have ho := set_objects d k v e
  have hx := set_expired_pos d k v e he
  constructor
  · intro hlt
    simp [Get, HasExpired, ho, hx, Nat.not_le.mpr hlt]
  · intro hle
    simp [Get, HasExpired, Delete, ho, hx, hle, mapDelete]

/-- The TTL theorem at the scenario of `TestDictionary_Expire`. -/
theorem get_after_set_ttl_witness :
    (0 : Nat) < 1000 ∧
    ((500 < 1000 → (((NewDictionary String).Set "key2" "value2" 1000).Get "key2" 500).2
        = (some "value2", true)) ∧
     (1000 ≤ 500 →
      (((NewDictionary String).Set "key2" "value2" 1000).Get "key2" 500).2 = (none, false) ∧
      (((NewDictionary String).Set "key2" "value2" 1000).Get "key2" 500).1.objects "key2" = none ∧
      (((NewDictionary String).Set "key2" "value2" 1000).Get "key2" 500).1.expired "key2" = none)) :=
  ⟨by decide, get_after_set_ttl (NewDictionary String) "key2" "value2" 1000 500 (by decide)⟩


theorem step_keeps_persistent (d : Dictionary V) (c : Call V) (k : String) (o : Object V)
    (hc : ¬ c.writes k) (ho : d.objects k = some o) (hx : d.expired k = none) :
    (step d c).objects k = some o ∧ (step d c).expired k = none := by
  cases c with
  | set key value expire =>
    have hne : ¬ k = key := fun h => hc h.symm
    simp only [step, Set]
    split <;> simp [mapSet, mapDelete, hne, ho, hx]
  | get key now =>
    simp only [step, Get]
    cases hk : d.objects key with
    | none => simp [ho, hx]
    | some obj =>
      by_cases hexp : d.HasExpired key now = true
      · have hne : ¬ k = key := by
          intro h
          subst h
          simp [HasExpired, hx] at hexp
        simp [hexp, Delete, hk, mapDelete, hne, ho, hx]
      · simp [hexp, ho, hx]
  | delete key =>
    have hne : ¬ k = key := fun h => hc h.symm
    simp only [step, Delete]
    split <;> simp [mapDelete, hne, ho, hx]
  | hasExpired key now => simp [step, ho, hx]

theorem run_keeps_persistent (cs : List (Call V)) (d : Dictionary V) (k : String) (o : Object V)
    (hc : ∀ c ∈ cs, ¬ c.writes k) (ho : d.objects k = some o) (hx : d.expired k = none) :
    (run d cs).objects k = some o ∧ (run d cs).expired k = none := by
  induction cs generalizing d with
  | nil => exact ⟨ho, hx⟩
  | cons c cs ih =>
    have h1 := step_keeps_persistent d c k o (hc c (List.mem_cons_self _ _)) ho hx
    exact ih (step d c) (fun c' hc' => hc c' (List.mem_cons_of_mem _ hc')) h1.1 h1.2

/-- C8 (Dictionary persistence): after `Set(k, v, 0)` on any dictionary, and after
any further calls none of which is a `Set` or `Delete` of `k`, the key `k` has no
expiry record, `HasExpired(k)` is false and `Get(k)` returns `(v, true)`, at every
clock time. -/
theorem get_after_set_persistent (d : Dictionary V) (k : String) (v : V) (cs : List (Call V))
    (now : Nat) (hc : ∀ c ∈ cs, ¬ c.writes k) :
    (run (d.Set k v 0) cs).expired k = none ∧
    (run (d.Set k v 0) cs).HasExpired k now = false ∧
    ((run (d.Set k v 0) cs).Get k now).2 = (some v, true) := by
  have h := run_keeps_persistent cs (d.Set k v 0) k { Value := v } hc
    (set_objects d k v 0) (set_expired_zero d k v)
  refine ⟨h.2, ?_, ?_⟩
  · simp [HasExpired, h.2]
  · simp [Get, HasExpired, h.1, h.2]

/-- The persistence theorem on a dictionary where the key carried an expiry that
has passed, followed by reads of that key and writes of another. -/
theorem get_after_set_persistent_witness :
    (∀ c ∈ [Call.get "k" 5000, Call.set "j" "w" 7, Call.get "j" 9000, Call.delete "j",
        Call.hasExpired "k" 9000], ¬ Call.writes "k" c) ∧
    (run (((NewDictionary String).Set "k" "old" 10).Set "k" "v" 0)
        [Call.get "k" 5000, Call.set "j" "w" 7, Call.get "j" 9000, Call.delete "j",
          Call.hasExpired "k" 9000]).expired "k" = none ∧
    (run (((NewDictionary String).Set "k" "old" 10).Set "k" "v" 0)
        [Call.get "k" 5000, Call.set "j" "w" 7, Call.get "j" 9000, Call.delete "j",
          Call.hasExpired "k" 9000]).HasExpired "k" 99999 = false ∧
    ((run (((NewDictionary String).Set "k" "old" 10).Set "k" "v" 0)
        [Call.get "k" 5000, Call.set "j" "w" 7, Call.get "j" 9000, Call.delete "j",
          Call.hasExpired "k" 9000]).Get "k" 99999).2 = (some "v", true) :=
  have hc : ∀ c ∈ [Call.get "k" 5000, Call.set "j" "w" 7, Call.get "j" 9000, Call.delete "j",
      Call.hasExpired "k" 9000], ¬ Call.writes "k" c := by
    intro c hmem
    simp only [List.mem_cons, List.mem_singleton, List.not_mem_nil, or_false] at hmem
    rcases hmem with h | h | h | h | h <;> subst h <;> simp [Call.writes]
  ⟨hc, get_after_set_persistent ((NewDictionary String).Set "k" "old" 10) "k" "v" _ 99999 hc⟩

theorem inv_new : MapInv (NewDictionary V) := by
  intro k e h
  simp [NewDictionary] at h

theorem inv_set (d : Dictionary V) (k : String) (v : V) (e : Nat) (h : MapInv d) :
    MapInv (d.Set k v e) := by
  intro k' e' hx
  by_cases hk : k' = k
  · subst hk
    exact ⟨_, set_objects d k' v e⟩
  · have hobj : (d.Set k v e).objects k' = d.objects k' := by
      unfold Set
      split <;> simp [mapSet, hk]
    have hexp : (d.Set k v e).expired k' = d.expired k' := by
      unfold Set
      split <;> simp [mapSet, mapDelete, hk]
    rw [hobj]
    rw [hexp] at hx
    exact h k' e' hx

theorem inv_delete (d : Dictionary V) (k : String) (h : MapInv d) : MapInv (d.Delete k) := by
  intro k' e' hx
  unfold Delete at hx ⊢
  split at hx
  · by_cases hk : k' = k
    · simp [mapDelete, hk] at hx
    · simp [mapDelete, hk] at hx ⊢
      exact h k' e' hx
  · exact h k' e' hx

theorem inv_step (d : Dictionary V) (c : Call V) (h : MapInv d) : MapInv (step d c) := by
  cases c with
  | set key value expire => exact inv_set d key value expire h
  | get key now =>
    simp only [step, Get]
    split
    · split
      · exact inv_delete d key h
      · exact h
    · exact h
  | delete key => exact inv_delete d key h
  | hasExpired key now => exact h

theorem inv_run (cs : List (Call V)) (d : Dictionary V) (h : MapInv d) : MapInv (run d cs) := by
  induction cs generalizing d with
  | nil => exact h
  | cons c cs ih => exact ih (step d c) (inv_step d c h)

/-- C9 (Delete): in every dictionary reached from `NewDictionary()` by calls, after
`Delete(k)` the key `k` is absent from both maps and `Get(k)` returns `(nil, false)`
at every clock time; the records of every other key are unchanged; and if `k` had no
value record beforehand the dictionary is unchanged. -/
theorem delete_spec (cs : List (Call V)) (k : String) :
    ((run (NewDictionary V) cs).Delete k).objects k = none ∧
    ((run (NewDictionary V) cs).Delete k).expired k = none ∧
    (∀ now, (((run (NewDictionary V) cs).Delete k).Get k now).2 = (none, false)) ∧
    (∀ j, j ≠ k →
      ((run (NewDictionary V) cs).Delete k).objects j = (run (NewDictionary V) cs).objects j ∧
      ((run (NewDictionary V) cs).Delete k).expired j = (run (NewDictionary V) cs).expired j) ∧
    ((run (NewDictionary V) cs).objects k = none →
      (run (NewDictionary V) cs).Delete k = run (NewDictionary V) cs) := by
  have hinv : MapInv (run (NewDictionary V) cs) := inv_run cs _ inv_new
  generalize run (NewDictionary V) cs = d at hinv
  have hobj : (d.Delete k).objects k = none := by
    unfold Delete
    split
    · simp [mapDelete]
    · next hnone => exact hnone
  have hexp : (d.Delete k).expired k = none := by
    unfold Delete
    split
    · simp [mapDelete]
    · next hnone =>
      cases hx : d.expired k with
      | none => rfl
      | some e =>
        obtain ⟨o, ho⟩ := hinv k e hx
        rw [ho] at hnone
        cases hnone
  refine ⟨hobj, hexp, ?_, ?_, ?_⟩
  · intro now
    simp [Get, hobj]
  · intro j hj
    unfold Delete
    split <;> simp [mapDelete, hj]
  · intro hnone
    simp [Delete, hnone]

/-- C10 (Dictionary map invariant): in every state reached from `NewDictionary()`
by `Set`, `Get`, `Delete` and `HasExpired` calls at arbitrary clock times, every
key present in the expiry map is present in the value map. -/
theorem expired_subset_objects (cs : List (Call V)) (k : String) (e : Nat)
    (h : (run (NewDictionary V) cs).expired k = some e) :
    ∃ o, (run (NewDictionary V) cs).objects k = some o :=
  inv_run cs _ inv_new k e h

/-- The map invariant on a run that sets, reads past expiry, and sets again. -/
theorem expired_subset_objects_witness :
    (run (NewDictionary String)
        [Call.set "a" "x" 100, Call.get "a" 200, Call.set "b" "y" 300, Call.hasExpired "b" 400]).expired
        "b" = some 300 ∧
    ∃ o, (run (NewDictionary String)
        [Call.set "a" "x" 100, Call.get "a" 200, Call.set "b" "y" 300, Call.hasExpired "b" 400]).objects
        "b" = some o :=
  ⟨by simp [run, step, Set, Get, HasExpired, Delete, NewDictionary, mapSet, mapDelete],
   expired_subset_objects _ "b" 300
     (by simp [run, step, Set, Get, HasExpired, Delete, NewDictionary, mapSet, mapDelete])⟩

end Dictionary


namespace BPlusTree

/-- C6 (concrete scenario): on `NewBPlusTree(3)`, after `Add(1,"m1")`, `Add(2,"m2")`,
`Add(3,"m3")`, `Add(4,"m4")` the root is an internal node, the leaf chain has three
leaves, `GetRank("m3")` returns 2 and `Score("m1")` returns `(1, true)`. -/
theorem scenario_degree3 :
    ∃ t, build 3 [(1, "m1"), (2, "m2"), (3, "m3"), (4, "m4")] = some t ∧
      (t.nodes[t.Root]?).map Node.IsLeaf = some false ∧
      (chainLeaves t).map List.length = some 3 ∧
      GetRank t "m3" = some 2 ∧
      Score t "m1" = some (1, true) :=
  ⟨_, rfl, rfl, rfl, rfl, rfl⟩

/-- C1, as stated, fails: with two equal scores the later member is placed first
(`"b"` before `"a"`), an in-place update leaves the entry where it was, and an entry
with a NaN score is placed first whatever the other scores are. -/
theorem ordering_counterexample :
    (∃ l, (build 3 [(1, "a"), (1, "b")]).bind leafChain = some l ∧ ¬ NonDecreasing l) ∧
    (∃ l, (build 3 [(1, "a"), (2, "b"), (5, "a")]).bind leafChain = some l ∧ ¬ ScoreSorted l) ∧
    (∃ l, (build 3 [(1, "a"), (Float64.nan, "n")]).bind leafChain = some l ∧
      ¬ ScoreSorted l) := by
  refine ⟨⟨[⟨1, "b"⟩, ⟨1, "a"⟩], rfl, ?_⟩, ⟨[⟨5, "a"⟩, ⟨2, "b"⟩], rfl, ?_⟩,
    ⟨[⟨Float64.nan, "n"⟩, ⟨1, "a"⟩], rfl, ?_⟩⟩
  · rw [NonDecreasing, List.chain'_pair]
    decide!
  · rw [ScoreSorted, List.chain'_pair]
    decide
  · rw [ScoreSorted, List.chain'_pair]
    decide

/-- C2 at its failing input: after `Add(1,"a")`, `Add(2,"b")`, `Add(3,"c")`,
`Add(0,"c")` on `NewBPlusTree(3)` the leaf chain holds two entries for `"c"`. -/
theorem uniqueness_failing_input :
    (build 3 [(1, "a"), (2, "b"), (3, "c"), (0, "c")]).bind leafChain
      = some [⟨0, "c"⟩, ⟨1, "a"⟩, ⟨2, "b"⟩, ⟨3, "c"⟩] :=
  rfl

/-- C3 at its failing input: on the tree built by `Add(1,"a")`, `Add(2,"b")`,
`Add(3,"c")`, the calls `Add(0,"m")` then `Add(5,"m")` leave `Score("m")` at
`(0, true)`, not `(5, true)`. -/
theorem update_failing_input :
    (build 3 [(1, "a"), (2, "b"), (3, "c"), (0, "m"), (5, "m")]).bind (fun t => Score t "m")
      = some (0, true) :=
  rfl

/-- C4, as stated, fails: after `Add(1,"a")`, `Add(1,"b")` the member `"b"` has rank 0
although one member, `"a"`, has a strictly smaller composite key; after
`Add(1,"a")`, `Add(2,"b")`, `Add(5,"a")` the member `"b"` has rank 1 although no
member has a smaller composite key; and after `Add(1,"a")`, `Add(NaN,"n")` the
member `"a"` has rank 1 although no member has a smaller composite key. -/
theorem rank_counterexample :
    (∃ t l, build 3 [(1, "a"), (1, "b")] = some t ∧ leafChain t = some l ∧
      GetRank t "b" = some 0 ∧ membersBelow l ⟨1, "b"⟩ = 1) ∧
    (∃ t l, build 3 [(1, "a"), (2, "b"), (5, "a")] = some t ∧ leafChain t = some l ∧
      GetRank t "b" = some 1 ∧ membersBelow l ⟨2, "b"⟩ = 0) ∧
    (∃ t l, build 3 [(1, "a"), (Float64.nan, "n")] = some t ∧ leafChain t = some l ∧
      GetRank t "a" = some 1 ∧ membersBelow l ⟨1, "a"⟩ = 0) :=
  ⟨⟨_, [⟨1, "b"⟩, ⟨1, "a"⟩], rfl, rfl, rfl, by decide!⟩,
   ⟨_, [⟨5, "a"⟩, ⟨2, "b"⟩], rfl, rfl, rfl, by decide!⟩,
   ⟨_, [⟨Float64.nan, "n"⟩, ⟨1, "a"⟩], rfl, rfl, rfl, by decide!⟩⟩

end BPlusTree


namespace BPlusTree

theorem insertAt_length {α : Type} (xs : List α) (i : Nat) (x : α) (h : i ≤ xs.length) :
    (insertAt xs i x).length = xs.length + 1 := by
  simp [insertAt, List.length_take, List.length_drop]
  omega

theorem mem_insertAt {α : Type} (xs : List α) (i : Nat) (x y : α) :
    y ∈ insertAt xs i x ↔ y = x ∨ y ∈ xs := by
  unfold insertAt
  rw [List.mem_append, List.mem_cons]
  constructor
  · rintro (h | h | h)
    · exact Or.inr (List.mem_of_mem_take h)
    · exact Or.inl h
    · exact Or.inr (List.mem_of_mem_drop h)
  · rintro (h | h)
    · exact Or.inr (Or.inl h)
    · rw [← List.take_append_drop i xs, List.mem_append] at h
      rcases h with h | h
      · exact Or.inl h
      · exact Or.inr (Or.inr h)

theorem nodup_insertAt {α : Type} (xs : List α) (i : Nat) (x : α) (h : xs.Nodup) (hx : x ∉ xs) :
    (insertAt xs i x).Nodup := by
  unfold insertAt
  have hperm : (xs.take i ++ x :: xs.drop i).Perm (x :: xs) := by
    have h1 : (xs.take i ++ x :: xs.drop i).Perm (x :: (xs.take i ++ xs.drop i)) :=
      List.perm_middle
    rwa [List.take_append_drop] at h1
  exact hperm.nodup_iff.mpr (List.nodup_cons.mpr ⟨hx, h⟩)

theorem insertAt_head {α : Type} (xs : List α) (i : Nat) (x : α) (h : xs ≠ []) :
    (insertAt xs (i + 1) x)[0]? = xs[0]? := by
  cases xs with
  | nil => exact absurd rfl h
  | cons a as => simp [insertAt]

theorem childIndexOf_lt (x : Nat) (cs : List Nat) (h : x ∈ cs) :
    childIndexOf x cs < cs.length := by
  induction cs with
  | nil => cases h
  | cons c cs ih =>
    unfold childIndexOf
    by_cases hc : c = x
    · simp [hc]
    · have : x ∈ cs := by
        rcases List.mem_cons.mp h with h | h
        · exact absurd h.symm hc
        · exact h
      simp [hc, ih this]

theorem childIndexOf_get (x : Nat) (cs : List Nat) (h : x ∈ cs) :
    cs[childIndexOf x cs]? = some x := by
  induction cs with
  | nil => cases h
  | cons c cs ih =>
    unfold childIndexOf
    by_cases hc : c = x
    · simp [hc]
    · have : x ∈ cs := by
        rcases List.mem_cons.mp h with h | h
        · exact absurd h.symm hc
        · exact h
      simp [hc, ih this]

end BPlusTree

namespace BPlusTree

theorem lookup_lt {t : BPlusTree} {n : Nat} {nd : Node} (h : t.nodes[n]? = some nd) :
    n < t.nodes.length := by
  by_contra hge
  rw [List.getElem?_eq_none (Nat.le_of_not_lt hge)] at h
  cases h

theorem not_mem_drop_of_mem_take {l : List Nat} (hl : l.Nodup) (k : Nat) {c : Nat}
    (hc : c ∈ l.take k) : c ∉ l.drop k := by
  intro hd
  have h := hl
  rw [← List.take_append_drop k l] at h
  exact (List.nodup_append.mp h).2.2 hc hd

theorem mem_take_or_drop {l : List Nat} (k : Nat) {c : Nat} (hc : c ∈ l) :
    c ∈ l.take k ∨ c ∈ l.drop k := by
  rw [← List.take_append_drop k l] at hc
  exact List.mem_append.mp hc

section split

variable {t t2 : BPlusTree} {x p : Nat} {xd pd : Node} {I1 I2 : List Nat} {sep k : Nat}
  {nx1 nx2 : Option Nat}

theorem SplitStep.classify_split (hs : SplitStep t t2 x p xd pd I1 I2 sep k nx1 nx2)
    (hmv : ∀ c ∈ xd.Children.drop k, ∃ cd, t.nodes[c]? = some cd)
    (n : Nat) (nd : Node) (h : t2.nodes[n]? = some nd) :
    (n = x ∧ nd = { xd with Items := I1, Children := xd.Children.take k, Next := nx1 }) ∨
    (n = t.nodes.length ∧
      nd = { Items := I2, Children := xd.Children.drop k, IsLeaf := xd.IsLeaf,
             Parent := some p, Next := nx2 }) ∨
    (n = p ∧
      nd = { pd with
             Items := insertAt pd.Items (childIndexOf x pd.Children) sep
             Children := insertAt pd.Children (childIndexOf x pd.Children + 1) t.nodes.length }) ∨
    (n ∈ xd.Children.drop k ∧ n ≠ t.nodes.length ∧
      ∃ cd, t.nodes[n]? = some cd ∧ nd = { cd with Parent := some t.nodes.length }) ∨
    (n ≠ x ∧ n ≠ p ∧ n ≠ t.nodes.length ∧ n ∉ xd.Children.drop k ∧ t.nodes[n]? = some nd) := by
  by_cases h1 : n = x
  · subst h1
    rw [hs.at_x] at h
    exact Or.inl ⟨rfl, (Option.some.inj h).symm⟩
  by_cases h2 : n = t.nodes.length
  · subst h2
    rw [hs.at_new] at h
    exact Or.inr (Or.inl ⟨rfl, (Option.some.inj h).symm⟩)
  by_cases h3 : n = p
  · subst h3
    rw [hs.at_p] at h
    exact Or.inr (Or.inr (Or.inl ⟨rfl, (Option.some.inj h).symm⟩))
  by_cases h4 : n ∈ xd.Children.drop k
  · obtain ⟨cd, hcd⟩ := hmv n h4
    rw [hs.at_moved n cd h4 hcd] at h
    exact Or.inr (Or.inr (Or.inr (Or.inl ⟨h4, h2, cd, hcd, (Option.some.inj h).symm⟩)))
  · rw [hs.at_other n h1 h3 h2 h4] at h
    exact Or.inr (Or.inr (Or.inr (Or.inr ⟨h1, h3, h2, h4, h⟩)))

end split
end BPlusTree


namespace BPlusTree

section split

variable {t t2 : BPlusTree} {x p : Nat} {xd pd : Node} {I1 I2 : List Nat} {sep k : Nat}
  {nx1 nx2 : Option Nat} {ht : Nat → Nat}

/-- How an old node looks after the split: allocated, same leaf flag, and the
parent pointer is kept except for the moved children. -/
theorem SplitStep.old_view (hs : SplitStep t t2 x p xd pd I1 I2 sep k nx1 nx2)
    (hx : t.nodes[x]? = some xd) (hpd : t.nodes[p]? = some pd)
    (c : Nat) (cd : Node) (hc : t.nodes[c]? = some cd) :
    ∃ cd', t2.nodes[c]? = some cd' ∧ cd'.IsLeaf = cd.IsLeaf ∧
      ((c ∈ xd.Children.drop k ∧ c ≠ x ∧ c ≠ p → cd'.Parent = some t.nodes.length) ∧
       (c ∉ xd.Children.drop k ∨ c = x ∨ c = p → cd'.Parent = cd.Parent)) ∧
      (c ≠ x → c ≠ p → cd'.Children = cd.Children ∧ cd'.Items = cd.Items) := by
  have hclt := lookup_lt hc
  by_cases h1 : c = x
  · subst h1
    rw [hx] at hc
    cases hc
    exact ⟨_, hs.at_x, rfl, ⟨fun h => absurd rfl h.2.1, fun _ => rfl⟩, fun h => absurd rfl h⟩
  by_cases h3 : c = p
  · subst h3
    rw [hpd] at hc
    cases hc
    exact ⟨_, hs.at_p, rfl, ⟨fun h => absurd rfl h.2.2, fun _ => rfl⟩, fun _ h => absurd rfl h⟩
  by_cases h4 : c ∈ xd.Children.drop k
  · refine ⟨_, hs.at_moved c cd h4 hc, rfl, ⟨fun _ => rfl, ?_⟩, fun _ _ => ⟨rfl, rfl⟩⟩
    rintro (h | h | h)
    · exact absurd h4 h
    · exact absurd h h1
    · exact absurd h h3
  · refine ⟨cd, ?_, rfl, ⟨fun h => absurd h.1 h4, fun _ => rfl⟩, fun _ _ => ⟨rfl, rfl⟩⟩
    rw [hs.at_other c h1 h3 (Nat.ne_of_lt hclt) h4]
    exact hc

theorem SplitStep.shape_split (hs : SplitStep t t2 x p xd pd I1 I2 sep k nx1 nx2)
    (sh : Shape t ht (some x))
    (hx : t.nodes[x]? = some xd) (hp : xd.Parent = some p) (hpd : t.nodes[p]? = some pd)
    (h1 : (I1.length : Int) ≤ t.Degree - 1) (h2 : (I2.length : Int) ≤ t.Degree - 1)
    (hI1 : ∀ a ∈ I1, a ∈ xd.Items) (hI2 : ∀ a ∈ I2, a ∈ xd.Items) (hsep : sep ∈ xd.Items)
    (hk1 : xd.IsLeaf = false → (xd.Children.take k).length = I1.length + 1)
    (hk2 : xd.IsLeaf = false → (xd.Children.drop k).length = I2.length + 1) :
    Shape t2 (Function.update ht t.nodes.length (ht x)) (some p) := by
  -- facts about the old tree
  have hxlt := lookup_lt hx
  have hplt := lookup_lt hpd
  have hxmem : x ∈ pd.Children := by
    obtain ⟨pd', hpd', hmem⟩ := sh.parent x xd p hx hp
    rw [hpd] at hpd'
    cases hpd'
    exact hmem
  have hhtp : ht x + 1 = ht p := by
    obtain ⟨cd, hcd, _, hh⟩ := sh.child p pd x hpd hxmem
    exact hh
  have hxp : x ≠ p := by
    intro h
    rw [h] at hhtp
    omega
  have hpleaf : pd.IsLeaf = false := by
    cases hl : pd.IsLeaf with
    | false => rfl
    | true =>
      have := sh.leaf_children p pd hpd hl
      rw [this] at hxmem
      cases hxmem
  have hci := childIndexOf_lt x pd.Children hxmem
  have hpar := sh.arity p pd hpd hpleaf
  have hmvc : ∀ c ∈ xd.Children.drop k,
      ∃ cd, t.nodes[c]? = some cd ∧ cd.Parent = some x ∧ ht c + 1 = ht x :=
    fun c hc => sh.child x xd c hx (List.mem_of_mem_drop hc)
  have hmv : ∀ c ∈ xd.Children.drop k, ∃ cd, t.nodes[c]? = some cd :=
    fun c hc => (hmvc c hc).imp fun _ h => h.1
  have hmvx : ∀ c ∈ xd.Children.drop k, c ≠ x ∧ c ≠ p := by
    intro c hc
    obtain ⟨cd, _, _, hh⟩ := hmvc c hc
    constructor <;> intro h <;> rw [h] at hh <;> omega
  have hht : ∀ n, n < t.nodes.length →
      Function.update ht t.nodes.length (ht x) n = ht n := fun n hn =>
    Function.update_noteq (Nat.ne_of_lt hn) _ _
  have hhtnew : Function.update ht t.nodes.length (ht x) t.nodes.length = ht x :=
    Function.update_same _ _ _
  -- what the parent pointer of an old node says about being moved
  have hmoved_parent : ∀ c cd, t.nodes[c]? = some cd → c ∈ xd.Children.drop k →
      cd.Parent = some x := by
    intro c cd hc hm
    obtain ⟨cd', hcd', hpar', _⟩ := hmvc c hm
    rw [hc] at hcd'
    cases hcd'
    exact hpar'
  have hcls := hs.classify_split hmv
  refine
    { deg := ?_, root_lt := ?_, ht_fuel := ?_, ht_le := ?_, leaf_ht := ?_, leaf_children := ?_,
      arity := ?_, child := ?_, nodup := ?_, parent := ?_, orphan := ?_, root_parent := ?_,
      item_lt := ?_, size := ?_ }
  · rw [hs.degree]; exact sh.deg
  · rw [hs.root, hs.length]; exact Nat.lt_succ_of_lt sh.root_lt
  · rw [hs.root, hs.length, hht _ sh.root_lt]; exact Nat.lt_succ_of_lt sh.ht_fuel
  · intro n hn
    rw [hs.length] at hn
    rw [hs.root, hht _ sh.root_lt]
    by_cases hnew : n = t.nodes.length
    · rw [hnew, hhtnew]; exact sh.ht_le x hxlt
    · have hn' : n < t.nodes.length := by omega
      rw [hht n hn']; exact sh.ht_le n hn'
  · -- leaf_ht
    intro n nd hn
    rcases hcls n nd hn with ⟨rfl, rfl⟩ | ⟨rfl, rfl⟩ | ⟨rfl, rfl⟩ | ⟨_, hne, cd, hcd, rfl⟩ |
      ⟨_, _, hne, _, hold⟩
    · rw [hht _ hxlt]; exact sh.leaf_ht _ xd hx
    · rw [hhtnew]; exact sh.leaf_ht x xd hx
    · rw [hht _ hplt]; exact sh.leaf_ht _ pd hpd
    · rw [hht _ (lookup_lt hcd)]; exact sh.leaf_ht n cd hcd
    · rw [hht _ (lookup_lt hold)]; exact sh.leaf_ht n nd hold
  · -- leaf_children
    intro n nd hn hleaf
    rcases hcls n nd hn with ⟨rfl, rfl⟩ | ⟨rfl, rfl⟩ | ⟨rfl, rfl⟩ | ⟨_, hne, cd, hcd, rfl⟩ |
      ⟨_, _, hne, _, hold⟩
    · have := sh.leaf_children _ xd hx hleaf
      simp [this]
    · have := sh.leaf_children _ xd hx hleaf
      simp [this]
    · rw [hpleaf] at hleaf; cases hleaf
    · exact sh.leaf_children n cd hcd hleaf
    · exact sh.leaf_children n nd hold hleaf
  · -- arity
    intro n nd hn hleaf
    rcases hcls n nd hn with ⟨rfl, rfl⟩ | ⟨rfl, rfl⟩ | ⟨rfl, rfl⟩ | ⟨_, hne, cd, hcd, rfl⟩ |
      ⟨_, _, hne, _, hold⟩
    · exact hk1 hleaf
    · exact hk2 hleaf
    · show (insertAt _ _ _).length = (insertAt _ _ _).length + 1
      rw [insertAt_length _ _ _ (by omega), insertAt_length _ _ _ (by omega)]
      omega
    · exact sh.arity n cd hcd hleaf
    · exact sh.arity n nd hold hleaf
  · -- child
    intro n nd c hn hc
    -- the generic argument for a child `c` that is an old child of an old node `m`
    have key : ∀ m md, t.nodes[m]? = some md → c ∈ md.Children →
        (c ∈ xd.Children.drop k → m = x) →
        (m = x → c ∉ xd.Children.drop k) →
        ∃ cd', t2.nodes[c]? = some cd' ∧ cd'.Parent = some m ∧
          Function.update ht t.nodes.length (ht x) c + 1 = ht m := by
      intro m md hm hcm hmx hxm
      obtain ⟨cd, hcd, hcp, hch⟩ := sh.child m md c hm hcm
      obtain ⟨cd', hcd', _, ⟨_, hkeep⟩, _⟩ := hs.old_view hx hpd c cd hcd
      refine ⟨cd', hcd', ?_, ?_⟩
      · rw [hkeep, hcp]
        by_cases hcm' : c ∈ xd.Children.drop k
        · exact absurd hcm' (hxm (hmx hcm'))
        · exact Or.inl hcm'
      · rw [hht c (lookup_lt hcd)]; exact hch
    have key' : ∀ m md, t.nodes[m]? = some md → c ∈ md.Children → m ≠ x →
        ∃ cd', t2.nodes[c]? = some cd' ∧ cd'.Parent = some m ∧
          Function.update ht t.nodes.length (ht x) c + 1 = ht m := by
      intro m md hm hcm hmx
      refine key m md hm hcm ?_ (fun h => absurd h hmx)
      intro hmv'
      obtain ⟨cd, hcd, hcp, _⟩ := sh.child m md c hm hcm
      have := hmoved_parent c cd hcd hmv'
      rw [hcp] at this
      exact Option.some.inj this
    rcases hcls n nd hn with ⟨rfl, rfl⟩ | ⟨rfl, rfl⟩ | ⟨rfl, rfl⟩ | ⟨_, hne, cd, hcd, rfl⟩ |
      ⟨hnx, _, hne, _, hold⟩
    · rw [hht _ hxlt]
      have hct : c ∈ xd.Children.take k := hc
      exact key _ xd hx (List.mem_of_mem_take hct) (fun _ => rfl)
        (fun _ => not_mem_drop_of_mem_take (sh.nodup _ xd hx) k hct)
    · rw [hhtnew]
      have hcdp : c ∈ xd.Children.drop k := hc
      obtain ⟨cd, hcd, _, hch⟩ := hmvc c hcdp
      refine ⟨_, hs.at_moved c cd hcdp hcd, rfl, ?_⟩
      rw [hht c (lookup_lt hcd)]; exact hch
    · rw [hht _ hplt]
      have hcm : c ∈ insertAt pd.Children (childIndexOf x pd.Children + 1) t.nodes.length := hc
      rcases (mem_insertAt _ _ _ _).mp hcm with hcn | hcold
      · subst hcn
        exact ⟨_, hs.at_new, rfl, by rw [hhtnew]; exact hhtp⟩
      · exact key' _ pd hpd hcold (Ne.symm hxp)
    · rw [hht _ (lookup_lt hcd)]
      exact key' n cd hcd hc (hmvx n ‹_›).1
    · rw [hht _ (lookup_lt hold)]
      exact key' n nd hold hc hnx
  · -- nodup
    intro n nd hn
    rcases hcls n nd hn with ⟨rfl, rfl⟩ | ⟨rfl, rfl⟩ | ⟨rfl, rfl⟩ | ⟨_, hne, cd, hcd, rfl⟩ |
      ⟨_, _, hne, _, hold⟩
    · exact (sh.nodup _ xd hx).sublist (List.take_sublist _ _)
    · exact (sh.nodup _ xd hx).sublist (List.drop_sublist _ _)
    · refine nodup_insertAt _ _ _ (sh.nodup _ pd hpd) ?_
      intro hmem
      obtain ⟨cd, hcd, _⟩ := sh.child _ pd _ hpd hmem
      exact absurd (lookup_lt hcd) (Nat.lt_irrefl _)
    · exact sh.nodup n cd hcd
    · exact sh.nodup n nd hold
  · -- parent
    intro n nd q hn hq
    -- the generic argument: `n` was a child of the old node `q` and stays one
    have key : ∀ nd0, t.nodes[n]? = some nd0 → nd0.Parent = some q →
        (q = x → n ∉ xd.Children.drop k) →
        ∃ qd', t2.nodes[q]? = some qd' ∧ n ∈ qd'.Children := by
      intro nd0 hn0 hq0 hqx
      obtain ⟨qd, hqd, hmem⟩ := sh.parent n nd0 q hn0 hq0
      by_cases e1 : q = x
      · subst e1
        rw [hx] at hqd
        cases hqd
        refine ⟨_, hs.at_x, ?_⟩
        rcases mem_take_or_drop k hmem with h | h
        · exact h
        · exact absurd h (hqx rfl)
      by_cases e2 : q = p
      · subst e2
        rw [hpd] at hqd
        cases hqd
        exact ⟨_, hs.at_p, (mem_insertAt _ _ _ _).mpr (Or.inr hmem)⟩
      obtain ⟨qd', hqd', _, _, hch⟩ := hs.old_view hx hpd q qd hqd
      exact ⟨qd', hqd', by rw [(hch e1 e2).1]; exact hmem⟩
    rcases hcls n nd hn with ⟨rfl, rfl⟩ | ⟨rfl, rfl⟩ | ⟨rfl, rfl⟩ | ⟨hmvn, hne, cd, hcd, rfl⟩ |
      ⟨_, _, hne, hnm, hold⟩
    · have hq' : xd.Parent = some q := hq
      rw [hp] at hq'
      cases hq'
      exact ⟨_, hs.at_p, (mem_insertAt _ _ _ _).mpr (Or.inr hxmem)⟩
    · have hq' : some p = some q := hq
      cases hq'
      exact ⟨_, hs.at_p, (mem_insertAt _ _ _ _).mpr (Or.inl rfl)⟩
    · refine key pd hpd hq ?_
      intro hqx hmem
      exact (hmvx _ hmem).2 rfl
    · have hq' : some t.nodes.length = some q := hq
      cases hq'
      exact ⟨_, hs.at_new, hmvn⟩
    · exact key nd hold hq (fun _ => hnm)
  · -- orphan
    intro n nd hn hnone
    rw [hs.root]
    rcases hcls n nd hn with ⟨rfl, rfl⟩ | ⟨rfl, rfl⟩ | ⟨rfl, rfl⟩ | ⟨_, hne, cd, hcd, rfl⟩ |
      ⟨_, _, hne, _, hold⟩
    · have : xd.Parent = none := hnone
      rw [hp] at this; cases this
    · cases hnone
    · exact sh.orphan _ pd hpd hnone
    · cases hnone
    · exact sh.orphan n nd hold hnone
  · -- root_parent
    intro nd hn
    rw [hs.root] at hn
    obtain ⟨rd, hrd⟩ : ∃ rd, t.nodes[t.Root]? = some rd :=
      ⟨_, List.getElem?_eq_getElem sh.root_lt⟩
    have hrp := sh.root_parent rd hrd
    obtain ⟨rd', hrd', _, ⟨_, hkeep⟩, _⟩ := hs.old_view hx hpd _ rd hrd
    rw [hn] at hrd'
    cases hrd'
    rw [hkeep, hrp]
    by_cases hm : t.Root ∈ xd.Children.drop k
    · have := hmoved_parent _ rd hrd hm
      rw [hrp] at this; cases this
    · exact Or.inl hm
  · -- item_lt
    intro n nd a hn ha
    rw [hs.items]
    rcases hcls n nd hn with ⟨rfl, rfl⟩ | ⟨rfl, rfl⟩ | ⟨rfl, rfl⟩ | ⟨_, hne, cd, hcd, rfl⟩ |
      ⟨_, _, hne, _, hold⟩
    · exact sh.item_lt _ xd a hx (hI1 a ha)
    · exact sh.item_lt x xd a hx (hI2 a ha)
    · have ha' : a ∈ insertAt pd.Items (childIndexOf x pd.Children) sep := ha
      rcases (mem_insertAt _ _ _ _).mp ha' with h | h
      · rw [h]; exact sh.item_lt x xd sep hx hsep
      · exact sh.item_lt _ pd a hpd h
    · exact sh.item_lt n cd a hcd ha
    · exact sh.item_lt n nd a hold ha
  · -- size
    intro n nd hn
    rw [hs.degree]
    rcases hcls n nd hn with ⟨rfl, rfl⟩ | ⟨rfl, rfl⟩ | ⟨rfl, rfl⟩ | ⟨hmvn, hne, cd, hcd, rfl⟩ |
      ⟨hnx, _, hne, _, hold⟩
    · exact Or.inl h1
    · exact Or.inl h2
    · have hsz : ((insertAt pd.Items (childIndexOf x pd.Children) sep).length : Int)
          = pd.Items.length + 1 := by
        rw [insertAt_length _ _ _ (by omega)]; push_cast; rfl
      show ((insertAt pd.Items (childIndexOf x pd.Children) sep).length : Int) ≤ _ ∨ _
      rw [hsz]
      rcases sh.size _ pd hpd with h | ⟨h, _⟩
      · by_cases hlt : (pd.Items.length : Int) + 1 ≤ t.Degree - 1
        · exact Or.inl hlt
        · exact Or.inr ⟨rfl, by omega⟩
      · exact absurd (Option.some.inj h) hxp
    · rcases sh.size n cd hcd with h | ⟨h, _⟩
      · exact Or.inl h
      · exact absurd (Option.some.inj h).symm (hmvx n hmvn).1
    · rcases sh.size n nd hold with h | ⟨h, _⟩
      · exact Or.inl h
      · exact absurd (Option.some.inj h).symm hnx

end split
end BPlusTree


namespace BPlusTree

theorem lookup_alloc_set (l : List Node) (x p : Nat) (a b c : Node)
    (hx : x < l.length) (hp : p < l.length) (n : Nat) :
    (((l.set x a) ++ [b]).set p c)[n]? =
      if n = p then some c else if n = l.length then some b else if n = x then some a
      else l[n]? := by
  rw [List.getElem?_set]
  by_cases h1 : p = n
  · subst h1
    simp [hp, Nat.lt_succ_of_lt hp]
  · have h1' : ¬ n = p := fun h => h1 h.symm
    simp only [h1, h1', if_false]
    by_cases h2 : n = l.length
    · subst h2
      simp
    · simp only [h2, if_false]
      by_cases h3 : n < l.length
      · rw [List.getElem?_append_left (by simpa using h3), List.getElem?_set]
        by_cases h4 : x = n
        · subst h4; simp [hx]
        · have h4' : ¬ n = x := fun h => h4 h.symm
          simp [h4, h4']
      · have h5 : l.length + 1 ≤ n := by omega
        have hxn : ¬ n = x := by omega
        rw [List.getElem?_eq_none (by simpa using h5)]
        simp only [hxn, if_false]
        rw [List.getElem?_eq_none (by omega)]

theorem reparent_spec (new : Nat) (cs : List Nat) :
    ∀ nodes : List Node, (∀ c ∈ cs, c < nodes.length) →
      ∃ nodes', reparent new nodes cs = some nodes' ∧ nodes'.length = nodes.length ∧
        ∀ n, nodes'[n]? =
          if n ∈ cs then (nodes[n]?).map (fun cd => { cd with Parent := some new })
          else nodes[n]? := by
  induction cs with
  | nil =>
    intro nodes _
    exact ⟨nodes, rfl, rfl, fun n => by simp⟩
  | cons c cs ih =>
    intro nodes hval
    have hc : c < nodes.length := hval c (List.mem_cons_self _ _)
    obtain ⟨nodes', h1, h2, h3⟩ :=
      ih (nodes.set c { nodes[c] with Parent := some new })
        (fun d hd => by rw [List.length_set]; exact hval d (List.mem_cons_of_mem _ hd))
    refine ⟨nodes', ?_, ?_, ?_⟩
    · simp only [reparent, List.getElem?_eq_getElem hc]
      exact h1
    · rw [h2, List.length_set]
    · intro n
      rw [h3 n, List.getElem?_set]
      by_cases hnc : c = n
      · subst hnc
        simp [hc]
      · have hnc' : ¬ n = c := fun h => hnc h.symm
        simp [hnc, hnc']

end BPlusTree


namespace BPlusTree

variable {t : BPlusTree} {x p : Nat} {xd pd : Node} {ht : Nat → Nat} {ov : Option Nat}

theorem Shape.parent_facts (sh : Shape t ht ov)
    (hx : t.nodes[x]? = some xd) (hp : xd.Parent = some p) (hpd : t.nodes[p]? = some pd) :
    x ∈ pd.Children ∧ ht x + 1 = ht p ∧ x ≠ p ∧ pd.IsLeaf = false ∧
      childIndexOf x pd.Children < pd.Children.length ∧
      pd.Children.length = pd.Items.length + 1 := by
  have hxmem : x ∈ pd.Children := by
    obtain ⟨pd', hpd', hmem⟩ := sh.parent x xd p hx hp
    rw [hpd] at hpd'
    cases hpd'
    exact hmem
  have hhtp : ht x + 1 = ht p := by
    obtain ⟨cd, hcd, _, hh⟩ := sh.child p pd x hpd hxmem
    exact hh
  have hxp : x ≠ p := by
    intro h
    rw [h] at hhtp
    omega
  have hpleaf : pd.IsLeaf = false := by
    cases hl : pd.IsLeaf with
    | false => rfl
    | true =>
      have := sh.leaf_children p pd hpd hl
      rw [this] at hxmem
      cases hxmem
  exact ⟨hxmem, hhtp, hxp, hpleaf, childIndexOf_lt x pd.Children hxmem,
    sh.arity p pd hpd hpleaf⟩

theorem splitLeafBody_step (sh : Shape t ht ov)
    (hx : t.nodes[x]? = some xd) (hp : xd.Parent = some p) (hpd : t.nodes[p]? = some pd)
    (hpos : 0 < xd.Items.length) (hleaf : xd.IsLeaf = true) :
    ∃ t2 sep, splitLeafBody t x = some (t2, p) ∧
      xd.Items[xd.Items.length / 2]? = some sep ∧
      SplitStep t t2 x p xd pd (xd.Items.take (xd.Items.length / 2))
        (xd.Items.drop (xd.Items.length / 2)) sep xd.Children.length
        (some t.nodes.length) xd.Next := by
  obtain ⟨hxmem, _, hxp, _, hci, hpar⟩ := sh.parent_facts hx hp hpd
  rcases xd with ⟨xI, xC, xL, xP, xN⟩
  simp only at hp hpos hleaf ⊢
  subst hp
  subst hleaf
  have hxlt := lookup_lt hx
  have hplt := lookup_lt hpd
  have hm : xI.length / 2 < xI.length := Nat.div_lt_self hpos (by decide)
  have hsep : xI[xI.length / 2]? = some (xI[xI.length / 2]) :=
    List.getElem?_eq_getElem hm
  have hsepm : xI[xI.length / 2] ∈ xI := List.getElem_mem _
  generalize hsepdef : xI[xI.length / 2] = sep at hsep hsepm
  generalize hmdef : xI.length / 2 = m at hsep hm
  let xd1 : Node := { Items := xI.take m, Children := xC, IsLeaf := true, Parent := some p, Next := some t.nodes.length }
  let nl : Node :=
    { Items := xI.drop m, Children := [], IsLeaf := true, Parent := some p,
      Next := xN }
  let pd1 : Node :=
    { pd with
      Items := insertAt pd.Items (childIndexOf x pd.Children) sep
      Children := insertAt pd.Children (childIndexOf x pd.Children + 1) t.nodes.length }
  have hlook := lookup_alloc_set t.nodes x p xd1 nl pd1 hxlt hplt
  have hn1 : ((t.nodes.set x xd1) ++ [nl])[p]? = some pd := by
    rw [List.getElem?_append_left (by simpa using hplt), List.getElem?_set]
    simp [hxp, hpd]
  refine ⟨{ t with nodes := ((t.nodes.set x xd1) ++ [nl]).set p pd1 }, sep, ?_, hsep, ?_⟩
  · simp only [splitLeafBody, hx, List.getElem?_drop, Nat.add_zero, hmdef, hsep, hn1]
    rw [if_pos ⟨by omega, by omega⟩]
  · refine
      { items := rfl, root := rfl, degree := rfl, length := ?_, at_x := ?_, at_new := ?_,
        at_p := ?_, at_moved := ?_, at_other := ?_ }
    · simp
    · show (((t.nodes.set x xd1) ++ [nl]).set p pd1)[x]? = _
      rw [hlook]
      simp [hxp, Nat.ne_of_lt hxlt, xd1]
    · show (((t.nodes.set x xd1) ++ [nl]).set p pd1)[t.nodes.length]? = _
      rw [hlook]
      simp [Nat.ne_of_gt hplt, nl]
    · show (((t.nodes.set x xd1) ++ [nl]).set p pd1)[p]? = _
      rw [hlook]
      simp [pd1]
    · intro c cd hc
      simp at hc
    · intro n h1 h2 h3 _
      show (((t.nodes.set x xd1) ++ [nl]).set p pd1)[n]? = _
      rw [hlook]
      simp [h1, h2, h3]

end BPlusTree


namespace BPlusTree

theorem lookup_alloc (l : List Node) (x : Nat) (a b : Node) (hx : x < l.length) (n : Nat) :
    ((l.set x a) ++ [b])[n]? =
      if n = l.length then some b else if n = x then some a else l[n]? := by
  by_cases h2 : n = l.length
  · subst h2
    simp
  · simp only [h2, if_false]
    by_cases h3 : n < l.length
    · rw [List.getElem?_append_left (by simpa using h3), List.getElem?_set]
      by_cases h4 : x = n
      · subst h4; simp [hx]
      · have h4' : ¬ n = x := fun h => h4 h.symm
        simp [h4, h4']
    · have h5 : l.length + 1 ≤ n := by omega
      have hxn : ¬ n = x := by omega
      rw [List.getElem?_eq_none (by simpa using h5)]
      simp only [hxn, if_false]
      rw [List.getElem?_eq_none (by omega)]

variable {t : BPlusTree} {x p : Nat} {xd pd : Node} {ht : Nat → Nat} {ov : Option Nat}

theorem splitInternalBody_step (sh : Shape t ht ov)
    (hx : t.nodes[x]? = some xd) (hp : xd.Parent = some p) (hpd : t.nodes[p]? = some pd)
    (hpos : 0 < xd.Items.length) (hleaf : xd.IsLeaf = false) :
    ∃ t2 sep, splitInternalBody t x = some (t2, p) ∧
      xd.Items[xd.Items.length / 2]? = some sep ∧
      SplitStep t t2 x p xd pd (xd.Items.take (xd.Items.length / 2))
        (xd.Items.drop (xd.Items.length / 2 + 1)) sep (xd.Items.length / 2 + 1)
        xd.Next none := by
  obtain ⟨hxmem, hhtp, hxp, _, hci, hpar⟩ := sh.parent_facts hx hp hpd
  have harity := sh.arity x xd hx hleaf
  have hchild := sh.child x xd
  rcases xd with ⟨xI, xC, xL, xP, xN⟩
  simp only at hp hpos hleaf harity hchild ⊢
  subst hp
  subst hleaf
  have hxlt := lookup_lt hx
  have hplt := lookup_lt hpd
  have hm : xI.length / 2 < xI.length := Nat.div_lt_self hpos (by decide)
  have hsep : xI[xI.length / 2]? = some (xI[xI.length / 2]) :=
    List.getElem?_eq_getElem hm
  generalize hsepdef : xI[xI.length / 2] = sep at hsep
  generalize hmdef : xI.length / 2 = m at hsep hm
  let xd1 : Node :=
    { Items := xI.take m, Children := xC.take (m + 1), IsLeaf := false, Parent := some p,
      Next := xN }
  let nn : Node :=
    { Items := xI.drop (m + 1), Children := xC.drop (m + 1), IsLeaf := false, Parent := some p,
      Next := none }
  let pd1 : Node :=
    { pd with
      Items := insertAt pd.Items (childIndexOf x pd.Children) sep
      Children := insertAt pd.Children (childIndexOf x pd.Children + 1) t.nodes.length }
  have hmvc : ∀ c ∈ xC.drop (m + 1),
      ∃ cd, t.nodes[c]? = some cd ∧ cd.Parent = some x ∧ ht c + 1 = ht x :=
    fun c hc => hchild c hx (List.mem_of_mem_drop hc)
  have hmvne : ∀ c ∈ xC.drop (m + 1), c ≠ x ∧ c ≠ p ∧ c < t.nodes.length := by
    intro c hc
    obtain ⟨cd, hcd, _, hh⟩ := hmvc c hc
    refine ⟨?_, ?_, lookup_lt hcd⟩ <;> intro h <;> rw [h] at hh <;> omega
  have hl1 := lookup_alloc t.nodes x xd1 nn hxlt
  obtain ⟨nodes2, hr1, hr2, hr3⟩ := reparent_spec t.nodes.length (xC.drop (m + 1))
    ((t.nodes.set x xd1) ++ [nn])
    (fun c hc => by
      have := (hmvne c hc).2.2
      simp only [List.length_append, List.length_set, List.length_singleton]
      omega)
  have hpn : p ∉ xC.drop (m + 1) := fun h => (hmvne p h).2.1 rfl
  have hxn : x ∉ xC.drop (m + 1) := fun h => (hmvne x h).1 rfl
  have hnn : t.nodes.length ∉ xC.drop (m + 1) := fun h =>
    Nat.lt_irrefl _ (hmvne _ h).2.2
  have hn2 : nodes2[p]? = some pd := by
    rw [hr3, if_neg hpn, hl1, if_neg (Nat.ne_of_lt hplt), if_neg (Ne.symm hxp), hpd]
  have hlen2 : nodes2.length = t.nodes.length + 1 := by
    rw [hr2]; simp
  have hfin : ∀ n, (nodes2.set p pd1)[n]? = if n = p then some pd1 else nodes2[n]? := by
    intro n
    rw [List.getElem?_set]
    by_cases h : p = n
    · subst h
      simp [hlen2, Nat.lt_succ_of_lt hplt]
    · have h' : ¬ n = p := fun e => h e.symm
      simp [h, h']
  refine ⟨{ t with nodes := nodes2.set p pd1 }, sep, ?_, hsep, ?_⟩
  · simp only [splitInternalBody, hx, hmdef, hsep]
    rw [if_pos (by omega)]
    simp only [hr1, hn2]
    rw [if_pos ⟨by omega, by omega⟩]
  · refine
      { items := rfl, root := rfl, degree := rfl, length := ?_, at_x := ?_, at_new := ?_,
        at_p := ?_, at_moved := ?_, at_other := ?_ }
    · simp [hlen2]
    · show (nodes2.set p pd1)[x]? = _
      rw [hfin, if_neg hxp, hr3, if_neg hxn, hl1, if_neg (Nat.ne_of_lt hxlt), if_pos rfl]
    · show (nodes2.set p pd1)[t.nodes.length]? = _
      rw [hfin, if_neg (Nat.ne_of_gt hplt), hr3, if_neg hnn, hl1, if_pos rfl]
    · show (nodes2.set p pd1)[p]? = _
      rw [hfin, if_pos rfl]
    · intro c cd hc hcd
      show (nodes2.set p pd1)[c]? = _
      obtain ⟨h1, h2, h3⟩ := hmvne c hc
      rw [hfin, if_neg h2, hr3, if_pos hc, hl1, if_neg (Nat.ne_of_lt h3), if_neg h1, hcd]
      rfl
    · intro n h1 h2 h3 h4
      show (nodes2.set p pd1)[n]? = _
      rw [hfin, if_neg h2, hr3, if_neg h4, hl1, if_neg h3, if_neg h1]

end BPlusTree


namespace BPlusTree

variable {t t1 : BPlusTree} {od : Node} {ht : Nat → Nat} {ov : Option Nat}

theorem wrapRoot_step (hroot : t.nodes[t.Root]? = some od) :
    ∃ t1, wrapRoot t = some t1 ∧ WrapStep t t1 od := by
  have hlt := lookup_lt hroot
  have hl := lookup_alloc t.nodes t.Root { od with Parent := some t.nodes.length }
    { Items := [], Children := [t.Root], IsLeaf := false, Parent := none, Next := none } hlt
  refine ⟨{ t with
      Root := t.nodes.length
      nodes := t.nodes.set t.Root { od with Parent := some t.nodes.length }
        ++ [{ Items := [], Children := [t.Root], IsLeaf := false, Parent := none, Next := none }] },
    by simp only [wrapRoot, hroot], ?_⟩
  refine
    { items := rfl, root := rfl, degree := rfl, length := by simp, at_old := ?_, at_new := ?_,
      at_other := ?_ }
  · show (_ ++ _)[t.Root]? = _
    rw [hl, if_neg (Nat.ne_of_lt hlt), if_pos rfl]
  · show (_ ++ _)[t.nodes.length]? = _
    rw [hl, if_pos rfl]
  · intro n h1 h2
    show (_ ++ _)[n]? = _
    rw [hl, if_neg h2, if_neg h1]

theorem WrapStep.classify_wrap (hw : WrapStep t t1 od) (n : Nat) (nd : Node)
    (h : t1.nodes[n]? = some nd) :
    (n = t.Root ∧ nd = { od with Parent := some t.nodes.length }) ∨
    (n = t.nodes.length ∧
      nd = { Items := [], Children := [t.Root], IsLeaf := false, Parent := none, Next := none }) ∨
    (n ≠ t.Root ∧ n ≠ t.nodes.length ∧ t.nodes[n]? = some nd) := by
  by_cases h1 : n = t.Root
  · subst h1
    rw [hw.at_old] at h
    exact Or.inl ⟨rfl, (Option.some.inj h).symm⟩
  by_cases h2 : n = t.nodes.length
  · subst h2
    rw [hw.at_new] at h
    exact Or.inr (Or.inl ⟨rfl, (Option.some.inj h).symm⟩)
  · rw [hw.at_other n h1 h2] at h
    exact Or.inr (Or.inr ⟨h1, h2, h⟩)

theorem WrapStep.shape_wrap (hw : WrapStep t t1 od) (sh : Shape t ht ov)
    (hroot : t.nodes[t.Root]? = some od) :
    Shape t1 (Function.update ht t.nodes.length (ht t.Root + 1)) ov := by
  have hrlt := sh.root_lt
  have hht : ∀ n, n < t.nodes.length →
      Function.update ht t.nodes.length (ht t.Root + 1) n = ht n := fun n hn =>
    Function.update_noteq (Nat.ne_of_lt hn) _ _
  have hhtnew : Function.update ht t.nodes.length (ht t.Root + 1) t.nodes.length
      = ht t.Root + 1 := Function.update_same _ _ _
  have hrp := sh.root_parent od hroot
  have hcls := hw.classify_wrap
  -- an old child of an old node is not the old root and is found unchanged
  have hchild_old : ∀ m md c, t.nodes[m]? = some md → c ∈ md.Children →
      ∃ cd, t1.nodes[c]? = some cd ∧ cd.Parent = some m ∧
        Function.update ht t.nodes.length (ht t.Root + 1) c + 1 = ht m := by
    intro m md c hm hc
    obtain ⟨cd, hcd, hcp, hch⟩ := sh.child m md c hm hc
    have hcr : c ≠ t.Root := by
      intro h
      subst h
      rw [hroot] at hcd
      cases hcd
      rw [hrp] at hcp
      cases hcp
    refine ⟨cd, ?_, hcp, ?_⟩
    · rw [hw.at_other c hcr (Nat.ne_of_lt (lookup_lt hcd))]; exact hcd
    · rw [hht c (lookup_lt hcd)]; exact hch
  refine
    { deg := ?_, root_lt := ?_, ht_fuel := ?_, ht_le := ?_, leaf_ht := ?_, leaf_children := ?_,
      arity := ?_, child := ?_, nodup := ?_, parent := ?_, orphan := ?_, root_parent := ?_,
      item_lt := ?_, size := ?_ }
  · rw [hw.degree]; exact sh.deg
  · rw [hw.root, hw.length]; exact Nat.lt_succ_self _
  · rw [hw.root, hw.length, hhtnew]; exact Nat.succ_lt_succ sh.ht_fuel
  · intro n hn
    rw [hw.length] at hn
    rw [hw.root, hhtnew]
    by_cases hnew : n = t.nodes.length
    · rw [hnew, hhtnew]
    · have hn' : n < t.nodes.length := by omega
      rw [hht n hn']
      exact Nat.le_succ_of_le (sh.ht_le n hn')
  · intro n nd hn
    rcases hcls n nd hn with ⟨rfl, rfl⟩ | ⟨rfl, rfl⟩ | ⟨_, _, hold⟩
    · rw [hht _ hrlt]; exact sh.leaf_ht _ od hroot
    · rw [hhtnew]; simp
    · rw [hht _ (lookup_lt hold)]; exact sh.leaf_ht n nd hold
  · intro n nd hn hleaf
    rcases hcls n nd hn with ⟨rfl, rfl⟩ | ⟨rfl, rfl⟩ | ⟨_, _, hold⟩
    · exact sh.leaf_children _ od hroot hleaf
    · cases hleaf
    · exact sh.leaf_children n nd hold hleaf
  · intro n nd hn hleaf
    rcases hcls n nd hn with ⟨rfl, rfl⟩ | ⟨rfl, rfl⟩ | ⟨_, _, hold⟩
    · exact sh.arity _ od hroot hleaf
    · rfl
    · exact sh.arity n nd hold hleaf
  · intro n nd c hn hc
    rcases hcls n nd hn with ⟨rfl, rfl⟩ | ⟨rfl, rfl⟩ | ⟨_, _, hold⟩
    · rw [hht _ hrlt]; exact hchild_old _ od c hroot hc
    · have hc' : c = t.Root := by simpa using hc
      subst hc'
      exact ⟨_, hw.at_old, rfl, by rw [hht _ hrlt, hhtnew]⟩
    · rw [hht _ (lookup_lt hold)]; exact hchild_old n nd c hold hc
  · intro n nd hn
    rcases hcls n nd hn with ⟨rfl, rfl⟩ | ⟨rfl, rfl⟩ | ⟨_, _, hold⟩
    · exact sh.nodup _ od hroot
    · simp
    · exact sh.nodup n nd hold
  · intro n nd q hn hq
    have key : ∀ nd0, t.nodes[n]? = some nd0 → nd0.Parent = some q →
        ∃ qd', t1.nodes[q]? = some qd' ∧ n ∈ qd'.Children := by
      intro nd0 hn0 hq0
      obtain ⟨qd, hqd, hmem⟩ := sh.parent n nd0 q hn0 hq0
      by_cases e1 : q = t.Root
      · subst e1
        rw [hroot] at hqd
        cases hqd
        exact ⟨_, hw.at_old, hmem⟩
      · refine ⟨qd, ?_, hmem⟩
        rw [hw.at_other q e1 (Nat.ne_of_lt (lookup_lt hqd))]; exact hqd
    rcases hcls n nd hn with ⟨rfl, rfl⟩ | ⟨rfl, rfl⟩ | ⟨_, _, hold⟩
    · have hq' : some t.nodes.length = some q := hq
      cases hq'
      exact ⟨_, hw.at_new, by simp⟩
    · cases hq
    · exact key nd hold hq
  · intro n nd hn hnone
    rw [hw.root]
    rcases hcls n nd hn with ⟨rfl, rfl⟩ | ⟨rfl, rfl⟩ | ⟨h1, _, hold⟩
    · cases hnone
    · rfl
    · exact absurd (sh.orphan n nd hold hnone) h1
  · intro nd hn
    rw [hw.root, hw.at_new] at hn
    cases hn
    rfl
  · intro n nd a hn ha
    rw [hw.items]
    rcases hcls n nd hn with ⟨rfl, rfl⟩ | ⟨rfl, rfl⟩ | ⟨_, _, hold⟩
    · exact sh.item_lt _ od a hroot ha
    · cases ha
    · exact sh.item_lt n nd a hold ha
  · intro n nd hn
    rw [hw.degree]
    rcases hcls n nd hn with ⟨rfl, rfl⟩ | ⟨rfl, rfl⟩ | ⟨_, _, hold⟩
    · exact sh.size _ od hroot
    · left
      have := sh.deg
      show ((0 : Nat) : Int) ≤ _
      omega
    · exact sh.size n nd hold

end BPlusTree


namespace BPlusTree

/-- After a split step whose parent does not overflow, or overflows and is split
in turn by `k`, `splitParent` returns what the continuation gives. -/
theorem splitParent_eq (k : BPlusTree → Nat → Option BPlusTree) (t : BPlusTree) (p : Nat)
    (pd : Node) (hpd : t.nodes[p]? = some pd) :
    splitParent k t p =
      if (pd.Items.length : Int) > t.Degree - 1 then k t p else some t := by
  simp only [splitParent, hpd]

theorem splitNode_closed {I : BPlusTree → (Nat → Nat) → Option Nat → Prop} (hI : SplitClosed I) :
    ∀ (f : Nat) (t : BPlusTree) (ht : Nat → Nat) (x : Nat) (xd : Node),
      I t ht (some x) → t.nodes[x]? = some xd → (xd.Items.length : Int) = t.Degree →
      ht t.Root - ht x < f →
      ∃ t' ht', splitNode f t x = some t' ∧ I t' ht' none := by
  intro f
  induction f with
  | zero => intro t ht x xd _ _ _ hf; omega
  | succ f ih =>
    intro t ht x xd hinv hx hfull hfuel
    have sh := hI.shape t ht (some x) hinv
    have hdeg := sh.deg
    have hpos : 0 < xd.Items.length := by omega
    -- one split step below a parent `p`, followed by `splitParent`
    have step : ∀ (t : BPlusTree) (ht : Nat → Nat) (x p : Nat) (xd pd : Node)
        (body : BPlusTree → Nat → Option (BPlusTree × Nat)),
        (body = splitLeafBody ∧ xd.IsLeaf = true ∨ body = splitInternalBody ∧ xd.IsLeaf = false) →
        I t ht (some x) → t.nodes[x]? = some xd → (xd.Items.length : Int) = t.Degree →
        xd.Parent = some p → t.nodes[p]? = some pd →
        ht t.Root - ht p < f ∨ (pd.Items.length : Int) + 1 ≤ t.Degree - 1 →
        ∃ t' ht', (match body t x with
            | none => none
            | some (t1, parent) => splitParent (splitNode f) t1 parent) = some t' ∧
          I t' ht' none := by
      intro t ht x p xd pd body hbody hinv hx hfull hp hpd hfuel
      have sh := hI.shape t ht (some x) hinv
      have hdeg := sh.deg
      have hpos : 0 < xd.Items.length := by omega
      obtain ⟨hxmem, hhtp, hxp, hpleaf, hci, hpar⟩ := sh.parent_facts hx hp hpd
      have hplt := lookup_lt hpd
      -- the two kinds of body give the same kind of result
      have hres : ∃ t2, body t x = some (t2, p) ∧
          I t2 (Function.update ht t.nodes.length (ht x)) (some p) ∧
          t2.nodes[p]? = some
            { pd with
              Items := insertAt pd.Items (childIndexOf x pd.Children)
                (xd.Items[xd.Items.length / 2]?.getD 0)
              Children := insertAt pd.Children (childIndexOf x pd.Children + 1) t.nodes.length } ∧
          t2.Root = t.Root ∧ t2.Degree = t.Degree := by
        rcases hbody with ⟨rfl, hleaf⟩ | ⟨rfl, hleaf⟩
        · obtain ⟨t2, sep, hb, hsep, hs⟩ := splitLeafBody_step sh hx hp hpd hpos hleaf
          refine ⟨t2, hb, hI.leaf t t2 ht x p xd pd sep hinv hx hleaf hp hpd hfull hsep hs, ?_,
            hs.root, hs.degree⟩
          rw [hs.at_p, hsep]; rfl
        · obtain ⟨t2, sep, hb, hsep, hs⟩ := splitInternalBody_step sh hx hp hpd hpos hleaf
          refine ⟨t2, hb, hI.internal t t2 ht x p xd pd sep hinv hx hleaf hp hpd hfull hsep hs,
            ?_, hs.root, hs.degree⟩
          rw [hs.at_p, hsep]; rfl
      obtain ⟨t2, hb, hinv2, hp2, hroot2, hdeg2⟩ := hres
      have sh2 := hI.shape _ _ _ hinv2
      simp only [hb]
      rw [splitParent_eq _ _ _ _ hp2]
      by_cases hov : ((insertAt pd.Items (childIndexOf x pd.Children)
          (xd.Items[xd.Items.length / 2]?.getD 0)).length : Int) > t2.Degree - 1
      · rw [if_pos hov]
        have hlen : ((insertAt pd.Items (childIndexOf x pd.Children)
            (xd.Items[xd.Items.length / 2]?.getD 0)).length : Int) = pd.Items.length + 1 := by
          rw [insertAt_length _ _ _ (by omega)]; push_cast; rfl
        have hfull2 : ((insertAt pd.Items (childIndexOf x pd.Children)
            (xd.Items[xd.Items.length / 2]?.getD 0)).length : Int) = t2.Degree := by
          rcases sh2.size p _ hp2 with h | ⟨_, h⟩
          · exact absurd hov (by
              have h' : ((insertAt pd.Items (childIndexOf x pd.Children)
                (xd.Items[xd.Items.length / 2]?.getD 0)).length : Int) ≤ t2.Degree - 1 := h
              omega)
          · exact h
        refine ih t2 _ p _ hinv2 hp2 hfull2 ?_
        rw [hroot2, Function.update_noteq (Nat.ne_of_lt sh.root_lt),
          Function.update_noteq (Nat.ne_of_lt hplt)]
        rcases hfuel with h | h
        · exact h
        · rw [hlen, hdeg2] at hov
          omega
      · rw [if_neg hov]
        exact ⟨t2, _, rfl, hI.done t2 _ p _ hinv2 hp2 (by
          have h' : ¬ ((insertAt pd.Items (childIndexOf x pd.Children)
                (xd.Items[xd.Items.length / 2]?.getD 0)).length : Int) > t2.Degree - 1 := hov
          show ((insertAt pd.Items (childIndexOf x pd.Children)
                (xd.Items[xd.Items.length / 2]?.getD 0)).length : Int) ≤ t2.Degree - 1
          omega)⟩
    simp only [splitNode, hx]
    cases hpar : xd.Parent with
    | none =>
      have hxr : x = t.Root := sh.orphan x xd hx hpar
      subst hxr
      obtain ⟨t1, hw1, hw⟩ := wrapRoot_step hx
      have hinv1 := hI.wrap t t1 ht xd hinv hx hw
      simp only [splitRoot, hw1, hw.at_old]
      have hdeg1 : (2 : Int) ≤ t1.Degree := by rw [hw.degree]; exact hdeg
      cases hleaf : xd.IsLeaf with
      | true =>
        simp only [if_true, splitLeaf]
        exact step t1 _ t.Root t.nodes.length { xd with Parent := some t.nodes.length } _
          splitLeafBody (Or.inl ⟨rfl, hleaf⟩) hinv1
          hw.at_old (by rw [hw.degree]; exact hfull) rfl hw.at_new
          (Or.inr (by simp only [List.length_nil]; push_cast; omega))
      | false =>
        simp only [splitInternal]
        exact step t1 _ t.Root t.nodes.length { xd with Parent := some t.nodes.length } _
          splitInternalBody (Or.inr ⟨rfl, hleaf⟩) hinv1
          hw.at_old (by rw [hw.degree]; exact hfull) rfl hw.at_new
          (Or.inr (by simp only [List.length_nil]; push_cast; omega))
    | some p =>
      obtain ⟨pd, hpd, _⟩ := sh.parent x xd p hx hpar
      obtain ⟨_, hhtp, _, _, _, _⟩ := sh.parent_facts hx hpar hpd
      have hple := sh.ht_le p (lookup_lt hpd)
      cases hleaf : xd.IsLeaf with
      | true =>
        simp only [if_true, splitLeaf]
        exact step t ht x p xd pd splitLeafBody (Or.inl ⟨rfl, hleaf⟩) hinv hx hfull hpar hpd
          (Or.inl (by omega))
      | false =>
        simp only [splitInternal]
        exact step t ht x p xd pd splitInternalBody (Or.inr ⟨rfl, hleaf⟩) hinv hx hfull hpar hpd
          (Or.inl (by omega))

end BPlusTree


namespace BPlusTree

theorem Shape.clear {t : BPlusTree} {ht : Nat → Nat} {p : Nat} {pd : Node}
    (sh : Shape t ht (some p)) (hpd : t.nodes[p]? = some pd)
    (hsz : (pd.Items.length : Int) ≤ t.Degree - 1) : Shape t ht none := by
  refine { sh with size := ?_ }
  intro n nd hn
  rcases sh.size n nd hn with h | ⟨h, _⟩
  · exact Or.inl h
  · cases h
    rw [hpd] at hn
    cases hn
    exact Or.inl hsz

theorem Shape.weaken {t : BPlusTree} {ht : Nat → Nat} {ov : Option Nat}
    (sh : Shape t ht none) : Shape t ht ov := by
  refine { sh with size := ?_ }
  intro n nd hn
  rcases sh.size n nd hn with h | ⟨h, _⟩
  · exact Or.inl h
  · cases h

theorem shape_splitClosed : SplitClosed Shape where
  shape := fun _ _ _ h => h
  wrap := fun t t1 ht od h hroot hw => hw.shape_wrap h hroot
  leaf := by
    intro t t2 ht x p xd pd sep sh hx hleaf hp hpd hfull hsep hs
    have hdeg := sh.deg
    refine hs.shape_split sh hx hp hpd ?_ ?_ (fun a ha => List.mem_of_mem_take ha)
      (fun a ha => List.mem_of_mem_drop ha) (List.getElem?_mem hsep)
      (fun h => by rw [hleaf] at h; cases h) (fun h => by rw [hleaf] at h; cases h)
    · rw [List.length_take]; omega
    · rw [List.length_drop]; omega
  internal := by
    intro t t2 ht x p xd pd sep sh hx hleaf hp hpd hfull hsep hs
    have hdeg := sh.deg
    have har := sh.arity x xd hx hleaf
    refine hs.shape_split sh hx hp hpd ?_ ?_ (fun a ha => List.mem_of_mem_take ha)
      (fun a ha => List.mem_of_mem_drop ha) (List.getElem?_mem hsep) ?_ ?_
    · rw [List.length_take]; omega
    · rw [List.length_drop]; omega
    · intro _
      rw [List.length_take, List.length_take]; omega
    · intro _
      rw [List.length_drop, List.length_drop]; omega
  done := fun t ht p pd sh hpd hsz => sh.clear hpd hsz


/-! ### The loops of `Add` return -/

theorem descentIndex_some (t : BPlusTree) (score : Float64) (as : List Nat)
    (h : ∀ a ∈ as, a < t.items.length) :
    ∃ i, descentIndex t score as = some i ∧ i ≤ as.length := by
  induction as with
  | nil => exact ⟨0, rfl, Nat.le_refl _⟩
  | cons a as ih =>
    obtain ⟨i, hi, hle⟩ := ih (fun b hb => h b (List.mem_cons_of_mem _ hb))
    have ha := h a (List.mem_cons_self _ _)
    simp only [descentIndex, List.getElem?_eq_getElem ha]
    by_cases hc : score ≥ (t.items[a]).Score
    · exact ⟨i + 1, by simp [hc, hi], by simpa using hle⟩
    · exact ⟨0, by simp [hc], Nat.zero_le _⟩

theorem insertIndex_some (t : BPlusTree) (score : Float64) (as : List Nat)
    (h : ∀ a ∈ as, a < t.items.length) :
    ∃ i, insertIndex t score as = some i ∧ i ≤ as.length := by
  induction as with
  | nil => exact ⟨0, rfl, Nat.le_refl _⟩
  | cons a as ih =>
    obtain ⟨i, hi, hle⟩ := ih (fun b hb => h b (List.mem_cons_of_mem _ hb))
    have ha := h a (List.mem_cons_self _ _)
    simp only [insertIndex, List.getElem?_eq_getElem ha]
    by_cases hc : score > (t.items[a]).Score
    · exact ⟨i + 1, by simp [hc, hi], by simpa using hle⟩
    · exact ⟨0, by simp [hc], Nat.zero_le _⟩

theorem findMember_some (t : BPlusTree) (member : String) (as : List Nat)
    (h : ∀ a ∈ as, a < t.items.length) :
    ∃ r, findMember t member as = some r ∧ ∀ a, r = some a → a ∈ as ∧ a < t.items.length := by
  induction as with
  | nil => exact ⟨none, rfl, fun a ha => by cases ha⟩
  | cons a as ih =>
    obtain ⟨r, hr, hmem⟩ := ih (fun b hb => h b (List.mem_cons_of_mem _ hb))
    have ha := h a (List.mem_cons_self _ _)
    simp only [findMember, List.getElem?_eq_getElem ha]
    by_cases hc : (t.items[a]).Member = member
    · refine ⟨some a, by simp [hc], ?_⟩
      intro b hb
      cases hb
      exact ⟨List.mem_cons_self _ _, ha⟩
    · refine ⟨r, by simp [hc, hr], ?_⟩
      intro b hb
      exact ⟨List.mem_cons_of_mem _ (hmem b hb).1, (hmem b hb).2⟩

theorem findLeaf_some {t : BPlusTree} {ht : Nat → Nat} {ov : Option Nat} (sh : Shape t ht ov)
    (score : Float64) :
    ∀ (f n : Nat) (nd : Node), t.nodes[n]? = some nd → ht n < f →
      ∃ l ld, findLeaf f t score n = some l ∧ t.nodes[l]? = some ld ∧ ld.IsLeaf = true := by
  intro f
  induction f with
  | zero => intro n nd _ h; omega
  | succ f ih =>
    intro n nd hn hf
    simp only [findLeaf, hn]
    cases hleaf : nd.IsLeaf with
    | true => exact ⟨n, nd, by simp, hn, hleaf⟩
    | false =>
      obtain ⟨i, hi, hle⟩ := descentIndex_some t score nd.Items (fun a ha => sh.item_lt n nd a hn ha)
      have har := sh.arity n nd hn hleaf
      have hilt : i < nd.Children.length := by omega
      obtain ⟨cd, hcd, _, hch⟩ := sh.child n nd (nd.Children[i]) hn (List.getElem_mem _)
      obtain ⟨l, ld, h1, h2, h3⟩ := ih (nd.Children[i]) cd hcd (by omega)
      refine ⟨l, ld, ?_, h2, h3⟩
      simp [hi, List.getElem?_eq_getElem hilt, h1]


theorem Shape.after_withItem {t : BPlusTree} {ht : Nat → Nat} {ov : Option Nat} (sh : Shape t ht ov)
    (score : Float64) (member : String) : Shape (withItem t score member) ht ov := by
  refine { sh with item_lt := ?_ }
  intro n nd a hn ha
  have := sh.item_lt n nd a hn ha
  simp only [BPlusTree.withItem, List.length_append, List.length_singleton]
  omega

theorem Shape.after_withScore {t : BPlusTree} {ht : Nat → Nat} {ov : Option Nat} (sh : Shape t ht ov)
    (a : Nat) (it : Item) (score : Float64) : Shape (withScore t a it score) ht ov := by
  refine { sh with item_lt := ?_ }
  intro n nd b hn hb
  have := sh.item_lt n nd b hn hb
  simp only [BPlusTree.withScore, List.length_set]
  exact this

/-- The two ways `Add` can go, once the shape invariant guarantees that its loops return. -/
theorem Add_cases {t : BPlusTree} {ht : Nat → Nat} (sh : Shape t ht none)
    (score : Float64) (member : String) :
    ∃ l ld, t.nodes[l]? = some ld ∧ ld.IsLeaf = true ∧
      findLeaf t.nodes.length (withItem t score member) score t.Root = some l ∧
      ((∃ a it, findMember (withItem t score member) member ld.Items = some (some a) ∧
          a ∈ ld.Items ∧ (withItem t score member).items[a]? = some it ∧
          Add t score member = some (withScore (withItem t score member) a it score, 1)) ∨
       (findMember (withItem t score member) member ld.Items = some none ∧
        ∃ i, insertIndex (withItem t score member) score ld.Items = some i ∧
          i ≤ ld.Items.length ∧
          (((insertAt ld.Items i t.items.length).length : Int) > t.Degree - 1 →
            ∀ t2, splitNode (t.nodes.length + 1)
                (withEntry (withItem t score member) l ld i t.items.length) l = some t2 →
              Add t score member = some (t2, 1)) ∧
          (¬ ((insertAt ld.Items i t.items.length).length : Int) > t.Degree - 1 →
            Add t score member
              = some (withEntry (withItem t score member) l ld i t.items.length, 1)))) := by
  have sh0 := sh.after_withItem score member
  obtain ⟨rd, hrd⟩ : ∃ rd, t.nodes[t.Root]? = some rd :=
    ⟨_, List.getElem?_eq_getElem sh.root_lt⟩
  obtain ⟨l, ld, hfl, hl, hleaf⟩ := findLeaf_some sh0 score t.nodes.length t.Root rd hrd sh.ht_fuel
  have hitems : ∀ a ∈ ld.Items, a < (withItem t score member).items.length :=
    fun a ha => sh0.item_lt l ld a hl ha
  obtain ⟨r, hr, hrm⟩ := findMember_some (withItem t score member) member ld.Items hitems
  have hl' : t.nodes[l]? = some ld := hl
  refine ⟨l, ld, hl, hleaf, hfl, ?_⟩
  have hfl' : findLeaf t.nodes.length
      { items := t.items ++ [{ Score := score, Member := member }], nodes := t.nodes,
        Root := t.Root, Degree := t.Degree } score t.Root = some l := hfl
  have hr' : findMember
      { items := t.items ++ [{ Score := score, Member := member }], nodes := t.nodes,
        Root := t.Root, Degree := t.Degree } member ld.Items = some r := hr
  cases r with
  | some a =>
    left
    obtain ⟨ham, halt⟩ := hrm a rfl
    refine ⟨a, _, hr, ham, List.getElem?_eq_getElem halt, ?_⟩
    have hget : (t.items ++ [{ Score := score, Member := member }])[a]?
        = some ((withItem t score member).items[a]) := List.getElem?_eq_getElem halt
    simp only [Add, hfl', hl', hr', hget]
    rfl
  | none =>
    right
    obtain ⟨i, hi, hle⟩ := insertIndex_some (withItem t score member) score ld.Items hitems
    have hi' : insertIndex
        { items := t.items ++ [{ Score := score, Member := member }], nodes := t.nodes,
          Root := t.Root, Degree := t.Degree } score ld.Items = some i := hi
    refine ⟨hr, i, hi, hle, ?_, ?_⟩
    · intro hov t2 ht2
      have ht2' : splitNode ((t.nodes.set l
            { Items := insertAt ld.Items i t.items.length, Children := ld.Children,
              IsLeaf := ld.IsLeaf, Parent := ld.Parent, Next := ld.Next }).length + 1)
          { items := t.items ++ [{ Score := score, Member := member }],
            nodes := t.nodes.set l
              { Items := insertAt ld.Items i t.items.length, Children := ld.Children,
                IsLeaf := ld.IsLeaf, Parent := ld.Parent, Next := ld.Next },
            Root := t.Root, Degree := t.Degree } l = some t2 := by
        rw [List.length_set]; exact ht2
      simp only [Add, hfl', hl', hr', hi', if_pos hov, ht2']
    · intro hov
      simp only [Add, hfl', hl', hr', hi', if_neg hov]
      rfl

end BPlusTree


namespace BPlusTree

theorem withEntry_lookup {t : BPlusTree} {l : Nat} {ld : Node} (i a : Nat)
    (hl : t.nodes[l]? = some ld) (n : Nat) :
    (withEntry t l ld i a).nodes[n]? =
      if n = l then some { ld with Items := insertAt ld.Items i a } else t.nodes[n]? := by
  simp only [withEntry, List.getElem?_set]
  by_cases h : l = n
  · subst h
    simp [lookup_lt hl]
  · have h' : ¬ n = l := fun e => h e.symm
    simp [h, h']

theorem Shape.after_withEntry {t : BPlusTree} {ht : Nat → Nat} {l : Nat} {ld : Node} {i a : Nat}
    (sh : Shape t ht none) (hl : t.nodes[l]? = some ld) (hlf : ld.IsLeaf = true)
    (hi : i ≤ ld.Items.length) (ha : a < t.items.length) : Shape (withEntry t l ld i a) ht (some l) := by
  have hlook := withEntry_lookup i a hl
  have hlen : (BPlusTree.withEntry t l ld i a).nodes.length = t.nodes.length := by
    simp [BPlusTree.withEntry]
  -- every node of the new tree is an old node with the same pointers
  have hold : ∀ n nd, (BPlusTree.withEntry t l ld i a).nodes[n]? = some nd →
      ∃ nd0, t.nodes[n]? = some nd0 ∧ nd.Children = nd0.Children ∧ nd.IsLeaf = nd0.IsLeaf ∧
        nd.Parent = nd0.Parent ∧
        (n ≠ l → nd = nd0) ∧ (n = l → nd.Items = insertAt ld.Items i a) := by
    intro n nd hn
    rw [hlook] at hn
    by_cases h : n = l
    · subst h
      rw [if_pos rfl] at hn
      cases hn
      exact ⟨ld, hl, rfl, rfl, rfl, fun h => absurd rfl h, fun _ => rfl⟩
    · rw [if_neg h] at hn
      exact ⟨nd, hn, rfl, rfl, rfl, fun _ => rfl, fun h' => absurd h' h⟩
  have hnew : ∀ (n : Nat) (nd0 : Node), t.nodes[n]? = some nd0 →
      ∃ nd, (BPlusTree.withEntry t l ld i a).nodes[n]? = some nd ∧ nd.Children = nd0.Children ∧
        nd.Parent = nd0.Parent := by
    intro n nd0 hn
    rw [hlook]
    by_cases h : n = l
    · subst h
      rw [hl] at hn
      cases hn
      exact ⟨_, if_pos rfl, rfl, rfl⟩
    · exact ⟨nd0, by rw [if_neg h]; exact hn, rfl, rfl⟩
  refine
    { deg := sh.deg, root_lt := ?_, ht_fuel := ?_, ht_le := ?_, leaf_ht := ?_,
      leaf_children := ?_, arity := ?_, child := ?_, nodup := ?_, parent := ?_, orphan := ?_,
      root_parent := ?_, item_lt := ?_, size := ?_ }
  · rw [hlen]; exact sh.root_lt
  · rw [hlen]; exact sh.ht_fuel
  · intro n hn; rw [hlen] at hn; exact sh.ht_le n hn
  · intro n nd hn
    obtain ⟨nd0, h0, _, hlf, _⟩ := hold n nd hn
    rw [hlf]; exact sh.leaf_ht n nd0 h0
  · intro n nd hn hleaf
    obtain ⟨nd0, h0, hch, hlf, _⟩ := hold n nd hn
    rw [hch]; exact sh.leaf_children n nd0 h0 (hlf ▸ hleaf)
  · intro n nd hn hleaf
    obtain ⟨nd0, h0, hch, hlf, _, hne, heq⟩ := hold n nd hn
    by_cases h : n = l
    · subst h
      rw [hl] at h0
      cases h0
      rw [hlf] at hleaf
      rw [‹ld.IsLeaf = true›] at hleaf
      cases hleaf
    · rw [hne h]; exact sh.arity n nd0 h0 ((hne h) ▸ hleaf)
  · intro n nd c hn hc
    obtain ⟨nd0, h0, hch, _⟩ := hold n nd hn
    obtain ⟨cd, hcd, hcp, hh⟩ := sh.child n nd0 c h0 (hch ▸ hc)
    obtain ⟨cd', hcd', _, hpar'⟩ := hnew c cd hcd
    exact ⟨cd', hcd', by rw [hpar', hcp], hh⟩
  · intro n nd hn
    obtain ⟨nd0, h0, hch, _⟩ := hold n nd hn
    rw [hch]; exact sh.nodup n nd0 h0
  · intro n nd q hn hq
    obtain ⟨nd0, h0, _, _, hpar, _⟩ := hold n nd hn
    obtain ⟨qd, hqd, hmem⟩ := sh.parent n nd0 q h0 (hpar ▸ hq)
    obtain ⟨qd', hqd', hch', _⟩ := hnew q qd hqd
    exact ⟨qd', hqd', by rw [hch']; exact hmem⟩
  · intro n nd hn hnone
    obtain ⟨nd0, h0, _, _, hpar, _⟩ := hold n nd hn
    exact sh.orphan n nd0 h0 (hpar ▸ hnone)
  · intro nd hn
    obtain ⟨nd0, h0, _, _, hpar, _⟩ := hold _ nd hn
    rw [hpar]; exact sh.root_parent nd0 h0
  · intro n nd b hn hb
    obtain ⟨nd0, h0, _, _, _, hne, heq⟩ := hold n nd hn
    by_cases h : n = l
    · subst h
      rw [hl] at h0
      cases h0
      rw [heq rfl] at hb
      rcases (mem_insertAt _ _ _ _).mp hb with e | e
      · rw [e]; exact ha
      · exact sh.item_lt n ld b hl e
    · rw [hne h] at hb; exact sh.item_lt n nd0 b h0 hb
  · intro n nd hn
    obtain ⟨nd0, h0, _, _, _, hne, heq⟩ := hold n nd hn
    by_cases h : n = l
    · subst h
      rw [hl] at h0
      cases h0
      rw [heq rfl, insertAt_length _ _ _ hi]
      have hdeg := sh.deg
      rcases sh.size n ld hl with e | ⟨e, _⟩
      · by_cases hlt : ((ld.Items.length + 1 : Nat) : Int) ≤ t.Degree - 1
        · exact Or.inl hlt
        · exact Or.inr ⟨rfl, by
            show ((ld.Items.length + 1 : Nat) : Int) = t.Degree
            omega⟩
      · cases e
    · rw [hne h]
      rcases sh.size n nd0 h0 with e | ⟨e, _⟩
      · exact Or.inl e
      · cases e

end BPlusTree


namespace BPlusTree

theorem shape_new (degree : Int) (h : 2 ≤ degree) :
    Shape (NewBPlusTree degree) (fun _ => 0) none := by
  have hl : ∀ (n : Nat) (nd : Node), (NewBPlusTree degree).nodes[n]? = some nd →
      n = 0 ∧ nd = { Items := [], Children := [], IsLeaf := true, Parent := none, Next := none } := by
    intro n nd hn
    cases n with
    | zero =>
      simp [NewBPlusTree] at hn
      exact ⟨rfl, hn.symm⟩
    | succ n => simp [NewBPlusTree] at hn
  refine
    { deg := h, root_lt := by simp [NewBPlusTree], ht_fuel := by simp [NewBPlusTree],
      ht_le := fun _ _ => Nat.le_refl _, leaf_ht := ?_, leaf_children := ?_, arity := ?_,
      child := ?_, nodup := ?_, parent := ?_, orphan := ?_, root_parent := ?_, item_lt := ?_,
      size := ?_ }
  · intro n nd hn
    obtain ⟨_, rfl⟩ := hl n nd hn
    simp
  · intro n nd hn _
    obtain ⟨_, rfl⟩ := hl n nd hn
    rfl
  · intro n nd hn hleaf
    obtain ⟨_, rfl⟩ := hl n nd hn
    cases hleaf
  · intro n nd c hn hc
    obtain ⟨_, rfl⟩ := hl n nd hn
    cases hc
  · intro n nd hn
    obtain ⟨_, rfl⟩ := hl n nd hn
    exact List.nodup_nil
  · intro n nd p hn hp
    obtain ⟨_, rfl⟩ := hl n nd hn
    cases hp
  · intro n nd hn _
    exact (hl n nd hn).1
  · intro nd hn
    obtain ⟨_, rfl⟩ := hl _ nd hn
    rfl
  · intro n nd a hn ha
    obtain ⟨_, rfl⟩ := hl n nd hn
    cases ha
  · intro n nd hn
    obtain ⟨_, rfl⟩ := hl n nd hn
    left
    show ((0 : Nat) : Int) ≤ degree - 1
    omega

/-- The split cascade changes neither `Degree` nor the item memory. -/
theorem SplitClosed.frame {I : BPlusTree → (Nat → Nat) → Option Nat → Prop} (hI : SplitClosed I)
    (d : Int) (its : List Item) :
    SplitClosed (fun t ht ov => I t ht ov ∧ t.Degree = d ∧ t.items = its) where
  shape := fun t ht ov h => hI.shape t ht ov h.1
  wrap := fun t t1 ht od h hroot hw =>
    ⟨hI.wrap t t1 ht od h.1 hroot hw, by rw [hw.degree]; exact h.2.1, by rw [hw.items]; exact h.2.2⟩
  leaf := fun t t2 ht x p xd pd sep h hx hleaf hp hpd hfull hsep hs =>
    ⟨hI.leaf t t2 ht x p xd pd sep h.1 hx hleaf hp hpd hfull hsep hs,
      by rw [hs.degree]; exact h.2.1, by rw [hs.items]; exact h.2.2⟩
  internal := fun t t2 ht x p xd pd sep h hx hleaf hp hpd hfull hsep hs =>
    ⟨hI.internal t t2 ht x p xd pd sep h.1 hx hleaf hp hpd hfull hsep hs,
      by rw [hs.degree]; exact h.2.1, by rw [hs.items]; exact h.2.2⟩
  done := fun t ht p pd h hpd hsz => ⟨hI.done t ht p pd h.1 hpd hsz, h.2⟩

/-- `Add` returns 1 and keeps the shape invariant, whichever way it goes. -/
theorem Add_shape {t : BPlusTree} {ht : Nat → Nat} (sh : Shape t ht none)
    (score : Float64) (member : String) :
    ∃ t' ht', Add t score member = some (t', 1) ∧ Shape t' ht' none ∧ t'.Degree = t.Degree := by
  obtain ⟨l, ld, hl, hleaf, _, hcase⟩ := Add_cases sh score member
  have sh0 := sh.after_withItem score member
  have hl0 : (withItem t score member).nodes[l]? = some ld := hl
  rcases hcase with ⟨a, it, _, _, _, hadd⟩ | ⟨_, i, _, hle, hov, hnov⟩
  · exact ⟨_, ht, hadd, sh0.after_withScore a it score, rfl⟩
  · have sh1 : Shape (withEntry (withItem t score member) l ld i t.items.length) ht (some l) :=
      sh0.after_withEntry hl0 hleaf hle (by simp [BPlusTree.withItem])
    have hl1 : (withEntry (withItem t score member) l ld i t.items.length).nodes[l]?
        = some { ld with Items := insertAt ld.Items i t.items.length } := by
      rw [withEntry_lookup i _ hl0, if_pos rfl]
    by_cases h : ((insertAt ld.Items i t.items.length).length : Int) > t.Degree - 1
    · have hfull : ((insertAt ld.Items i t.items.length).length : Int) = t.Degree := by
        rcases sh1.size l _ hl1 with e | ⟨_, e⟩
        · exact absurd h (by
            have e' : ((insertAt ld.Items i t.items.length).length : Int) ≤ t.Degree - 1 := e
            omega)
        · exact e
      obtain ⟨t2, ht2, hsp, sh2, hd2, _⟩ :=
        splitNode_closed (shape_splitClosed.frame t.Degree _) (t.nodes.length + 1)
          (withEntry (withItem t score member) l ld i t.items.length) ht l _ ⟨sh1, rfl, rfl⟩ hl1
          hfull
          (by
            have := sh.ht_fuel
            show ht t.Root - ht l < t.nodes.length + 1
            omega)
      exact ⟨t2, ht2, hov h t2 hsp, sh2, hd2⟩
    · exact ⟨_, ht, hnov h, sh1.clear hl1 (by
        show ((insertAt ld.Items i t.items.length).length : Int) ≤ t.Degree - 1
        omega), rfl⟩


/-- Any sequence of `Add` calls returns and keeps the shape invariant. -/
theorem addAll_shape (ops : List (Float64 × String)) :
    ∀ (t : BPlusTree) (ht : Nat → Nat), Shape t ht none →
      ∃ t' ht', addAll t ops = some t' ∧ Shape t' ht' none ∧ t'.Degree = t.Degree := by
  induction ops with
  | nil => intro t ht sh; exact ⟨t, ht, rfl, sh, rfl⟩
  | cons op ops ih =>
    intro t ht sh
    obtain ⟨score, member⟩ := op
    obtain ⟨t1, ht1, h1, sh1, hd1⟩ := Add_shape sh score member
    obtain ⟨t2, ht2, h2, sh2, hd2⟩ := ih t1 ht1 sh1
    exact ⟨t2, ht2, by simp only [addAll, h1, h2], sh2, by rw [hd2, hd1]⟩

theorem build_shape (degree : Int) (h : 2 ≤ degree) (ops : List (Float64 × String)) :
    ∃ t ht, build degree ops = some t ∧ Shape t ht none ∧ t.Degree = degree :=
  addAll_shape ops _ _ (shape_new degree h)

theorem Shape.reach {t : BPlusTree} {ht : Nat → Nat} {ov : Option Nat} (sh : Shape t ht ov)
    {n k : Nat} (hr : Reach t n k) :
    (∃ nd, t.nodes[n]? = some nd) ∧ ht n + k = ht t.Root ∧ (k ≠ 0 → n ≠ t.Root) := by
  induction hr with
  | root => exact ⟨⟨_, List.getElem?_eq_getElem sh.root_lt⟩, rfl, fun h => absurd rfl h⟩
  | child hr hn hc ih =>
    obtain ⟨cd, hcd, _, hh⟩ := sh.child _ _ _ hn hc
    refine ⟨⟨cd, hcd⟩, by omega, ?_⟩
    intro _ heq
    rw [heq] at hh
    omega

end BPlusTree


namespace BPlusTree

/-- C5 (structural invariant): for every degree >= 2 and every sequence of `Add`
calls on `NewBPlusTree(degree)`, the calls return a tree in which every node reached
from the root is allocated, every non-root node holds at most `degree - 1` items, all
leaves are at the same depth below the root, and every internal node has one more
child than it has items. -/
theorem structural_invariant (degree : Int) (hdeg : 2 ≤ degree) (ops : List (Float64 × String)) :
    ∃ t, build degree ops = some t ∧
      (∀ n k, Reach t n k → ∃ nd, t.nodes[n]? = some nd) ∧
      (∀ n k nd, Reach t n k → t.nodes[n]? = some nd → n ≠ t.Root →
        (nd.Items.length : Int) ≤ degree - 1) ∧
      (∀ a b ka kb na nb, Reach t a ka → Reach t b kb →
        t.nodes[a]? = some na → t.nodes[b]? = some nb →
        na.IsLeaf = true → nb.IsLeaf = true → ka = kb) ∧
      (∀ n k nd, Reach t n k → t.nodes[n]? = some nd → nd.IsLeaf = false →
        nd.Children.length = nd.Items.length + 1) := by
  obtain ⟨t, ht, hb, sh, hd⟩ := build_shape degree hdeg ops
  refine ⟨t, hb, fun n k hr => (sh.reach hr).1, ?_, ?_, ?_⟩
  · intro n k nd _ hn _
    rcases sh.size n nd hn with h | ⟨h, _⟩
    · rw [← hd]; exact h
    · cases h
  · intro a b ka kb na nb hra hrb hna hnb hla hlb
    have h1 := (sh.reach hra).2.1
    have h2 := (sh.reach hrb).2.1
    have h3 := (sh.leaf_ht a na hna).mp hla
    have h4 := (sh.leaf_ht b nb hnb).mp hlb
    omega
  · intro n k nd _ hn hleaf
    exact sh.arity n nd hn hleaf

/-- The structural invariant at degree 3 after six `Add` calls, the last with a member
added before. -/
theorem structural_invariant_witness :
    (2 : Int) ≤ 3 ∧
    ∃ t, build 3 [(1, "m1"), (2, "m2"), (3, "m3"), (4, "m4"), (5, "m5"), (9, "m1")] = some t ∧
      (∀ n k, Reach t n k → ∃ nd, t.nodes[n]? = some nd) ∧
      (∀ n k nd, Reach t n k → t.nodes[n]? = some nd → n ≠ t.Root →
        (nd.Items.length : Int) ≤ 3 - 1) ∧
      (∀ a b ka kb na nb, Reach t a ka → Reach t b kb →
        t.nodes[a]? = some na → t.nodes[b]? = some nb →
        na.IsLeaf = true → nb.IsLeaf = true → ka = kb) ∧
      (∀ n k nd, Reach t n k → t.nodes[n]? = some nd → nd.IsLeaf = false →
        nd.Children.length = nd.Items.length + 1) :=
  ⟨by decide, structural_invariant 3 (by decide) _⟩

end BPlusTree


namespace BPlusTree

/-! ### Separators and the ranges of the children -/

theorem insertAt_zero {α : Type} (xs : List α) (x : α) : insertAt xs 0 x = x :: xs := by
  simp [insertAt]

theorem insertAt_succ {α : Type} (a : α) (xs : List α) (i : Nat) (x : α) :
    insertAt (a :: xs) (i + 1) x = a :: insertAt xs i x := by
  simp [insertAt]

theorem ChildBounds.bounds_congr {sc sc' : Nat → Int} {lo lo' hi hi' : Nat → Option Int} :
    ∀ (as cs : List Nat) (l h : Option Int), ChildBounds sc lo hi l h as cs →
      (∀ a ∈ as, sc' a = sc a) → (∀ c ∈ cs, lo' c = lo c ∧ hi' c = hi c) →
      ChildBounds sc' lo' hi' l h as cs := by
  intro as
  induction as with
  | nil =>
    intro cs l h hb _ hc
    match cs, hb with
    | [c], hb =>
      obtain ⟨h1, h2⟩ := hc c (List.mem_singleton_self c)
      exact ⟨by rw [h1]; exact hb.1, by rw [h2]; exact hb.2⟩
  | cons a as ih =>
    intro cs l h hb ha hc
    match cs, hb with
    | c :: cs, hb =>
      obtain ⟨h1, h2⟩ := hc c (List.mem_cons_self _ _)
      have hsa := ha a (List.mem_cons_self _ _)
      refine ⟨by rw [h1]; exact hb.1, by rw [h2, hsa]; exact hb.2.1, ?_⟩
      rw [hsa]
      exact ih cs _ h hb.2.2 (fun b hb' => ha b (List.mem_cons_of_mem _ hb'))
        (fun d hd => hc d (List.mem_cons_of_mem _ hd))

theorem ChildBounds.length_eq {sc : Nat → Int} {lo hi : Nat → Option Int} :
    ∀ (as cs : List Nat) (l h : Option Int), ChildBounds sc lo hi l h as cs →
      cs.length = as.length + 1 := by
  intro as
  induction as with
  | nil =>
    intro cs l h hb
    match cs, hb with
    | [c], _ => rfl
  | cons a as ih =>
    intro cs l h hb
    match cs, hb with
    | c :: cs, hb => simp [ih cs _ h hb.2.2]

/-- Cutting an internal node at separator `m`. -/
theorem ChildBounds.split {sc : Nat → Int} {lo hi : Nat → Option Int} :
    ∀ (m : Nat) (as cs : List Nat) (l h : Option Int) (sep : Nat),
      ChildBounds sc lo hi l h as cs → as[m]? = some sep →
      ChildBounds sc lo hi l (some (sc sep)) (as.take m) (cs.take (m + 1)) ∧
      ChildBounds sc lo hi (some (sc sep)) h (as.drop (m + 1)) (cs.drop (m + 1)) := by
  intro m
  induction m with
  | zero =>
    intro as cs l h sep hb hs
    match as, cs, hb, hs with
    | a :: as, c :: cs, hb, hs =>
      simp only [List.getElem?_cons_zero, Option.some.injEq] at hs
      subst hs
      exact ⟨⟨hb.1, hb.2.1⟩, hb.2.2⟩
  | succ m ih =>
    intro as cs l h sep hb hs
    match as, cs, hb, hs with
    | a :: as, c :: cs, hb, hs =>
      simp only [List.getElem?_cons_succ] at hs
      obtain ⟨h1, h2⟩ := ih as cs _ h sep hb.2.2 hs
      exact ⟨⟨hb.1, hb.2.1, h1⟩, h2⟩

/-- The range of an internal node is not empty when the ranges of its children are not. -/
theorem ChildBounds.range_le {sc : Nat → Int} {lo hi : Nat → Option Int} :
    ∀ (as cs : List Nat) (l h : Option Int), ChildBounds sc lo hi l h as cs →
      (∀ c ∈ cs, ∀ a b, lo c = some a → hi c = some b → a ≤ b) →
      ∀ a b, l = some a → h = some b → a ≤ b := by
  intro as
  induction as with
  | nil =>
    intro cs l h hb hc a b hl hh
    match cs, hb with
    | [c], hb =>
      exact hc c (List.mem_singleton_self c) a b (by rw [hb.1]; exact hl) (by rw [hb.2]; exact hh)
  | cons x as ih =>
    intro cs l h hb hc a b hl hh
    match cs, hb with
    | c :: cs, hb =>
      have h1 := hc c (List.mem_cons_self _ _) a (sc x) (by rw [hb.1]; exact hl) hb.2.1
      have h2 := ih cs _ h hb.2.2 (fun d hd => hc d (List.mem_cons_of_mem _ hd)) (sc x) b rfl hh
      exact le_trans h1 h2

/-- Putting the separator `sep` and the new child `new` into the parent of `x`. -/
theorem ChildBounds.insert {sc : Nat → Int} {lo lo' hi hi' : Nat → Option Int} (x new sep : Nat)
    (hlo : ∀ c, c ≠ new → lo' c = lo c)
    (hhi : ∀ c, c ≠ new → c ≠ x → hi' c = hi c)
    (hx : hi' x = some (sc sep)) (hnl : lo' new = some (sc sep)) (hnh : hi' new = hi x)
    (hxn : x ≠ new) :
    ∀ (as cs : List Nat) (l h : Option Int), ChildBounds sc lo hi l h as cs →
      x ∈ cs → cs.Nodup → new ∉ cs →
      ChildBounds sc lo' hi' l h (insertAt as (childIndexOf x cs) sep)
        (insertAt cs (childIndexOf x cs + 1) new) := by
  intro as
  induction as with
  | nil =>
    intro cs l h hb hxm _ _
    match cs, hb with
    | [c], hb =>
      have hcx : c = x := (List.mem_singleton.mp hxm).symm
      subst hcx
      simp only [childIndexOf, if_true, insertAt_zero, insertAt_succ]
      exact ⟨by rw [hlo c hxn]; exact hb.1, hx, hnl, by rw [hnh]; exact hb.2⟩
  | cons a as ih =>
    intro cs l h hb hxm hnd hnew
    match cs, hb with
    | c :: cs, hb =>
      have hcn : c ≠ new := fun e => hnew (e ▸ List.mem_cons_self _ _)
      have hnd' := List.nodup_cons.mp hnd
      by_cases hcx : c = x
      · subst hcx
        simp only [childIndexOf, if_true, insertAt_zero, insertAt_succ]
        refine ⟨by rw [hlo c hcn]; exact hb.1, hx, hnl, by rw [hnh]; exact hb.2.1, ?_⟩
        refine ChildBounds.bounds_congr as cs _ h hb.2.2 (fun _ _ => rfl) ?_
        intro d hd
        have hdn : d ≠ new := fun e => hnew (e ▸ List.mem_cons_of_mem _ hd)
        have hdx : d ≠ c := fun e => hnd'.1 (e ▸ hd)
        exact ⟨hlo d hdn, hhi d hdn hdx⟩
      · have hxm' : x ∈ cs := by
          rcases List.mem_cons.mp hxm with e | e
          · exact absurd e.symm hcx
          · exact e
        simp only [childIndexOf, if_neg hcx, insertAt_succ]
        exact ⟨by rw [hlo c hcn]; exact hb.1, by rw [hhi c hcn hcx]; exact hb.2.1,
          ih cs _ h hb.2.2 hxm' hnd'.2 (fun e => hnew (List.mem_cons_of_mem _ e))⟩

/-- The child chosen by the descent loop has a range that holds the score. -/
theorem ChildBounds.descent {t : BPlusTree} {lo hi : Nat → Option Int} (s : Int)
    (hnum : ∀ it ∈ t.items, it.Score ≠ Float64.nan) :
    ∀ (as cs : List Nat) (l h : Option Int) (i c : Nat),
      ChildBounds (scoreAt t) lo hi l h as cs →
      descentIndex t (Float64.num s) as = some i → cs[i]? = some c →
      LoLe l s → LeHi s h → LoLe (lo c) s ∧ LeHi s (hi c) := by
  intro as
  induction as with
  | nil =>
    intro cs l h i c hb hd hc hl hh
    match cs, hb with
    | [d], hb =>
      simp only [descentIndex, Option.some.injEq] at hd
      subst hd
      simp only [List.getElem?_cons_zero, Option.some.injEq] at hc
      subst hc
      exact ⟨by rw [hb.1]; exact hl, by rw [hb.2]; exact hh⟩
  | cons a as ih =>
    intro cs l h i c hb hd hc hl hh
    match cs, hb with
    | d :: cs, hb =>
      simp only [descentIndex] at hd
      cases hit : t.items[a]? with
      | none => rw [hit] at hd; cases hd
      | some it =>
        rw [hit] at hd
        have hsc : scoreAt t a = it.Score.toInt := by simp [scoreAt, hit]
        have hnn := hnum it (List.getElem?_mem hit)
        have hcmp : Float64.num s ≥ it.Score ↔ s ≥ it.Score.toInt := by
          show it.Score ≤ Float64.num s ↔ _
          rw [Float64.eq_num_of_ne_nan hnn, Float64.num_le_num]
          rfl
        by_cases hge : Float64.num s ≥ it.Score
        · simp only [hge, if_true, Option.map_eq_some'] at hd
          obtain ⟨j, hj, rfl⟩ := hd
          simp only [List.getElem?_cons_succ] at hc
          exact ih cs _ h j c hb.2.2 hj hc (fun b hb' => by
            cases hb'
            rw [hsc]; exact hcmp.mp hge) hh
        · simp only [hge, if_false, Option.some.injEq] at hd
          subst hd
          simp only [List.getElem?_cons_zero, Option.some.injEq] at hc
          subst hc
          refine ⟨by rw [hb.1]; exact hl, ?_⟩
          intro b hb'
          rw [hb.2.1] at hb'
          cases hb'
          rw [hsc]
          have hlt : ¬ (s ≥ it.Score.toInt) := fun h => hge (hcmp.mpr h)
          omega

end BPlusTree


namespace BPlusTree

theorem scoreAt_congr {t t2 : BPlusTree} (h : t2.items = t.items) : scoreAt t2 = scoreAt t := by
  funext a
  simp [scoreAt, h]

theorem sorted_take_le {f : Nat → Int} {l : List Nat} (hl : (l.map f).Pairwise (· ≤ ·))
    {m a s : Nat} (hs : l[m]? = some s) (ha : a ∈ l.take m) : f a ≤ f s := by
  have hsd : s ∈ l.drop m := by
    have : (l.drop m)[0]? = some s := by rw [List.getElem?_drop]; simpa using hs
    exact List.getElem?_mem this
  rw [← List.take_append_drop m l, List.map_append, List.pairwise_append] at hl
  exact hl.2.2 (f a) (List.mem_map_of_mem f ha) (f s) (List.mem_map_of_mem f hsd)

theorem sorted_le_drop {f : Nat → Int} {l : List Nat} (hl : (l.map f).Pairwise (· ≤ ·))
    {m a s : Nat} (hs : l[m]? = some s) (ha : a ∈ l.drop m) : f s ≤ f a := by
  have hm : m < l.length := by
    by_contra h
    rw [List.getElem?_eq_none (Nat.le_of_not_lt h)] at hs
    cases hs
  have hd : l.drop m = s :: l.drop (m + 1) := by
    rw [List.drop_eq_getElem_cons hm]
    congr 1
    rw [List.getElem?_eq_getElem hm] at hs
    exact Option.some.inj hs
  have hl2 : ((l.drop m).map f).Pairwise (· ≤ ·) := by
    rw [← List.take_append_drop m l, List.map_append, List.pairwise_append] at hl
    exact hl.2.1
  rw [hd] at ha hl2
  rcases List.mem_cons.mp ha with e | e
  · rw [e]
  · rw [List.map_cons, List.pairwise_cons] at hl2
    exact hl2.1 (f a) (List.mem_map_of_mem f e)

section split

variable {t t2 : BPlusTree} {x p : Nat} {xd pd : Node} {I1 I2 : List Nat} {sep k : Nat}
  {nx1 nx2 : Option Nat} {ht : Nat → Nat} {lo hi : Nat → Option Int}

theorem SplitStep.ord_split (hs : SplitStep t t2 x p xd pd I1 I2 sep k nx1 nx2)
    (sh : Shape t ht (some x)) (od : Ord t lo hi)
    (hx : t.nodes[x]? = some xd) (hp : xd.Parent = some p) (hpd : t.nodes[p]? = some pd)
    (hsepin : LoLe (lo x) (scoreAt t sep) ∧ LeHi (scoreAt t sep) (hi x))
    (hI1 : xd.IsLeaf = true → ∀ a ∈ I1, a ∈ xd.Items ∧ scoreAt t a ≤ scoreAt t sep)
    (hI2 : xd.IsLeaf = true → ∀ a ∈ I2, a ∈ xd.Items ∧ scoreAt t sep ≤ scoreAt t a)
    (hsorted1 : xd.IsLeaf = true → (I1.map (scoreAt t)).Pairwise (· ≤ ·))
    (hsorted2 : xd.IsLeaf = true → (I2.map (scoreAt t)).Pairwise (· ≤ ·))
    (hint1 : xd.IsLeaf = false →
      ChildBounds (scoreAt t) lo hi (lo x) (some (scoreAt t sep)) I1 (xd.Children.take k))
    (hint2 : xd.IsLeaf = false →
      ChildBounds (scoreAt t) lo hi (some (scoreAt t sep)) (hi x) I2 (xd.Children.drop k))
    (hnx1 : xd.IsLeaf = true → nx1 = some t.nodes.length)
    (hnx2 : xd.IsLeaf = true → nx2 = xd.Next) :
    Ord t2 (Function.update lo t.nodes.length (some (scoreAt t sep)))
      (Function.update (Function.update hi x (some (scoreAt t sep))) t.nodes.length (hi x)) := by
  obtain ⟨hxmem, hhtp, hxp, hpleaf, hci, hpar⟩ := sh.parent_facts hx hp hpd
  have hxlt := lookup_lt hx
  have hplt := lookup_lt hpd
  have hsc := scoreAt_congr hs.items
  have hmvc : ∀ c ∈ xd.Children.drop k,
      ∃ cd, t.nodes[c]? = some cd ∧ cd.Parent = some x ∧ ht c + 1 = ht x :=
    fun c hc => sh.child x xd c hx (List.mem_of_mem_drop hc)
  have hmv : ∀ c ∈ xd.Children.drop k, ∃ cd, t.nodes[c]? = some cd :=
    fun c hc => (hmvc c hc).imp fun _ h => h.1
  have hmvx : ∀ c ∈ xd.Children.drop k, c ≠ x ∧ c ≠ p := by
    intro c hc
    obtain ⟨cd, _, _, hh⟩ := hmvc c hc
    constructor <;> intro h <;> rw [h] at hh <;> omega
  have hcls := hs.classify_split hmv
  -- the new ranges
  have hlo : ∀ n, n ≠ t.nodes.length →
      Function.update lo t.nodes.length (some (scoreAt t sep)) n = lo n :=
    fun n hn => Function.update_noteq hn _ _
  have hlonew : Function.update lo t.nodes.length (some (scoreAt t sep)) t.nodes.length
      = some (scoreAt t sep) := Function.update_same _ _ _
  have hhi : ∀ n, n ≠ t.nodes.length → n ≠ x →
      Function.update (Function.update hi x (some (scoreAt t sep))) t.nodes.length (hi x) n
        = hi n := by
    intro n h1 h2
    rw [Function.update_noteq h1, Function.update_noteq h2]
  have hhix :
      Function.update (Function.update hi x (some (scoreAt t sep))) t.nodes.length (hi x) x
        = some (scoreAt t sep) := by
    rw [Function.update_noteq (Nat.ne_of_lt hxlt), Function.update_same]
  have hhinew :
      Function.update (Function.update hi x (some (scoreAt t sep))) t.nodes.length (hi x)
        t.nodes.length = hi x := Function.update_same _ _ _
  -- the children of a node other than the parent are neither `x` nor the new node
  have hchild_ne : ∀ n nd c, t.nodes[n]? = some nd → n ≠ p → c ∈ nd.Children →
      c ≠ t.nodes.length ∧ c ≠ x := by
    intro n nd c hn hnp hc
    obtain ⟨cd, hcd, hcp, _⟩ := sh.child n nd c hn hc
    refine ⟨Nat.ne_of_lt (lookup_lt hcd), ?_⟩
    intro e
    subst e
    rw [hx] at hcd
    cases hcd
    rw [hp] at hcp
    exact hnp (Option.some.inj hcp).symm
  have hkeep : ∀ n nd, t.nodes[n]? = some nd → n ≠ p → nd.IsLeaf = false → n ≠ x →
      ChildBounds (scoreAt t) (Function.update lo t.nodes.length (some (scoreAt t sep)))
        (Function.update (Function.update hi x (some (scoreAt t sep))) t.nodes.length (hi x))
        (lo n) (hi n) nd.Items nd.Children := by
    intro n nd hn hnp hleaf _
    refine ChildBounds.bounds_congr _ _ _ _ (od.bounds n nd hn hleaf) (fun _ _ => rfl) ?_
    intro c hc
    obtain ⟨h1, h2⟩ := hchild_ne n nd c hn hnp hc
    exact ⟨hlo c h1, hhi c h1 h2⟩
  have hrootx : t.Root ≠ x := by
    intro e
    have := sh.root_parent xd (e ▸ hx)
    rw [hp] at this
    cases this
  refine
    { root_lo := ?_, root_hi := ?_, within := ?_, lo_le_hi := ?_, sorted := ?_, bounds := ?_,
      next := ?_ }
  · rw [hs.root, hlo _ (Nat.ne_of_lt sh.root_lt)]; exact od.root_lo
  · rw [hs.root, hhi _ (Nat.ne_of_lt sh.root_lt) hrootx]; exact od.root_hi
  · -- within
    intro n nd a hn hleaf ha
    rw [hsc]
    rcases hcls n nd hn with ⟨rfl, rfl⟩ | ⟨rfl, rfl⟩ | ⟨rfl, rfl⟩ | ⟨hm, hne, cd, hcd, rfl⟩ |
      ⟨hnx, _, hne, _, hold⟩
    · rw [hlo _ (Nat.ne_of_lt hxlt), hhix]
      obtain ⟨hmem, hle⟩ := hI1 hleaf a ha
      refine ⟨(od.within _ xd a hx hleaf hmem).1, ?_⟩
      intro b hb
      cases hb
      exact hle
    · rw [hlonew, hhinew]
      obtain ⟨hmem, hle⟩ := hI2 hleaf a ha
      refine ⟨?_, (od.within x xd a hx hleaf hmem).2⟩
      intro b hb
      cases hb
      exact hle
    · rw [hpleaf] at hleaf; cases hleaf
    · rw [hlo _ hne, hhi _ hne (hmvx n hm).1]
      exact od.within n cd a hcd hleaf ha
    · rw [hlo _ hne, hhi _ hne hnx]
      exact od.within n nd a hold hleaf ha
  · -- lo_le_hi
    intro n nd hn a b ha hb
    rcases hcls n nd hn with ⟨rfl, rfl⟩ | ⟨rfl, rfl⟩ | ⟨rfl, rfl⟩ | ⟨hm, hne, cd, hcd, rfl⟩ |
      ⟨hnx, _, hne, _, hold⟩
    · rw [hlo _ (Nat.ne_of_lt hxlt)] at ha
      rw [hhix] at hb
      cases hb
      exact hsepin.1 a ha
    · rw [hlonew] at ha
      rw [hhinew] at hb
      cases ha
      exact hsepin.2 b hb
    · rw [hlo _ (Nat.ne_of_lt hplt)] at ha
      rw [hhi _ (Nat.ne_of_lt hplt) (Ne.symm hxp)] at hb
      exact od.lo_le_hi _ pd hpd a b ha hb
    · rw [hlo _ hne] at ha
      rw [hhi _ hne (hmvx n hm).1] at hb
      exact od.lo_le_hi n cd hcd a b ha hb
    · rw [hlo _ hne] at ha
      rw [hhi _ hne hnx] at hb
      exact od.lo_le_hi n nd hold a b ha hb
  · -- sorted
    intro n nd hn hleaf
    rw [hsc]
    rcases hcls n nd hn with ⟨rfl, rfl⟩ | ⟨rfl, rfl⟩ | ⟨rfl, rfl⟩ | ⟨hm, hne, cd, hcd, rfl⟩ |
      ⟨hnx, _, hne, _, hold⟩
    · exact hsorted1 hleaf
    · exact hsorted2 hleaf
    · rw [hpleaf] at hleaf; cases hleaf
    · exact od.sorted n cd hcd hleaf
    · exact od.sorted n nd hold hleaf
  · -- bounds
    intro n nd hn hleaf
    rw [hsc]
    rcases hcls n nd hn with ⟨rfl, rfl⟩ | ⟨rfl, rfl⟩ | ⟨rfl, rfl⟩ | ⟨hm, hne, cd, hcd, rfl⟩ |
      ⟨hnx, hnp, hne, _, hold⟩
    · rw [hlo _ (Nat.ne_of_lt hxlt), hhix]
      refine ChildBounds.bounds_congr _ _ _ _ (hint1 hleaf) (fun _ _ => rfl) ?_
      intro c hc
      obtain ⟨h1, h2⟩ := hchild_ne _ xd c hx hxp (List.mem_of_mem_take hc)
      exact ⟨hlo c h1, hhi c h1 h2⟩
    · rw [hlonew, hhinew]
      refine ChildBounds.bounds_congr _ _ _ _ (hint2 hleaf) (fun _ _ => rfl) ?_
      intro c hc
      obtain ⟨h1, h2⟩ := hchild_ne x xd c hx hxp (List.mem_of_mem_drop hc)
      exact ⟨hlo c h1, hhi c h1 h2⟩
    · rw [hlo _ (Nat.ne_of_lt hplt), hhi _ (Nat.ne_of_lt hplt) (Ne.symm hxp)]
      refine ChildBounds.insert x t.nodes.length sep hlo (fun c h1 h2 => hhi c h1 h2) hhix hlonew
        hhinew (Nat.ne_of_lt hxlt) _ _ _ _ (od.bounds _ pd hpd hpleaf) hxmem
        (sh.nodup _ pd hpd) ?_
      intro hmem
      obtain ⟨cd, hcd, _⟩ := sh.child _ pd _ hpd hmem
      exact absurd (lookup_lt hcd) (Nat.lt_irrefl _)
    · rw [hlo _ hne, hhi _ hne (hmvx n hm).1]
      exact hkeep n cd hcd (hmvx n hm).2 hleaf (hmvx n hm).1
    · rw [hlo _ hne, hhi _ hne hnx]
      exact hkeep n nd hold hnp hleaf hnx
  · -- next
    intro n nd m hn hleaf hnext
    rw [hs.length]
    have old : ∀ nd0, t.nodes[n]? = some nd0 → nd0.IsLeaf = true → nd0.Next = some m →
        n ≠ t.nodes.length → n ≠ x →
        m < t.nodes.length + 1 ∧ ∃ b,
          Function.update (Function.update hi x (some (scoreAt t sep))) t.nodes.length (hi x) n
            = some b ∧
          Function.update lo t.nodes.length (some (scoreAt t sep)) m = some b := by
      intro nd0 h0 hl0 hn0 h1 h2
      obtain ⟨hm, b, hb1, hb2⟩ := od.next n nd0 m h0 hl0 hn0
      exact ⟨Nat.lt_succ_of_lt hm, b, by rw [hhi n h1 h2]; exact hb1,
        by rw [hlo m (Nat.ne_of_lt hm)]; exact hb2⟩
    rcases hcls n nd hn with ⟨rfl, rfl⟩ | ⟨rfl, rfl⟩ | ⟨rfl, rfl⟩ | ⟨hm, hne, cd, hcd, rfl⟩ |
      ⟨hnx, _, hne, _, hold⟩
    · have hnext' : nx1 = some m := hnext
      rw [hnx1 hleaf] at hnext'
      cases hnext'
      exact ⟨Nat.lt_succ_self _, _, hhix, hlonew⟩
    · have hnext' : nx2 = some m := hnext
      rw [hnx2 hleaf] at hnext'
      obtain ⟨hm, b, hb1, hb2⟩ := od.next x xd m hx hleaf hnext'
      exact ⟨Nat.lt_succ_of_lt hm, b, by rw [hhinew]; exact hb1,
        by rw [hlo m (Nat.ne_of_lt hm)]; exact hb2⟩
    · rw [hpleaf] at hleaf; cases hleaf
    · exact old cd hcd hleaf hnext hne (hmvx n hm).1
    · exact old nd hold hleaf hnext hne hnx

end split
end BPlusTree


namespace BPlusTree

variable {t t1 : BPlusTree} {od' : Node} {ht : Nat → Nat} {ov : Option Nat}
  {lo hi : Nat → Option Int}

theorem WrapStep.ord_wrap {od : Node} (hw : WrapStep t t1 od) (sh : Shape t ht ov)
    (ord : Ord t lo hi) (hroot : t.nodes[t.Root]? = some od) :
    Ord t1 (Function.update lo t.nodes.length none) (Function.update hi t.nodes.length none) := by
  have hrlt := sh.root_lt
  have hsc := scoreAt_congr hw.items
  have hlo : ∀ n, n ≠ t.nodes.length → Function.update lo t.nodes.length none n = lo n :=
    fun n hn => Function.update_noteq hn _ _
  have hhi : ∀ n, n ≠ t.nodes.length → Function.update hi t.nodes.length none n = hi n :=
    fun n hn => Function.update_noteq hn _ _
  have hlonew : Function.update lo t.nodes.length none t.nodes.length = none :=
    Function.update_same _ _ _
  have hhinew : Function.update hi t.nodes.length none t.nodes.length = none :=
    Function.update_same _ _ _
  have hcls := hw.classify_wrap
  have hkeep : ∀ n nd, t.nodes[n]? = some nd → nd.IsLeaf = false →
      ChildBounds (scoreAt t) (Function.update lo t.nodes.length none)
        (Function.update hi t.nodes.length none) (lo n) (hi n) nd.Items nd.Children := by
    intro n nd hn hleaf
    refine ChildBounds.bounds_congr _ _ _ _ (ord.bounds n nd hn hleaf) (fun _ _ => rfl) ?_
    intro c hc
    obtain ⟨cd, hcd, _⟩ := sh.child n nd c hn hc
    exact ⟨hlo c (Nat.ne_of_lt (lookup_lt hcd)), hhi c (Nat.ne_of_lt (lookup_lt hcd))⟩
  refine
    { root_lo := by rw [hw.root]; exact hlonew, root_hi := by rw [hw.root]; exact hhinew,
      within := ?_, lo_le_hi := ?_, sorted := ?_, bounds := ?_, next := ?_ }
  · intro n nd a hn hleaf ha
    rw [hsc]
    rcases hcls n nd hn with ⟨rfl, rfl⟩ | ⟨rfl, rfl⟩ | ⟨_, hne, hold⟩
    · rw [hlo _ (Nat.ne_of_lt hrlt), hhi _ (Nat.ne_of_lt hrlt)]
      exact ord.within _ od a hroot hleaf ha
    · cases hleaf
    · rw [hlo _ hne, hhi _ hne]
      exact ord.within n nd a hold hleaf ha
  · intro n nd hn a b ha hb
    rcases hcls n nd hn with ⟨rfl, rfl⟩ | ⟨rfl, rfl⟩ | ⟨_, hne, hold⟩
    · rw [hlo _ (Nat.ne_of_lt hrlt)] at ha
      rw [hhi _ (Nat.ne_of_lt hrlt)] at hb
      exact ord.lo_le_hi _ od hroot a b ha hb
    · rw [hlonew] at ha; cases ha
    · rw [hlo _ hne] at ha
      rw [hhi _ hne] at hb
      exact ord.lo_le_hi n nd hold a b ha hb
  · intro n nd hn hleaf
    rw [hsc]
    rcases hcls n nd hn with ⟨rfl, rfl⟩ | ⟨rfl, rfl⟩ | ⟨_, hne, hold⟩
    · exact ord.sorted _ od hroot hleaf
    · cases hleaf
    · exact ord.sorted n nd hold hleaf
  · intro n nd hn hleaf
    rw [hsc]
    rcases hcls n nd hn with ⟨rfl, rfl⟩ | ⟨rfl, rfl⟩ | ⟨_, hne, hold⟩
    · rw [hlo _ (Nat.ne_of_lt hrlt), hhi _ (Nat.ne_of_lt hrlt)]
      exact hkeep _ od hroot hleaf
    · rw [hlonew, hhinew]
      exact ⟨by rw [hlo _ (Nat.ne_of_lt hrlt)]; exact ord.root_lo,
        by rw [hhi _ (Nat.ne_of_lt hrlt)]; exact ord.root_hi⟩
    · rw [hlo _ hne, hhi _ hne]
      exact hkeep n nd hold hleaf
  · intro n nd m hn hleaf hnext
    rw [hw.length]
    have old : ∀ nd0, t.nodes[n]? = some nd0 → nd0.IsLeaf = true → nd0.Next = some m →
        n ≠ t.nodes.length →
        m < t.nodes.length + 1 ∧ ∃ b,
          Function.update hi t.nodes.length none n = some b ∧
          Function.update lo t.nodes.length none m = some b := by
      intro nd0 h0 hl0 hn0 h1
      obtain ⟨hm, b, hb1, hb2⟩ := ord.next n nd0 m h0 hl0 hn0
      exact ⟨Nat.lt_succ_of_lt hm, b, by rw [hhi n h1]; exact hb1,
        by rw [hlo m (Nat.ne_of_lt hm)]; exact hb2⟩
    rcases hcls n nd hn with ⟨rfl, rfl⟩ | ⟨rfl, rfl⟩ | ⟨_, hne, hold⟩
    · exact old od hroot hleaf hnext (Nat.ne_of_lt hrlt)
    · cases hleaf
    · exact old nd hold hleaf hnext hne

theorem scoreAt_withItem (t : BPlusTree) (score : Float64) (member : String) (a : Nat)
    (ha : a < t.items.length) : scoreAt (withItem t score member) a = scoreAt t a := by
  simp [scoreAt, withItem, List.getElem?_append_left ha]

theorem scoreAt_withItem_new (t : BPlusTree) (score : Float64) (member : String) :
    scoreAt (withItem t score member) t.items.length = score.toInt := by
  simp [scoreAt, withItem]

theorem Ord.ord_withItem (ord : Ord t lo hi) (sh : Shape t ht ov)
    (score : Float64) (member : String) : Ord (withItem t score member) lo hi := by
  have hsc : ∀ (n : Nat) (nd : Node) (a : Nat), t.nodes[n]? = some nd → a ∈ nd.Items →
      scoreAt (withItem t score member) a = scoreAt t a :=
    fun n nd a hn ha => scoreAt_withItem t score member a (sh.item_lt n nd a hn ha)
  refine
    { root_lo := ord.root_lo, root_hi := ord.root_hi, within := ?_,
      lo_le_hi := ord.lo_le_hi, sorted := ?_, bounds := ?_, next := ord.next }
  · intro n nd a hn hleaf ha
    rw [hsc n nd a hn ha]
    exact ord.within n nd a hn hleaf ha
  · intro n nd hn hleaf
    have : nd.Items.map (scoreAt (withItem t score member)) = nd.Items.map (scoreAt t) :=
      List.map_congr_left (fun a ha => hsc n nd a hn ha)
    rw [this]
    exact ord.sorted n nd hn hleaf
  · intro n nd hn hleaf
    exact ChildBounds.bounds_congr _ _ _ _ (ord.bounds n nd hn hleaf)
      (fun a ha => hsc n nd a hn ha) (fun _ _ => ⟨rfl, rfl⟩)

/-- Inserting at the index found by the insertion-point loop keeps a leaf sorted. -/
theorem insertIndex_sorted (t : BPlusTree) (a : Nat)
    (hnum : ∀ it ∈ t.items, it.Score ≠ Float64.nan) :
    ∀ (as : List Nat) (i : Nat), insertIndex t (Float64.num (scoreAt t a)) as = some i →
      (as.map (scoreAt t)).Pairwise (· ≤ ·) →
      ((insertAt as i a).map (scoreAt t)).Pairwise (· ≤ ·) := by
  intro as
  induction as with
  | nil =>
    intro i hi _
    simp only [insertIndex, Option.some.injEq] at hi
    subst hi
    simp [insertAt]
  | cons b bs ih =>
    intro i hi hs
    simp only [insertIndex] at hi
    rw [List.map_cons, List.pairwise_cons] at hs
    cases hit : t.items[b]? with
    | none => rw [hit] at hi; cases hi
    | some it =>
      rw [hit] at hi
      have hsc : scoreAt t b = it.Score.toInt := by simp [scoreAt, hit]
      have hnn := hnum it (List.getElem?_mem hit)
      have hcmp : Float64.num (scoreAt t a) > it.Score ↔ scoreAt t a > it.Score.toInt := by
        show it.Score < Float64.num (scoreAt t a) ↔ _
        rw [Float64.eq_num_of_ne_nan hnn, Float64.num_lt_num]
        rfl
      by_cases hgt : Float64.num (scoreAt t a) > it.Score
      · have hgt' := hcmp.mp hgt
        simp only [hgt, if_true, Option.map_eq_some'] at hi
        obtain ⟨j, hj, rfl⟩ := hi
        rw [insertAt_succ, List.map_cons, List.pairwise_cons]
        refine ⟨?_, ih j hj hs.2⟩
        intro y hy
        obtain ⟨c, hc, rfl⟩ := List.mem_map.mp hy
        rcases (mem_insertAt _ _ _ _).mp hc with e | e
        · rw [e, hsc]; omega
        · exact hs.1 _ (List.mem_map_of_mem _ e)
      · have hgt' : ¬ (scoreAt t a > it.Score.toInt) := fun h => hgt (hcmp.mpr h)
        simp only [hgt, if_false, Option.some.injEq] at hi
        subst hi
        rw [insertAt_zero, List.map_cons, List.pairwise_cons, List.map_cons, List.pairwise_cons]
        refine ⟨?_, hs⟩
        intro y hy
        rcases List.mem_cons.mp hy with e | e
        · rw [e, hsc]; omega
        · have := hs.1 y e
          rw [hsc] at this
          omega

theorem Ord.ord_withEntry {l : Nat} {ld : Node} {i a : Nat} (ord : Ord t lo hi)
    (hl : t.nodes[l]? = some ld) (hleaf : ld.IsLeaf = true)
    (hnum : ∀ it ∈ t.items, it.Score ≠ Float64.nan)
    (hi' : insertIndex t (Float64.num (scoreAt t a)) ld.Items = some i)
    (hb : LoLe (lo l) (scoreAt t a) ∧ LeHi (scoreAt t a) (hi l)) :
    Ord (withEntry t l ld i a) lo hi := by
  have hlook := withEntry_lookup i a hl
  have hsc : scoreAt (withEntry t l ld i a) = scoreAt t := rfl
  have hold : ∀ n nd, (BPlusTree.withEntry t l ld i a).nodes[n]? = some nd →
      (n = l ∧ nd = { ld with Items := insertAt ld.Items i a }) ∨ (n ≠ l ∧ t.nodes[n]? = some nd) := by
    intro n nd hn
    rw [hlook] at hn
    by_cases h : n = l
    · rw [if_pos h] at hn
      exact Or.inl ⟨h, (Option.some.inj hn).symm⟩
    · rw [if_neg h] at hn
      exact Or.inr ⟨h, hn⟩
  refine
    { root_lo := ord.root_lo, root_hi := ord.root_hi, within := ?_,
      lo_le_hi := ?_, sorted := ?_, bounds := ?_, next := ?_ }
  · intro n nd b hn hlf hb'
    rw [hsc]
    rcases hold n nd hn with ⟨rfl, rfl⟩ | ⟨_, h0⟩
    · rcases (mem_insertAt _ _ _ _).mp hb' with e | e
      · rw [e]; exact hb
      · exact ord.within _ ld b hl hleaf e
    · exact ord.within n nd b h0 hlf hb'
  · intro n nd hn
    rcases hold n nd hn with ⟨rfl, rfl⟩ | ⟨_, h0⟩
    · exact ord.lo_le_hi _ ld hl
    · exact ord.lo_le_hi n nd h0
  · intro n nd hn hlf
    rw [hsc]
    rcases hold n nd hn with ⟨rfl, rfl⟩ | ⟨_, h0⟩
    · exact insertIndex_sorted t a hnum ld.Items i hi' (ord.sorted _ ld hl hleaf)
    · exact ord.sorted n nd h0 hlf
  · intro n nd hn hlf
    rw [hsc]
    rcases hold n nd hn with ⟨rfl, rfl⟩ | ⟨_, h0⟩
    · rw [hleaf] at hlf; cases hlf
    · exact ord.bounds n nd h0 hlf
  · intro n nd m hn hlf hnext
    have hlen : (BPlusTree.withEntry t l ld i a).nodes.length = t.nodes.length := by
      simp [BPlusTree.withEntry]
    rw [hlen]
    rcases hold n nd hn with ⟨rfl, rfl⟩ | ⟨_, h0⟩
    · exact ord.next _ ld m hl hleaf hnext
    · exact ord.next n nd m h0 hlf hnext

/-- The leaf reached by the descent of `Add` has a range that holds the score. -/
theorem findLeaf_bounds (ord : Ord t lo hi) (s : Int)
    (hnum : ∀ it ∈ t.items, it.Score ≠ Float64.nan) :
    ∀ (f n l : Nat), findLeaf f t (Float64.num s) n = some l →
      LoLe (lo n) s → LeHi s (hi n) → LoLe (lo l) s ∧ LeHi s (hi l) := by
  intro f
  induction f with
  | zero => intro n l h; simp [findLeaf] at h
  | succ f ih =>
    intro n l h hlo hhi
    simp only [findLeaf] at h
    cases hn : t.nodes[n]? with
    | none => rw [hn] at h; cases h
    | some nd =>
      rw [hn] at h
      cases hleaf : nd.IsLeaf with
      | true =>
        simp only [hleaf, if_true, Option.some.injEq] at h
        subst h
        exact ⟨hlo, hhi⟩
      | false =>
        simp only [hleaf, Bool.false_eq_true, if_false] at h
        cases hd : descentIndex t (Float64.num s) nd.Items with
        | none => rw [hd] at h; simp at h
        | some i =>
          rw [hd] at h
          simp only at h
          cases hc : nd.Children[i]? with
          | none => rw [hc] at h; simp at h
          | some c =>
            rw [hc] at h
            simp only at h
            obtain ⟨h1, h2⟩ := ChildBounds.descent s hnum nd.Items nd.Children _ _ i c
              (ord.bounds n nd hn hleaf) hd hc hlo hhi
            exact ih c l h h1 h2

end BPlusTree


namespace BPlusTree

/-- The order invariant together with the shape invariant is kept by the split cascade. -/
theorem ord_splitClosed :
    SplitClosed (fun t ht ov => Shape t ht ov ∧ ∃ lo hi, Ord t lo hi) where
  shape := fun _ _ _ h => h.1
  wrap := fun t t1 ht od h hroot hw =>
    ⟨hw.shape_wrap h.1 hroot, by
      obtain ⟨lo, hi, ord⟩ := h.2
      exact ⟨_, _, hw.ord_wrap h.1 ord hroot⟩⟩
  leaf := by
    intro t t2 ht x p xd pd sep h hx hleaf hp hpd hfull hsep hs
    refine ⟨shape_splitClosed.leaf t t2 ht x p xd pd sep h.1 hx hleaf hp hpd hfull hsep hs, ?_⟩
    obtain ⟨lo, hi, ord⟩ := h.2
    have hsorted := ord.sorted x xd hx hleaf
    refine ⟨_, _, hs.ord_split h.1 ord hx hp hpd
      (ord.within x xd sep hx hleaf (List.getElem?_mem hsep)) ?_ ?_ ?_ ?_
      (fun e => by rw [hleaf] at e; cases e) (fun e => by rw [hleaf] at e; cases e)
      (fun _ => rfl) (fun _ => rfl)⟩
    · intro _ a ha
      exact ⟨List.mem_of_mem_take ha, sorted_take_le hsorted hsep ha⟩
    · intro _ a ha
      exact ⟨List.mem_of_mem_drop ha, sorted_le_drop hsorted hsep ha⟩
    · intro _
      exact hsorted.sublist ((List.take_sublist _ _).map _)
    · intro _
      exact hsorted.sublist ((List.drop_sublist _ _).map _)
  internal := by
    intro t t2 ht x p xd pd sep h hx hleaf hp hpd hfull hsep hs
    refine ⟨shape_splitClosed.internal t t2 ht x p xd pd sep h.1 hx hleaf hp hpd hfull hsep hs,
      ?_⟩
    obtain ⟨lo, hi, ord⟩ := h.2
    obtain ⟨hb1, hb2⟩ := ChildBounds.split (xd.Items.length / 2) xd.Items xd.Children _ _ sep
      (ord.bounds x xd hx hleaf) hsep
    have hchild : ∀ c ∈ xd.Children, ∀ a b, lo c = some a → hi c = some b → a ≤ b := by
      intro c hc
      obtain ⟨cd, hcd, _⟩ := h.1.child x xd c hx hc
      exact ord.lo_le_hi c cd hcd
    have hsepin : LoLe (lo x) (scoreAt t sep) ∧ LeHi (scoreAt t sep) (hi x) := by
      constructor
      · intro a ha
        exact ChildBounds.range_le _ _ _ _ hb1
          (fun c hc => hchild c (List.mem_of_mem_take hc)) a _ ha rfl
      · intro b hb
        exact ChildBounds.range_le _ _ _ _ hb2
          (fun c hc => hchild c (List.mem_of_mem_drop hc)) _ b rfl hb
    exact ⟨_, _, hs.ord_split h.1 ord hx hp hpd hsepin
      (fun e => by rw [hleaf] at e; cases e) (fun e => by rw [hleaf] at e; cases e)
      (fun e => by rw [hleaf] at e; cases e) (fun e => by rw [hleaf] at e; cases e)
      (fun _ => hb1) (fun _ => hb2)
      (fun e => by rw [hleaf] at e; cases e) (fun e => by rw [hleaf] at e; cases e)⟩
  done := fun t ht p pd h hpd hsz => ⟨h.1.clear hpd hsz, h.2⟩

/-! ### The leaf chain -/

theorem leftmostLeaf_frame {t t2 : BPlusTree}
    (h : ∀ (n : Nat) (nd : Node), t.nodes[n]? = some nd →
      ∃ nd', t2.nodes[n]? = some nd' ∧ nd'.IsLeaf = nd.IsLeaf ∧ nd'.Children[0]? = nd.Children[0]?) :
    ∀ (f n l : Nat), leftmostLeaf f t n = some l → leftmostLeaf f t2 n = some l := by
  intro f
  induction f with
  | zero => intro n l hl; simp [leftmostLeaf] at hl
  | succ f ih =>
    intro n l hl
    simp only [leftmostLeaf] at hl ⊢
    cases hn : t.nodes[n]? with
    | none => rw [hn] at hl; cases hl
    | some nd =>
      rw [hn] at hl
      obtain ⟨nd', hn', hlf, hch⟩ := h n nd hn
      rw [hn']
      simp only [hlf, hch] at hl ⊢
      cases hleaf : nd.IsLeaf with
      | true => simpa [hleaf] using hl
      | false =>
        simp only [hleaf, Bool.false_eq_true, if_false] at hl ⊢
        cases hc : nd.Children[0]? with
        | none => rw [hc] at hl; cases hl
        | some c =>
          rw [hc] at hl
          exact ih c l hl

theorem leftmostLeaf_mono {t : BPlusTree} :
    ∀ (f n l : Nat), leftmostLeaf f t n = some l → leftmostLeaf (f + 1) t n = some l := by
  intro f
  induction f with
  | zero => intro n l hl; simp [leftmostLeaf] at hl
  | succ f ih =>
    intro n l hl
    rw [leftmostLeaf] at hl ⊢
    cases hn : t.nodes[n]? with
    | none => rw [hn] at hl; cases hl
    | some nd =>
      rw [hn] at hl
      simp only at hl ⊢
      cases hleaf : nd.IsLeaf with
      | true => simpa [hleaf] using hl
      | false =>
        simp only [hleaf, Bool.false_eq_true, if_false] at hl ⊢
        cases hc : nd.Children[0]? with
        | none => rw [hc] at hl; cases hl
        | some c =>
          rw [hc] at hl
          exact ih c l hl

theorem chainIds_cons {t : BPlusTree} {l : Nat} {ld : Node} {rest : List Nat}
    (h : t.nodes[l]? = some ld) : chainIds t (l :: rest) = ld.Items ++ chainIds t rest := by
  show (match t.nodes[l]? with
    | some ld => ld.Items
    | none => []) ++ _ = _
  rw [h]

theorem Linked.links_congr {t t2 : BPlusTree} :
    ∀ (L : List Nat),
      (∀ l ∈ L, ∀ ld, t.nodes[l]? = some ld → ld.IsLeaf = true →
        ∃ ld', t2.nodes[l]? = some ld' ∧ ld'.IsLeaf = true ∧ ld'.Next = ld.Next ∧
          ld'.Items = ld.Items) →
      Linked t L → Linked t2 L ∧ chainIds t2 L = chainIds t L := by
  intro L
  induction L with
  | nil => intro _ _; exact ⟨trivial, rfl⟩
  | cons l rest ih =>
    intro h hl
    match rest, hl, ih with
    | [], hl, _ =>
      obtain ⟨ld, h1, h2, h3⟩ := hl
      obtain ⟨ld', h1', h2', h3', h4'⟩ := h l (List.mem_cons_self _ _) ld h1 h2
      exact ⟨⟨ld', h1', h2', by rw [h3', h3]⟩, by simp [chainIds, h1, h1', h4']⟩
    | m :: rest, hl, ih =>
      obtain ⟨⟨ld, h1, h2, h3⟩, hrest⟩ := hl
      obtain ⟨ld', h1', h2', h3', h4'⟩ := h l (List.mem_cons_self _ _) ld h1 h2
      obtain ⟨ih1, ih2⟩ := ih (fun k hk => h k (List.mem_cons_of_mem _ hk)) hrest
      refine ⟨⟨⟨ld', h1', h2', by rw [h3', h3]⟩, ih1⟩, ?_⟩
      rw [chainIds_cons h1', chainIds_cons h1, ih2, h4']

end BPlusTree


namespace BPlusTree

theorem insertAfter_head (x new : Nat) (L : List Nat) :
    (insertAfter x new L).head? = L.head? := by
  cases L with
  | nil => rfl
  | cons l rest =>
    unfold insertAfter
    split <;> rfl

theorem insertAfter_cons_shape (x new m : Nat) (rest : List Nat) :
    ∃ rest', insertAfter x new (m :: rest) = m :: rest' := by
  unfold insertAfter
  split
  · exact ⟨_, rfl⟩
  · exact ⟨_, rfl⟩

theorem mem_insertAfter (x new : Nat) (L : List Nat) (y : Nat) :
    y ∈ insertAfter x new L → y = new ∨ y ∈ L := by
  induction L with
  | nil => intro h; cases h
  | cons l rest ih =>
    intro h
    unfold insertAfter at h
    split at h
    · rcases List.mem_cons.mp h with e | e
      · exact Or.inr (e ▸ List.mem_cons_self _ _)
      · rcases List.mem_cons.mp e with e | e
        · exact Or.inl e
        · exact Or.inr (List.mem_cons_of_mem _ e)
    · rcases List.mem_cons.mp h with e | e
      · exact Or.inr (e ▸ List.mem_cons_self _ _)
      · rcases ih e with e | e
        · exact Or.inl e
        · exact Or.inr (List.mem_cons_of_mem _ e)

theorem mem_insertAfter_of_mem (x new : Nat) (L : List Nat) (y : Nat) (h : y ∈ L) :
    y ∈ insertAfter x new L := by
  induction L with
  | nil => cases h
  | cons l rest ih =>
    unfold insertAfter
    split
    · rcases List.mem_cons.mp h with e | e
      · exact e ▸ List.mem_cons_self _ _
      · exact List.mem_cons_of_mem _ (List.mem_cons_of_mem _ e)
    · rcases List.mem_cons.mp h with e | e
      · exact e ▸ List.mem_cons_self _ _
      · exact List.mem_cons_of_mem _ (ih e)

theorem new_mem_insertAfter (x new : Nat) (L : List Nat) (h : x ∈ L) :
    new ∈ insertAfter x new L := by
  induction L with
  | nil => cases h
  | cons l rest ih =>
    unfold insertAfter
    split
    · exact List.mem_cons_of_mem _ (List.mem_cons_self _ _)
    · next hne =>
      rcases List.mem_cons.mp h with e | e
      · exact absurd e.symm hne
      · exact List.mem_cons_of_mem _ (ih e)

theorem nodup_insertAfter (x new : Nat) (L : List Nat) (hL : L.Nodup) (hnew : new ∉ L) :
    (insertAfter x new L).Nodup := by
  induction L with
  | nil => exact List.nodup_nil
  | cons l rest ih =>
    have hL' := List.nodup_cons.mp hL
    have hnr : new ∉ rest := fun e => hnew (List.mem_cons_of_mem _ e)
    have hnl : new ≠ l := fun e => hnew (e ▸ List.mem_cons_self _ _)
    unfold insertAfter
    split
    · refine List.nodup_cons.mpr ⟨?_, List.nodup_cons.mpr ⟨hnr, hL'.2⟩⟩
      intro e
      rcases List.mem_cons.mp e with e | e
      · exact hnl e.symm
      · exact hL'.1 e
    · refine List.nodup_cons.mpr ⟨?_, ih hL'.2 hnr⟩
      intro e
      rcases mem_insertAfter x new rest l e with e | e
      · exact hnl e.symm
      · exact hL'.1 e

/-- Splitting the leaf `x` of a linked chain into `x` and `new`. -/
theorem Linked.insertAfter_split {t t2 : BPlusTree} {x new : Nat} {xd xd' nd' : Node}
    (hx : t.nodes[x]? = some xd)
    (hx2 : t2.nodes[x]? = some xd') (hxl : xd'.IsLeaf = true) (hxn : xd'.Next = some new)
    (hn2 : t2.nodes[new]? = some nd') (hnl : nd'.IsLeaf = true) (hnn : nd'.Next = xd.Next)
    (hitems : xd'.Items ++ nd'.Items = xd.Items)
    (hother : ∀ l, l ≠ x → ∀ ld, t.nodes[l]? = some ld → ld.IsLeaf = true →
      t2.nodes[l]? = some ld) :
    ∀ (L : List Nat), L.Nodup → Linked t L →
      Linked t2 (insertAfter x new L) ∧ chainIds t2 (insertAfter x new L) = chainIds t L := by
  have hcongr : ∀ (L : List Nat), x ∉ L → Linked t L →
      Linked t2 L ∧ chainIds t2 L = chainIds t L := by
    intro L hxL hl
    refine Linked.links_congr L ?_ hl
    intro l hlm ld h1 h2
    have hne : l ≠ x := fun e => hxL (e ▸ hlm)
    exact ⟨ld, hother l hne ld h1 h2, h2, rfl, rfl⟩
  intro L
  induction L with
  | nil => intro _ _; exact ⟨trivial, rfl⟩
  | cons l rest ih =>
    intro hnd hl
    have hnd' := List.nodup_cons.mp hnd
    match rest, hl, ih, hnd' with
    | [], hl, _, _ =>
      obtain ⟨ld, h1, h2, h3⟩ := hl
      by_cases e : l = x
      · subst e
        rw [hx] at h1
        cases h1
        simp only [insertAfter, if_true]
        refine ⟨⟨⟨xd', hx2, hxl, hxn⟩, ⟨nd', hn2, hnl, by rw [hnn, h3]⟩⟩, ?_⟩
        rw [chainIds_cons hx2, chainIds_cons hn2, chainIds_cons hx]
        simp only [chainIds, List.append_nil]
        exact hitems
      · simp only [insertAfter, if_neg e]
        exact hcongr [l] (by simpa using Ne.symm e) ⟨ld, h1, h2, h3⟩
    | m :: rest, hl, ih, hnd' =>
      obtain ⟨⟨ld, h1, h2, h3⟩, hrest⟩ := hl
      by_cases e : l = x
      · subst e
        rw [hx] at h1
        cases h1
        simp only [insertAfter, if_true]
        obtain ⟨c1, c2⟩ := hcongr (m :: rest) hnd'.1 hrest
        refine ⟨⟨⟨xd', hx2, hxl, hxn⟩, ⟨nd', hn2, hnl, by rw [hnn, h3]⟩, c1⟩, ?_⟩
        rw [chainIds_cons hx2, chainIds_cons hn2, chainIds_cons hx, c2, ← List.append_assoc,
          hitems]
      · obtain ⟨i1, i2⟩ := ih hnd'.2 hrest
        obtain ⟨rest', hr⟩ := insertAfter_cons_shape x new m rest
        have hstep : insertAfter x new (l :: m :: rest) = l :: insertAfter x new (m :: rest) := by
          rw [insertAfter, if_neg e]
        rw [hstep, chainIds_cons (hother l e ld h1 h2), chainIds_cons h1, i2]
        refine ⟨?_, rfl⟩
        rw [hr] at i1 ⊢
        exact ⟨⟨ld, hother l e ld h1 h2, h2, h3⟩, i1⟩

end BPlusTree


namespace BPlusTree

theorem Linked.lookup {t : BPlusTree} : ∀ {L : List Nat}, Linked t L → ∀ {l : Nat}, l ∈ L →
    ∃ ld, t.nodes[l]? = some ld ∧ ld.IsLeaf = true := by
  intro L
  induction L with
  | nil => intro _ l hl; cases hl
  | cons m rest ih =>
    intro hlk l hl
    match rest, hlk, ih with
    | [], hlk, _ =>
      obtain ⟨ld, h1, h2, _⟩ := hlk
      rcases List.mem_cons.mp hl with e | e
      · subst e; exact ⟨ld, h1, h2⟩
      · cases e
    | m' :: rest, hlk, ih =>
      obtain ⟨⟨ld, h1, h2, _⟩, hrest⟩ := hlk
      rcases List.mem_cons.mp hl with e | e
      · subst e; exact ⟨ld, h1, h2⟩
      · exact ih hrest e

section split

variable {t t2 : BPlusTree} {x p : Nat} {xd pd : Node} {I1 I2 : List Nat} {sep k : Nat}
  {nx1 nx2 : Option Nat} {ht : Nat → Nat} {L : List Nat}

/-- A split step changes neither the leaf flag nor the first child of an old node. -/
theorem SplitStep.frame_first (hs : SplitStep t t2 x p xd pd I1 I2 sep k nx1 nx2)
    (hx : t.nodes[x]? = some xd) (hpd : t.nodes[p]? = some pd) (hxmem : x ∈ pd.Children)
    (hk : 0 < k ∨ xd.Children = []) (n : Nat) (nd : Node) (hn : t.nodes[n]? = some nd) :
    ∃ nd', t2.nodes[n]? = some nd' ∧ nd'.IsLeaf = nd.IsLeaf ∧
      nd'.Children[0]? = nd.Children[0]? := by
  by_cases h1 : n = x
  · subst h1
    rw [hx] at hn
    cases hn
    refine ⟨_, hs.at_x, rfl, ?_⟩
    show (xd.Children.take k)[0]? = xd.Children[0]?
    rcases hk with hk | hk
    · cases hc : xd.Children with
      | nil => simp
      | cons c cs =>
        obtain ⟨k', rfl⟩ : ∃ k', k = k' + 1 := ⟨k - 1, by omega⟩
        simp
    · rw [hk]; simp
  by_cases h2 : n = p
  · subst h2
    rw [hpd] at hn
    cases hn
    refine ⟨_, hs.at_p, rfl, ?_⟩
    exact insertAt_head _ _ _ (List.ne_nil_of_mem hxmem)
  obtain ⟨nd', hn', hlf, _, hch⟩ := hs.old_view hx hpd n nd hn
  exact ⟨nd', hn', hlf, by rw [(hch h1 h2).1]⟩

theorem SplitStep.first_split (hs : SplitStep t t2 x p xd pd I1 I2 sep k nx1 nx2)
    (hx : t.nodes[x]? = some xd) (hpd : t.nodes[p]? = some pd) (hxmem : x ∈ pd.Children)
    (hk : 0 < k ∨ xd.Children = []) (l : Nat)
    (hf : leftmostLeaf t.nodes.length t t.Root = some l) :
    leftmostLeaf t2.nodes.length t2 t2.Root = some l := by
  rw [hs.length, hs.root]
  exact leftmostLeaf_mono _ _ _
    (leftmostLeaf_frame (hs.frame_first hx hpd hxmem hk) _ _ _ hf)

theorem SplitStep.chain_leaf
    (hs : SplitStep t t2 x p xd pd I1 I2 sep k (some t.nodes.length) xd.Next)
    (sh : Shape t ht (some x)) (ch : Chain t L)
    (hx : t.nodes[x]? = some xd) (hp : xd.Parent = some p) (hpd : t.nodes[p]? = some pd)
    (hleaf : xd.IsLeaf = true) (hitems : I1 ++ I2 = xd.Items) :
    Chain t2 (insertAfter x t.nodes.length L) ∧
      chainIds t2 (insertAfter x t.nodes.length L) = chainIds t L := by
  obtain ⟨hxmem, _, hxp, hpleaf, _, _⟩ := sh.parent_facts hx hp hpd
  have hch0 : xd.Children = [] := sh.leaf_children x xd hx hleaf
  have hxL : x ∈ L := ch.all x xd hx hleaf
  have hdrop : xd.Children.drop k = [] := by rw [hch0]; simp
  have hmv : ∀ c ∈ xd.Children.drop k, ∃ cd, t.nodes[c]? = some cd := by
    intro c hc
    rw [hdrop] at hc
    cases hc
  have hother : ∀ l, l ≠ x → ∀ ld, t.nodes[l]? = some ld → ld.IsLeaf = true →
      t2.nodes[l]? = some ld := by
    intro l hlx ld hl hlf
    have hlp : l ≠ p := by
      intro e
      subst e
      rw [hpd] at hl
      cases hl
      rw [hpleaf] at hlf
      cases hlf
    rw [hs.at_other l hlx hlp (Nat.ne_of_lt (lookup_lt hl)) (by rw [hdrop]; simp)]
    exact hl
  obtain ⟨l0, rest, hL⟩ : ∃ l0 rest, L = l0 :: rest := by
    cases hL : L with
    | nil => exact absurd hL ch.nonempty
    | cons l0 rest => exact ⟨l0, rest, rfl⟩
  have hnewL : t.nodes.length ∉ L := by
    intro hm
    obtain ⟨ld, hld, _⟩ := ch.linked.lookup hm
    exact Nat.lt_irrefl _ (lookup_lt hld)
  obtain ⟨lk, ids⟩ := @Linked.insertAfter_split t t2 x t.nodes.length xd _ _ hx hs.at_x hleaf rfl
    hs.at_new hleaf rfl hitems hother L ch.nodup ch.linked
  refine ⟨?_, ids⟩
  refine
    { first := ?_, nonempty := ?_, nodup := nodup_insertAfter _ _ _ ch.nodup hnewL, linked := lk,
      all := ?_ }
  · rw [insertAfter_head]
    have hf := ch.first
    rw [hL] at hf ⊢
    exact hs.first_split hx hpd hxmem (Or.inr hch0) l0 hf
  · intro e
    have := new_mem_insertAfter x t.nodes.length L hxL
    rw [e] at this
    cases this
  · intro n nd hn hlf
    rcases hs.classify_split hmv n nd hn with ⟨rfl, rfl⟩ | ⟨rfl, rfl⟩ | ⟨rfl, rfl⟩ |
      ⟨hm, _, cd, hcd, rfl⟩ | ⟨_, _, _, _, hold⟩
    · exact mem_insertAfter_of_mem _ _ _ _ hxL
    · exact new_mem_insertAfter _ _ _ hxL
    · rw [hpleaf] at hlf; cases hlf
    · exact mem_insertAfter_of_mem _ _ _ _ (ch.all n cd hcd hlf)
    · exact mem_insertAfter_of_mem _ _ _ _ (ch.all n nd hold hlf)

end split
end BPlusTree


namespace BPlusTree

section split

variable {t t2 : BPlusTree} {x p : Nat} {xd pd : Node} {I1 I2 : List Nat} {sep k : Nat}
  {nx1 nx2 : Option Nat} {ht : Nat → Nat} {L : List Nat}

theorem SplitStep.chain_internal (hs : SplitStep t t2 x p xd pd I1 I2 sep k nx1 nx2)
    (sh : Shape t ht (some x)) (ch : Chain t L)
    (hx : t.nodes[x]? = some xd) (hp : xd.Parent = some p) (hpd : t.nodes[p]? = some pd)
    (hleaf : xd.IsLeaf = false) (hk : 0 < k) :
    Chain t2 L ∧ chainIds t2 L = chainIds t L := by
  obtain ⟨hxmem, _, hxp, hpleaf, _, _⟩ := sh.parent_facts hx hp hpd
  have hmv : ∀ c ∈ xd.Children.drop k, ∃ cd, t.nodes[c]? = some cd := by
    intro c hc
    obtain ⟨cd, hcd, _⟩ := sh.child x xd c hx (List.mem_of_mem_drop hc)
    exact ⟨cd, hcd⟩
  have hold : ∀ (l : Nat) (ld : Node), t.nodes[l]? = some ld → ld.IsLeaf = true →
      ∃ ld' : Node, t2.nodes[l]? = some ld' ∧ ld'.IsLeaf = true ∧ ld'.Next = ld.Next ∧
        ld'.Items = ld.Items := by
    intro l ld hl hlf
    have hlx : l ≠ x := by
      intro e
      subst e
      rw [hx] at hl
      cases hl
      rw [hleaf] at hlf
      cases hlf
    have hlp : l ≠ p := by
      intro e
      subst e
      rw [hpd] at hl
      cases hl
      rw [hpleaf] at hlf
      cases hlf
    by_cases hm : l ∈ xd.Children.drop k
    · exact ⟨_, hs.at_moved l ld hm hl, hlf, rfl, rfl⟩
    · exact ⟨ld, by rw [hs.at_other l hlx hlp (Nat.ne_of_lt (lookup_lt hl)) hm]; exact hl,
        hlf, rfl, rfl⟩
  obtain ⟨lk, ids⟩ := Linked.links_congr L (fun l _ ld h1 h2 => hold l ld h1 h2) ch.linked
  obtain ⟨l0, rest, hL⟩ : ∃ l0 rest, L = l0 :: rest := by
    cases hL : L with
    | nil => exact absurd hL ch.nonempty
    | cons l0 rest => exact ⟨l0, rest, rfl⟩
  refine ⟨?_, ids⟩
  refine { first := ?_, nonempty := ch.nonempty, nodup := ch.nodup, linked := lk, all := ?_ }
  · have hf := ch.first
    rw [hL] at hf ⊢
    exact hs.first_split hx hpd hxmem (Or.inl hk) l0 hf
  · intro n nd hn hlf
    rcases hs.classify_split hmv n nd hn with ⟨rfl, rfl⟩ | ⟨rfl, rfl⟩ | ⟨rfl, rfl⟩ |
      ⟨hm, _, cd, hcd, rfl⟩ | ⟨_, _, _, _, hold⟩
    · rw [hleaf] at hlf; cases hlf
    · rw [hleaf] at hlf; cases hlf
    · rw [hpleaf] at hlf; cases hlf
    · exact ch.all n cd hcd hlf
    · exact ch.all n nd hold hlf

end split

theorem WrapStep.chain_wrap {t t1 : BPlusTree} {od : Node} {ht : Nat → Nat} {ov : Option Nat}
    {L : List Nat} (hw : WrapStep t t1 od) (_sh : Shape t ht ov) (ch : Chain t L)
    (hroot : t.nodes[t.Root]? = some od) :
    Chain t1 L ∧ chainIds t1 L = chainIds t L := by
  have hold : ∀ (n : Nat) (nd : Node), t.nodes[n]? = some nd →
      ∃ nd', t1.nodes[n]? = some nd' ∧ nd'.IsLeaf = nd.IsLeaf ∧
        nd'.Children = nd.Children ∧ nd'.Next = nd.Next ∧ nd'.Items = nd.Items := by
    intro n nd hn
    by_cases e : n = t.Root
    · subst e
      rw [hroot] at hn
      cases hn
      exact ⟨_, hw.at_old, rfl, rfl, rfl, rfl⟩
    · exact ⟨nd, by rw [hw.at_other n e (Nat.ne_of_lt (lookup_lt hn))]; exact hn,
        rfl, rfl, rfl, rfl⟩
  obtain ⟨lk, ids⟩ := Linked.links_congr L (fun l _ ld h1 h2 => by
    obtain ⟨ld', a1, a2, _, a4, a5⟩ := hold l ld h1
    exact ⟨ld', a1, by rw [a2, h2], a4, a5⟩) ch.linked
  obtain ⟨l0, rest, hL⟩ : ∃ l0 rest, L = l0 :: rest := by
    cases hL : L with
    | nil => exact absurd hL ch.nonempty
    | cons l0 rest => exact ⟨l0, rest, rfl⟩
  refine ⟨?_, ids⟩
  refine { first := ?_, nonempty := ch.nonempty, nodup := ch.nodup, linked := lk, all := ?_ }
  · have hf := ch.first
    rw [hL] at hf ⊢
    rw [hw.length, hw.root]
    have h1 : leftmostLeaf t.nodes.length t1 t.Root = some l0 :=
      leftmostLeaf_frame (fun n nd hn => by
        obtain ⟨nd', a1, a2, a3, _⟩ := hold n nd hn
        exact ⟨nd', a1, a2, by rw [a3]⟩) _ _ _ hf
    simp only [leftmostLeaf, hw.at_new]
    exact h1
  · intro n nd hn hlf
    rcases hw.classify_wrap n nd hn with ⟨rfl, rfl⟩ | ⟨rfl, rfl⟩ | ⟨_, _, hold'⟩
    · exact ch.all _ od hroot hlf
    · cases hlf
    · exact ch.all n nd hold' hlf

/-- A change of the node memory that keeps the leaf flag, the children and the
`Next` pointer of every node (and creates no node) keeps the leaf chain. -/
theorem Chain.of_same_links {t t2 : BPlusTree} {L : List Nat} (ch : Chain t L)
    (hlen : t2.nodes.length = t.nodes.length) (hroot : t2.Root = t.Root)
    (h : ∀ (n : Nat) (nd : Node), t.nodes[n]? = some nd →
      ∃ nd', t2.nodes[n]? = some nd' ∧ nd'.IsLeaf = nd.IsLeaf ∧
        nd'.Children = nd.Children ∧ nd'.Next = nd.Next) :
    Chain t2 L := by
  have hlk : ∀ (L : List Nat), Linked t L → Linked t2 L := by
    intro L
    induction L with
    | nil => intro _; trivial
    | cons l rest ih =>
      intro hl
      match rest, hl, ih with
      | [], hl, _ =>
        obtain ⟨ld, h1, h2, h3⟩ := hl
        obtain ⟨ld', a1, a2, _, a4⟩ := h l ld h1
        exact ⟨ld', a1, by rw [a2, h2], by rw [a4, h3]⟩
      | m :: rest, hl, ih =>
        obtain ⟨⟨ld, h1, h2, h3⟩, hrest⟩ := hl
        obtain ⟨ld', a1, a2, _, a4⟩ := h l ld h1
        exact ⟨⟨ld', a1, by rw [a2, h2], by rw [a4, h3]⟩, ih hrest⟩
  obtain ⟨l0, rest, hL⟩ : ∃ l0 rest, L = l0 :: rest := by
    cases hL : L with
    | nil => exact absurd hL ch.nonempty
    | cons l0 rest => exact ⟨l0, rest, rfl⟩
  refine
    { first := ?_, nonempty := ch.nonempty, nodup := ch.nodup, linked := hlk L ch.linked,
      all := ?_ }
  · have hf := ch.first
    rw [hL] at hf ⊢
    rw [hlen, hroot]
    exact leftmostLeaf_frame (fun n nd hn => by
      obtain ⟨nd', a1, a2, a3, _⟩ := h n nd hn
      exact ⟨nd', a1, a2, by rw [a3]⟩) _ _ _ hf
  · intro n nd hn hlf
    have hnlt : n < t.nodes.length := by rw [← hlen]; exact lookup_lt hn
    obtain ⟨nd', a1, a2, _⟩ := h n _ (List.getElem?_eq_getElem hnlt)
    rw [hn] at a1
    cases a1
    exact ch.all n _ (List.getElem?_eq_getElem hnlt) (by rw [← a2]; exact hlf)

theorem Chain.chain_withItem {t : BPlusTree} {L : List Nat} (ch : Chain t L)
    (score : Float64) (member : String) :
    Chain (withItem t score member) L ∧ chainIds (withItem t score member) L = chainIds t L := by
  refine ⟨ch.of_same_links rfl rfl (fun n nd hn => ⟨nd, hn, rfl, rfl, rfl⟩), ?_⟩
  exact (@Linked.links_congr t (withItem t score member) L
    (fun l _ ld h1 h2 => ⟨ld, h1, h2, rfl, rfl⟩) ch.linked).2

theorem Chain.chain_withScore {t : BPlusTree} {L : List Nat} (ch : Chain t L)
    (a : Nat) (it : Item) (score : Float64) :
    Chain (withScore t a it score) L ∧ chainIds (withScore t a it score) L = chainIds t L := by
  refine ⟨ch.of_same_links rfl rfl (fun n nd hn => ⟨nd, hn, rfl, rfl, rfl⟩), ?_⟩
  exact (@Linked.links_congr t (withScore t a it score) L
    (fun l _ ld h1 h2 => ⟨ld, h1, h2, rfl, rfl⟩) ch.linked).2

theorem chainIds_withEntry {t : BPlusTree} {l : Nat} {ld : Node} (i a : Nat)
    (hl : t.nodes[l]? = some ld) :
    ∀ (L : List Nat), L.Nodup →
      (l ∉ L → chainIds (withEntry t l ld i a) L = chainIds t L) ∧
      (l ∈ L → (chainIds (withEntry t l ld i a) L).Perm (a :: chainIds t L)) := by
  have hlook := withEntry_lookup i a hl
  intro L
  induction L with
  | nil => intro _; exact ⟨fun _ => rfl, fun h => by cases h⟩
  | cons m rest ih =>
    intro hnd
    have hnd' := List.nodup_cons.mp hnd
    obtain ⟨ih1, ih2⟩ := ih hnd'.2
    have hcons : ∀ t' : BPlusTree, chainIds t' (m :: rest) =
        (match t'.nodes[m]? with
          | some ld => ld.Items
          | none => []) ++ chainIds t' rest := fun _ => rfl
    constructor
    · intro hnot
      have hml : m ≠ l := fun e => hnot (e ▸ List.mem_cons_self _ _)
      rw [hcons, hcons, hlook, if_neg hml, ih1 (fun e => hnot (List.mem_cons_of_mem _ e))]
    · intro hmem
      by_cases hml : m = l
      · subst hml
        rw [hcons, hcons, hlook, if_pos rfl, hl, ih1 hnd'.1]
        show (insertAt ld.Items i a ++ chainIds t rest).Perm (a :: (ld.Items ++ chainIds t rest))
        have h1 : (insertAt ld.Items i a).Perm (a :: ld.Items) := by
          unfold insertAt
          have := @List.perm_middle _ a (ld.Items.take i) (ld.Items.drop i)
          rwa [List.take_append_drop] at this
        exact (h1.append_right _)
      · have hlr : l ∈ rest := by
          rcases List.mem_cons.mp hmem with e | e
          · exact absurd e.symm hml
          · exact e
        rw [hcons, hcons, hlook, if_neg hml]
        exact ((ih2 hlr).append_left _).trans List.perm_middle

theorem Chain.chain_withEntry {t : BPlusTree} {L : List Nat} {l : Nat} {ld : Node} (i a : Nat)
    (ch : Chain t L) (hl : t.nodes[l]? = some ld) (hleaf : ld.IsLeaf = true) :
    Chain (withEntry t l ld i a) L ∧ (chainIds (withEntry t l ld i a) L).Perm (a :: chainIds t L) := by
  have hlook := withEntry_lookup i a hl
  refine ⟨ch.of_same_links (by simp [withEntry]) rfl ?_,
    (chainIds_withEntry i a hl L ch.nodup).2 (ch.all l ld hl hleaf)⟩
  intro n nd hn
  rw [hlook]
  by_cases e : n = l
  · subst e
    rw [hl] at hn
    cases hn
    exact ⟨_, if_pos rfl, rfl, rfl, rfl⟩
  · exact ⟨nd, by rw [if_neg e]; exact hn, rfl, rfl, rfl⟩

/-- The leaf chain, with the item addresses it holds, is kept by the split cascade. -/
theorem chain_splitClosed (ids : List Nat) :
    SplitClosed (fun t ht ov => Shape t ht ov ∧ ∃ L, Chain t L ∧ chainIds t L = ids) where
  shape := fun _ _ _ h => h.1
  wrap := fun t t1 ht od h hroot hw =>
    ⟨hw.shape_wrap h.1 hroot, by
      obtain ⟨L, ch, hids⟩ := h.2
      obtain ⟨c1, c2⟩ := hw.chain_wrap h.1 ch hroot
      exact ⟨L, c1, by rw [c2, hids]⟩⟩
  leaf := by
    intro t t2 ht x p xd pd sep h hx hleaf hp hpd hfull hsep hs
    refine ⟨shape_splitClosed.leaf t t2 ht x p xd pd sep h.1 hx hleaf hp hpd hfull hsep hs, ?_⟩
    obtain ⟨L, ch, hids⟩ := h.2
    obtain ⟨c1, c2⟩ := hs.chain_leaf h.1 ch hx hp hpd hleaf (List.take_append_drop _ _)
    exact ⟨_, c1, by rw [c2, hids]⟩
  internal := by
    intro t t2 ht x p xd pd sep h hx hleaf hp hpd hfull hsep hs
    refine ⟨shape_splitClosed.internal t t2 ht x p xd pd sep h.1 hx hleaf hp hpd hfull hsep hs,
      ?_⟩
    obtain ⟨L, ch, hids⟩ := h.2
    obtain ⟨c1, c2⟩ := hs.chain_internal h.1 ch hx hp hpd hleaf (Nat.succ_pos _)
    exact ⟨_, c1, by rw [c2, hids]⟩
  done := fun t ht p pd h hpd hsz => ⟨h.1.clear hpd hsz, h.2⟩

end BPlusTree


namespace BPlusTree

theorem SplitClosed.both {I J : BPlusTree → (Nat → Nat) → Option Nat → Prop}
    (hI : SplitClosed I) (hJ : SplitClosed J) :
    SplitClosed (fun t ht ov => I t ht ov ∧ J t ht ov) where
  shape := fun t ht ov h => hI.shape t ht ov h.1
  wrap := fun t t1 ht od h hroot hw =>
    ⟨hI.wrap t t1 ht od h.1 hroot hw, hJ.wrap t t1 ht od h.2 hroot hw⟩
  leaf := fun t t2 ht x p xd pd sep h hx hleaf hp hpd hfull hsep hs =>
    ⟨hI.leaf t t2 ht x p xd pd sep h.1 hx hleaf hp hpd hfull hsep hs,
      hJ.leaf t t2 ht x p xd pd sep h.2 hx hleaf hp hpd hfull hsep hs⟩
  internal := fun t t2 ht x p xd pd sep h hx hleaf hp hpd hfull hsep hs =>
    ⟨hI.internal t t2 ht x p xd pd sep h.1 hx hleaf hp hpd hfull hsep hs,
      hJ.internal t t2 ht x p xd pd sep h.2 hx hleaf hp hpd hfull hsep hs⟩
  done := fun t ht p pd h hpd hsz =>
    ⟨hI.done t ht p pd h.1 hpd hsz, hJ.done t ht p pd h.2 hpd hsz⟩

theorem findMember_found (t : BPlusTree) (member : String) :
    ∀ (as : List Nat) (a : Nat), findMember t member as = some (some a) →
      a ∈ as ∧ ∃ it, t.items[a]? = some it ∧ it.Member = member := by
  intro as
  induction as with
  | nil => intro a h; simp [findMember] at h
  | cons b bs ih =>
    intro a h
    simp only [findMember] at h
    cases hb : t.items[b]? with
    | none => rw [hb] at h; cases h
    | some it =>
      rw [hb] at h
      by_cases hm : it.Member = member
      · simp only [hm, if_true, Option.some.injEq] at h
        subst h
        exact ⟨List.mem_cons_self _ _, it, hb, hm⟩
      · simp only [hm, if_false] at h
        obtain ⟨h1, h2⟩ := ih a h
        exact ⟨List.mem_cons_of_mem _ h1, h2⟩

theorem good_new (degree : Int) (h : 2 ≤ degree) : Good (NewBPlusTree degree) := by
  have hl : (NewBPlusTree degree).nodes[0]?
      = some { Items := [], Children := [], IsLeaf := true, Parent := none, Next := none } := rfl
  have hl' : ∀ (n : Nat) (nd : Node), (NewBPlusTree degree).nodes[n]? = some nd →
      n = 0 ∧ nd = { Items := [], Children := [], IsLeaf := true, Parent := none, Next := none } := by
    intro n nd hn
    cases n with
    | zero =>
      simp [NewBPlusTree] at hn
      exact ⟨rfl, hn.symm⟩
    | succ n => simp [NewBPlusTree] at hn
  refine ⟨fun _ => 0, fun _ => none, fun _ => none, [0], shape_new degree h, ?_, ?_, ?_⟩
  · refine
      { root_lo := rfl, root_hi := rfl, within := ?_, lo_le_hi := ?_, sorted := ?_,
        bounds := ?_, next := ?_ }
    · intro n nd a hn _ ha
      obtain ⟨_, rfl⟩ := hl' n nd hn
      cases ha
    · intro n nd _ a b ha
      cases ha
    · intro n nd hn _
      obtain ⟨_, rfl⟩ := hl' n nd hn
      exact List.Pairwise.nil
    · intro n nd hn hleaf
      obtain ⟨_, rfl⟩ := hl' n nd hn
      cases hleaf
    · intro n nd m hn _ hnext
      obtain ⟨_, rfl⟩ := hl' n nd hn
      cases hnext
  · refine
      { first := rfl, nonempty := by simp, nodup := by simp, linked := ⟨_, hl, rfl, rfl⟩,
        all := ?_ }
    intro n nd hn _
    rw [(hl' n nd hn).1]
    exact List.mem_singleton_self 0
  · refine ⟨?_, fun it hit => by cases hit⟩
    show (chainIds (NewBPlusTree degree) [0]).Perm (List.range 0)
    rw [chainIds_cons hl]
    simp [chainIds]

/-- An `Add` of a member that no allocated item carries, with a score that is not NaN,
inserts, and keeps `Good`. -/
theorem Add_good {t : BPlusTree} (g : Good t) (score : Float64) (member : String)
    (hnew : ∀ it ∈ t.items, it.Member ≠ member) (hscore : score ≠ Float64.nan) :
    ∃ t', Add t score member = some (t', 1) ∧ Good t' ∧
      t'.items = t.items ++ [{ Score := score, Member := member }] ∧ t'.Degree = t.Degree := by
  obtain ⟨ht, lo, hi, L, sh, ord, ch, hperm, hnum⟩ := g
  obtain ⟨s, rfl⟩ : ∃ s, score = Float64.num s := ⟨_, Float64.eq_num_of_ne_nan hscore⟩
  have hnum0 : ∀ it ∈ (withItem t (Float64.num s) member).items, it.Score ≠ Float64.nan := by
    intro it hit
    simp only [withItem, List.mem_append, List.mem_singleton] at hit
    rcases hit with h | h
    · exact hnum it h
    · rw [h]; exact hscore
  obtain ⟨l, ld, hl, hleaf, hfl, hcase⟩ := Add_cases sh (Float64.num s) member
  have sh0 := sh.after_withItem (Float64.num s) member
  have ord0 := ord.ord_withItem sh (Float64.num s) member
  obtain ⟨ch0, ids0⟩ := ch.chain_withItem (Float64.num s) member
  have hl0 : (withItem t (Float64.num s) member).nodes[l]? = some ld := hl
  rcases hcase with ⟨a, it, hfm, ham, hit, _⟩ | ⟨_, i, hins, hle, hov, hnov⟩
  · -- the update path cannot be taken
    exfalso
    obtain ⟨_, it', hit', hmem⟩ := findMember_found _ member ld.Items a hfm
    have halt := sh.item_lt l ld a hl ham
    have hget : (withItem t (Float64.num s) member).items[a]? = t.items[a]? := by
      simp [withItem, List.getElem?_append_left halt]
    rw [hget] at hit'
    exact hnew it' (List.getElem?_mem hit') hmem
  · have hsnew : scoreAt (withItem t (Float64.num s) member) t.items.length = s := by
      rw [scoreAt_withItem_new]
      rfl
    have hb := findLeaf_bounds ord0 s hnum0 _ _ _ hfl
      (fun b hb => by rw [ord.root_lo] at hb; cases hb)
      (fun b hb => by rw [ord.root_hi] at hb; cases hb)
    have sh1 : Shape (withEntry (withItem t (Float64.num s) member) l ld i t.items.length) ht (some l) :=
      sh0.after_withEntry hl0 hleaf hle (by simp [BPlusTree.withItem])
    have ord1 : Ord (withEntry (withItem t (Float64.num s) member) l ld i t.items.length) lo hi :=
      ord0.ord_withEntry hl0 hleaf hnum0 (by rw [hsnew]; exact hins) (by rw [hsnew]; exact hb)
    obtain ⟨ch1, ids1⟩ := ch0.chain_withEntry i t.items.length hl0 hleaf
    have hperm1 : (chainIds (withEntry (withItem t (Float64.num s) member) l ld i t.items.length) L).Perm
        (List.range (t.items.length + 1)) := by
      rw [ids0] at ids1
      refine ids1.trans ?_
      rw [List.range_succ]
      exact ((List.Perm.cons _ hperm).trans (List.perm_append_singleton _ _).symm)
    have hl1 : (withEntry (withItem t (Float64.num s) member) l ld i t.items.length).nodes[l]?
        = some { ld with Items := insertAt ld.Items i t.items.length } := by
      rw [withEntry_lookup i _ hl0, if_pos rfl]
    have hlen1 : (withEntry (withItem t (Float64.num s) member) l ld i t.items.length).items.length
        = t.items.length + 1 := by
      simp [withEntry, withItem]
    by_cases h : ((insertAt ld.Items i t.items.length).length : Int) > t.Degree - 1
    · have hfull : ((insertAt ld.Items i t.items.length).length : Int) = t.Degree := by
        rcases sh1.size l _ hl1 with e | ⟨_, e⟩
        · exact absurd h (by
            have e' : ((insertAt ld.Items i t.items.length).length : Int) ≤ t.Degree - 1 := e
            omega)
        · exact e
      obtain ⟨t2, ht2, hsp, ⟨⟨_, lo2, hi2, ord2⟩, ⟨sh2, L2, ch2, ids2⟩⟩, hd2, hi2'⟩ :=
        splitNode_closed
          (((ord_splitClosed.both (chain_splitClosed
            (chainIds (withEntry (withItem t (Float64.num s) member) l ld i t.items.length) L))).frame
              t.Degree (withEntry (withItem t (Float64.num s) member) l ld i t.items.length).items))
          (t.nodes.length + 1)
          (withEntry (withItem t (Float64.num s) member) l ld i t.items.length) ht l _
          ⟨⟨⟨sh1, lo, hi, ord1⟩, ⟨sh1, L, ch1, rfl⟩⟩, rfl, rfl⟩ hl1 hfull
          (by
            have := sh.ht_fuel
            show ht t.Root - ht l < t.nodes.length + 1
            omega)
      refine ⟨t2, hov h t2 hsp, ⟨ht2, lo2, hi2, L2, sh2, ord2, ch2, ?_, ?_⟩, hi2', hd2⟩
      · rw [ids2, hi2', hlen1]
        exact hperm1
      · rw [hi2']
        exact hnum0
    · refine ⟨_, hnov h, ⟨ht, lo, hi, L, sh1.clear hl1 (by
        show ((insertAt ld.Items i t.items.length).length : Int) ≤ t.Degree - 1
        omega), ord1, ch1, ?_, hnum0⟩, rfl, rfl⟩
      rw [hlen1]
      exact hperm1

end BPlusTree


namespace BPlusTree

theorem addAll_good (ops : List (Float64 × String)) :
    ∀ (t : BPlusTree), Good t → (t.items.map Item.Member ++ ops.map Prod.snd).Nodup →
      (∀ op ∈ ops, op.1 ≠ Float64.nan) →
      ∃ t', addAll t ops = some t' ∧ Good t' ∧ t'.items = t.items ++ ops.map toItem ∧
        t'.Degree = t.Degree := by
  induction ops with
  | nil => intro t g _ _; exact ⟨t, rfl, g, by simp, rfl⟩
  | cons op ops ih =>
    intro t g hnd hnan
    have hnan0 := hnan op (List.mem_cons_self _ _)
    have hnan1 : ∀ op' ∈ ops, op'.1 ≠ Float64.nan :=
      fun op' h => hnan op' (List.mem_cons_of_mem _ h)
    obtain ⟨score, member⟩ := op
    have hnew : ∀ it ∈ t.items, it.Member ≠ member := by
      intro it hit e
      have h1 : member ∈ t.items.map Item.Member := e ▸ List.mem_map_of_mem _ hit
      have h2 : member ∈ ((score, member) :: ops).map Prod.snd := by simp
      exact (List.nodup_append.mp hnd).2.2 h1 h2
    obtain ⟨t1, h1, g1, hi1, hd1⟩ := Add_good g score member hnew hnan0
    have hnd1 : (t1.items.map Item.Member ++ ops.map Prod.snd).Nodup := by
      rw [hi1]
      simpa [List.append_assoc] using hnd
    obtain ⟨t2, h2, g2, hi2, hd2⟩ := ih t1 g1 hnd1 hnan1
    refine ⟨t2, by simp only [addAll, h1, h2], g2, ?_, by rw [hd2, hd1]⟩
    rw [hi2, hi1]
    simp [toItem]

theorem build_good (degree : Int) (h : 2 ≤ degree) (ops : List (Float64 × String))
    (hnd : (ops.map Prod.snd).Nodup) (hnan : ∀ op ∈ ops, op.1 ≠ Float64.nan) :
    ∃ t, build degree ops = some t ∧ Good t ∧ t.items = ops.map toItem ∧ t.Degree = degree := by
  obtain ⟨t, h1, g, hi, hd⟩ := addAll_good ops (NewBPlusTree degree) (good_new degree h)
    (by simpa [NewBPlusTree] using hnd) hnan
  exact ⟨t, h1, g, by simpa [NewBPlusTree] using hi, hd⟩

/-! ### Reading the leaf chain -/

theorem nodup_length_le (L : List Nat) (n : Nat) (hnd : L.Nodup) (h : ∀ x ∈ L, x < n) :
    L.length ≤ n := by
  have h1 : L.toFinset ⊆ Finset.range n := by
    intro x hx
    exact Finset.mem_range.mpr (h x (List.mem_toFinset.mp hx))
  have h2 := Finset.card_le_card h1
  rw [List.toFinset_card_of_nodup hnd, Finset.card_range] at h2
  exact h2

theorem Chain.length_le {t : BPlusTree} {L : List Nat} (ch : Chain t L) :
    L.length ≤ t.nodes.length :=
  nodup_length_le L _ ch.nodup (fun x hx => by
    obtain ⟨ld, hld, _⟩ := ch.linked.lookup hx
    exact lookup_lt hld)

theorem chainWalk_linked {t : BPlusTree} :
    ∀ (L : List Nat) (l0 : Nat) (f : Nat), Linked t (l0 :: L) → (l0 :: L).length ≤ f →
      chainWalk f t (some l0) = some (chainIds t (l0 :: L)) := by
  intro L
  induction L with
  | nil =>
    intro l0 f hl hf
    obtain ⟨ld, h1, _, h3⟩ := hl
    obtain ⟨f', rfl⟩ : ∃ f', f = f' + 1 := ⟨f - 1, by simp at hf; omega⟩
    rw [chainIds_cons h1]
    simp only [chainWalk, h1, h3]
    cases f' <;> simp [chainWalk, chainIds]
  | cons m rest ih =>
    intro l0 f hl hf
    obtain ⟨⟨ld, h1, _, h3⟩, hrest⟩ := hl
    obtain ⟨f', rfl⟩ : ∃ f', f = f' + 1 := ⟨f - 1, by simp at hf; omega⟩
    rw [chainIds_cons h1]
    simp only [chainWalk, h1, h3]
    rw [ih m f' hrest (by simp at hf ⊢; omega)]
    rfl

theorem leafWalk_linked {t : BPlusTree} :
    ∀ (L : List Nat) (l0 : Nat) (f : Nat), Linked t (l0 :: L) → (l0 :: L).length ≤ f →
      leafWalk f t (some l0) = some (l0 :: L) := by
  intro L
  induction L with
  | nil =>
    intro l0 f hl hf
    obtain ⟨ld, h1, _, h3⟩ := hl
    obtain ⟨f', rfl⟩ : ∃ f', f = f' + 1 := ⟨f - 1, by simp at hf; omega⟩
    simp only [leafWalk, h1, h3]
    cases f' <;> simp [leafWalk]
  | cons m rest ih =>
    intro l0 f hl hf
    obtain ⟨⟨ld, h1, _, h3⟩, hrest⟩ := hl
    obtain ⟨f', rfl⟩ : ∃ f', f = f' + 1 := ⟨f - 1, by simp at hf; omega⟩
    simp only [leafWalk, h1, h3]
    rw [ih m f' hrest (by simp at hf ⊢; omega)]
    rfl

theorem loadItems_eq (t : BPlusTree) :
    ∀ (ids : List Nat), (∀ a ∈ ids, a < t.items.length) →
      loadItems t ids = some (ids.map (itemAt t)) := by
  intro ids
  induction ids with
  | nil => intro _; rfl
  | cons a as ih =>
    intro h
    have ha := h a (List.mem_cons_self _ _)
    simp only [loadItems, List.getElem?_eq_getElem ha,
      ih (fun b hb => h b (List.mem_cons_of_mem _ hb))]
    simp [itemAt, List.getElem?_eq_getElem ha]

theorem mem_chainIds {t : BPlusTree} :
    ∀ (L : List Nat) (a : Nat), a ∈ chainIds t L →
      ∃ l ld, l ∈ L ∧ t.nodes[l]? = some ld ∧ a ∈ ld.Items := by
  intro L
  induction L with
  | nil => intro a h; cases h
  | cons l rest ih =>
    intro a h
    cases hl : t.nodes[l]? with
    | none =>
      have : chainIds t (l :: rest) = chainIds t rest := by
        show (match t.nodes[l]? with
          | some ld => ld.Items
          | none => []) ++ _ = _
        rw [hl]; rfl
      rw [this] at h
      obtain ⟨l', ld, h1, h2, h3⟩ := ih a h
      exact ⟨l', ld, List.mem_cons_of_mem _ h1, h2, h3⟩
    | some ld =>
      rw [chainIds_cons hl] at h
      rcases List.mem_append.mp h with h | h
      · exact ⟨l, ld, List.mem_cons_self _ _, hl, h⟩
      · obtain ⟨l', ld', h1, h2, h3⟩ := ih a h
        exact ⟨l', ld', List.mem_cons_of_mem _ h1, h2, h3⟩

/-- With the shape and chain invariants, the full traversal returns the items of
the leaves of the chain, in order. -/
theorem leafChain_eq {t : BPlusTree} {ht : Nat → Nat} {ov : Option Nat} {L : List Nat}
    (sh : Shape t ht ov) (ch : Chain t L) :
    leafChain t = some ((chainIds t L).map (itemAt t)) := by
  obtain ⟨l0, rest, hL⟩ : ∃ l0 rest, L = l0 :: rest := by
    cases hL : L with
    | nil => exact absurd hL ch.nonempty
    | cons l0 rest => exact ⟨l0, rest, rfl⟩
  have hf := ch.first
  have hlen := ch.length_le
  have hlk := ch.linked
  rw [hL] at hf hlen hlk
  have hw := chainWalk_linked rest l0 t.nodes.length hlk hlen
  have hload := loadItems_eq t (chainIds t (l0 :: rest)) (by
    intro a ha
    obtain ⟨l, ld, _, h2, h3⟩ := mem_chainIds _ a ha
    exact sh.item_lt l ld a h2 h3)
  rw [hL]
  simp only [leafChain, hf, List.head?_cons, hw, hload]

/-- The scores along a linked chain are non-decreasing. -/
theorem chain_sorted {t : BPlusTree} {lo hi : Nat → Option Int} (ord : Ord t lo hi) :
    ∀ (L : List Nat) (l0 : Nat), Linked t (l0 :: L) →
      ((chainIds t (l0 :: L)).map (scoreAt t)).Pairwise (· ≤ ·) ∧
      ∀ a ∈ chainIds t (l0 :: L), LoLe (lo l0) (scoreAt t a) := by
  intro L
  induction L with
  | nil =>
    intro l0 hl
    obtain ⟨ld, h1, h2, _⟩ := hl
    rw [chainIds_cons h1]
    simp only [chainIds, List.append_nil]
    exact ⟨ord.sorted l0 ld h1 h2, fun a ha => (ord.within l0 ld a h1 h2 ha).1⟩
  | cons m rest ih =>
    intro l0 hl
    obtain ⟨⟨ld, h1, h2, h3⟩, hrest⟩ := hl
    obtain ⟨ih1, ih2⟩ := ih m hrest
    obtain ⟨_, b, hb1, hb2⟩ := ord.next l0 ld m h1 h2 h3
    rw [chainIds_cons h1]
    have hcross : ∀ a ∈ chainIds t (m :: rest), b ≤ scoreAt t a :=
      fun a ha => ih2 a ha b hb2
    constructor
    · rw [List.map_append, List.pairwise_append]
      refine ⟨ord.sorted l0 ld h1 h2, ih1, ?_⟩
      intro x hx y hy
      obtain ⟨a, ha, rfl⟩ := List.mem_map.mp hx
      obtain ⟨c, hc, rfl⟩ := List.mem_map.mp hy
      exact le_trans ((ord.within l0 ld a h1 h2 ha).2 b hb1) (hcross c hc)
    · intro a ha
      rcases List.mem_append.mp ha with h | h
      · exact (ord.within l0 ld a h1 h2 h).1
      · intro lb hlb
        exact le_trans (ord.lo_le_hi l0 ld h1 lb b hlb hb1) (hcross a h)

end BPlusTree


namespace BPlusTree

theorem itemAt_score (t : BPlusTree) (a : Nat) : (itemAt t a).Score.toInt = scoreAt t a := by
  unfold itemAt scoreAt
  cases t.items[a]? <;> rfl

theorem itemAt_mem (t : BPlusTree) (a : Nat) (h : a < t.items.length) : itemAt t a ∈ t.items := by
  simp only [itemAt, List.getElem?_eq_getElem h]
  exact List.getElem_mem h

theorem map_itemAt_range (t : BPlusTree) :
    (List.range t.items.length).map (itemAt t) = t.items := by
  apply List.ext_getElem
  · simp
  · intro n h1 h2
    simp [itemAt, List.getElem?_eq_getElem h2]

/-- What the traversal of a `Good` tree looks like. -/
theorem Good.traversal {t : BPlusTree} (g : Good t) :
    ∃ l, leafChain t = some l ∧ ScoreSorted l ∧ l.Perm t.items := by
  obtain ⟨ht, lo, hi, L, sh, ord, ch, hperm, hnum⟩ := g
  obtain ⟨l0, rest, hL⟩ : ∃ l0 rest, L = l0 :: rest := by
    cases hL : L with
    | nil => exact absurd hL ch.nonempty
    | cons l0 rest => exact ⟨l0, rest, rfl⟩
  refine ⟨_, leafChain_eq sh ch, ?_, ?_⟩
  · have hs := (chain_sorted ord rest l0 (hL ▸ ch.linked)).1
    rw [← hL] at hs
    have hs' : ((chainIds t L).map (itemAt t)).Pairwise (fun a b => a.Score ≤ b.Score) := by
      rw [List.pairwise_map] at hs ⊢
      have hin : ∀ a ∈ chainIds t L, (itemAt t a).Score ≠ Float64.nan := by
        intro a ha
        obtain ⟨l, ld, _, h2, h3⟩ := mem_chainIds _ a ha
        exact hnum _ (itemAt_mem t a (sh.item_lt l ld a h2 h3))
      exact hs.imp_of_mem (fun {a b} ha hb h => by
        rw [Float64.le_iff_toInt (hin a ha) (hin b hb), itemAt_score, itemAt_score]
        exact h)
    exact hs'.chain'
  · have := hperm.map (itemAt t)
    rw [map_itemAt_range] at this
    exact this

theorem compareTo_of_score_lt {a b : Item} (h : a.Score < b.Score) : a.CompareTo b = -1 := by
  simp [Item.CompareTo, h]

/-- A score-sorted sequence with pairwise distinct scores is strictly ascending. -/
theorem strict_of_sorted_nodup {l : List Item} (hs : ScoreSorted l)
    (hn : (l.map Item.Score).Nodup) : l.Pairwise (fun a b => a.Score < b.Score) := by
  have h1 : l.Pairwise (fun a b => a.Score ≤ b.Score) := by
    unfold ScoreSorted at hs
    haveI : IsTrans Item (fun a b => a.Score ≤ b.Score) :=
      ⟨fun a b c h1 h2 => Float64.le_chain h1 h2⟩
    exact List.chain'_iff_pairwise.mp hs
  have h2 : l.Pairwise (fun a b => a.Score ≠ b.Score) := by
    rw [List.Nodup, List.pairwise_map] at hn
    exact hn
  exact (h1.and h2).imp (fun {a b} h => Float64.lt_of_le_ne h.1 h.2)

theorem nonDecreasing_of_strict {l : List Item}
    (h : l.Pairwise (fun a b => a.Score < b.Score)) : NonDecreasing l := by
  unfold NonDecreasing
  exact (h.imp (fun {a b} hab => by rw [compareTo_of_score_lt hab]; decide)).chain'


/-- C1 (amended): for every degree >= 2 and every sequence of `Add` calls with pairwise
distinct members and no NaN score on `NewBPlusTree(degree)`, the calls return, the full
leaf-chain traversal holds exactly the added entries and is non-decreasing in score;
when the scores are pairwise distinct as well, it is non-decreasing in the composite
order. -/
theorem ordering_distinct_members (degree : Int) (hdeg : 2 ≤ degree) (ops : List (Float64 × String))
    (hmem : (ops.map Prod.snd).Nodup) (hnan : ∀ op ∈ ops, op.1 ≠ Float64.nan) :
    ∃ t l, build degree ops = some t ∧ leafChain t = some l ∧ l.Perm (ops.map toItem) ∧
      ScoreSorted l ∧ ((ops.map Prod.fst).Nodup → NonDecreasing l) := by
  obtain ⟨t, hb, g, hitems, _⟩ := build_good degree hdeg ops hmem hnan
  obtain ⟨l, hl, hs, hp⟩ := g.traversal
  rw [hitems] at hp
  refine ⟨t, l, hb, hl, hp, hs, ?_⟩
  intro hsc
  apply nonDecreasing_of_strict
  apply strict_of_sorted_nodup hs
  have h1 : (l.map Item.Score).Perm ((ops.map toItem).map Item.Score) := hp.map _
  have h2 : (ops.map toItem).map Item.Score = ops.map Prod.fst := by
    rw [List.map_map]
    rfl
  rw [h2] at h1
  exact h1.nodup_iff.mpr hsc

/-- The amended ordering theorem at degree 3 on six insertions with two tied scores. -/
theorem ordering_distinct_members_witness :
    (2 : Int) ≤ 3 ∧
    ([(2, "b"), (1, "a"), (2, "c"), (5, "d"), (4, "e"), (3, "f")].map
      (Prod.snd : Float64 × String → String)).Nodup ∧
    (∀ op ∈ [((2 : Float64), "b"), (1, "a"), (2, "c"), (5, "d"), (4, "e"), (3, "f")],
      op.1 ≠ Float64.nan) ∧
    ∃ t l, build 3 [(2, "b"), (1, "a"), (2, "c"), (5, "d"), (4, "e"), (3, "f")] = some t ∧
      leafChain t = some l ∧
      l.Perm ([(2, "b"), (1, "a"), (2, "c"), (5, "d"), (4, "e"), (3, "f")].map toItem) ∧
      ScoreSorted l ∧
      (([(2, "b"), (1, "a"), (2, "c"), (5, "d"), (4, "e"), (3, "f")].map
        (Prod.fst : Float64 × String → Float64)).Nodup → NonDecreasing l) :=
  ⟨by decide, by decide, by decide,
    ordering_distinct_members 3 (by decide) _ (by decide) (by decide)⟩

end BPlusTree


namespace BPlusTree

/-! ### Reading `GetRank` off the leaf chain -/

theorem rankInLeaf_eq (t : BPlusTree) (member : String) :
    ∀ (ids : List Nat) (r : Nat), (∀ a ∈ ids, a < t.items.length) →
      rankInLeaf t member r ids =
        some (if (ids.map (itemAt t)).findIdx (fun e => decide (e.Member = member)) < ids.length
          then Sum.inl (r + (ids.map (itemAt t)).findIdx (fun e => decide (e.Member = member)))
          else Sum.inr (r + ids.length)) := by
  intro ids
  induction ids with
  | nil => intro r _; simp [rankInLeaf]
  | cons a as ih =>
    intro r h
    have ha := h a (List.mem_cons_self _ _)
    have hit : itemAt t a = t.items[a] := by simp [itemAt, List.getElem?_eq_getElem ha]
    simp only [rankInLeaf, List.getElem?_eq_getElem ha, List.map_cons, List.findIdx_cons, hit]
    by_cases hm : (t.items[a]).Member = member
    · simp [hm]
    · rw [if_neg hm, ih (r + 1) (fun b hb => h b (List.mem_cons_of_mem _ hb))]
      simp only [hm, decide_False, cond_false, List.length_cons, Nat.add_lt_add_iff_right]
      split
      · congr 2; omega
      · congr 2; omega

theorem rankWalk_linked {t : BPlusTree} (member : String) :
    ∀ (L : List Nat) (l0 f r : Nat), Linked t (l0 :: L) → (l0 :: L).length ≤ f →
      (∀ a ∈ chainIds t (l0 :: L), a < t.items.length) →
      rankWalk f t member r (some l0) =
        some (if ((chainIds t (l0 :: L)).map (itemAt t)).findIdx
              (fun e => decide (e.Member = member)) < (chainIds t (l0 :: L)).length
          then ((r + ((chainIds t (l0 :: L)).map (itemAt t)).findIdx
              (fun e => decide (e.Member = member)) : Nat) : Int)
          else -1) := by
  intro L
  induction L with
  | nil =>
    intro l0 f r hl hf hval
    obtain ⟨ld, h1, _, h3⟩ := hl
    obtain ⟨f', rfl⟩ : ∃ f', f = f' + 1 := ⟨f - 1, by simp at hf; omega⟩
    rw [chainIds_cons h1] at hval ⊢
    simp only [chainIds, List.append_nil] at hval ⊢
    have hr := rankInLeaf_eq t member ld.Items r hval
    by_cases hhit : (ld.Items.map (itemAt t)).findIdx (fun e => decide (e.Member = member))
        < ld.Items.length
    · rw [if_pos hhit] at hr
      simp only [rankWalk, h1, hr]
      rw [if_pos hhit]
    · rw [if_neg hhit] at hr
      simp only [rankWalk, h1, hr, h3]
      rw [if_neg hhit]
  | cons m rest ih =>
    intro l0 f r hl hf hval
    obtain ⟨⟨ld, h1, _, h3⟩, hrest⟩ := hl
    obtain ⟨f', rfl⟩ : ∃ f', f = f' + 1 := ⟨f - 1, by simp at hf; omega⟩
    rw [chainIds_cons h1] at hval ⊢
    have hv1 : ∀ a ∈ ld.Items, a < t.items.length :=
      fun a ha => hval a (List.mem_append_left _ ha)
    have hv2 : ∀ a ∈ chainIds t (m :: rest), a < t.items.length :=
      fun a ha => hval a (List.mem_append_right _ ha)
    have hr := rankInLeaf_eq t member ld.Items r hv1
    simp only [List.map_append, List.findIdx_append, List.length_map, List.length_append]
    by_cases hhit : (ld.Items.map (itemAt t)).findIdx (fun e => decide (e.Member = member))
        < ld.Items.length
    · rw [if_pos hhit] at hr
      simp only [rankWalk, h1, hr]
      rw [if_pos hhit, if_pos (by omega)]
    · rw [if_neg hhit] at hr
      simp only [rankWalk, h1, hr, h3]
      rw [if_neg hhit, ih m f' (r + ld.Items.length) hrest (by simp at hf ⊢; omega) hv2]
      by_cases h2 : ((chainIds t (m :: rest)).map (itemAt t)).findIdx
          (fun e => decide (e.Member = member)) < (chainIds t (m :: rest)).length
      · rw [if_pos h2, if_pos (by omega)]
        congr 2
        omega
      · rw [if_neg h2, if_neg (by omega)]

/-- With the shape and chain invariants, `GetRank` returns the position of the first
entry of the traversal with the given member, or -1 when there is none. -/
theorem GetRank_eq {t : BPlusTree} {ht : Nat → Nat} {ov : Option Nat} {L : List Nat}
    (sh : Shape t ht ov) (ch : Chain t L) (member : String) :
    GetRank t member =
      some (if ((chainIds t L).map (itemAt t)).findIdx (fun e => decide (e.Member = member))
            < ((chainIds t L).map (itemAt t)).length
        then ((((chainIds t L).map (itemAt t)).findIdx
            (fun e => decide (e.Member = member)) : Nat) : Int)
        else -1) := by
  obtain ⟨l0, rest, hL⟩ : ∃ l0 rest, L = l0 :: rest := by
    cases hL : L with
    | nil => exact absurd hL ch.nonempty
    | cons l0 rest => exact ⟨l0, rest, rfl⟩
  have hf := ch.first
  have hlen := ch.length_le
  have hlk := ch.linked
  rw [hL] at hf hlen hlk
  have hval : ∀ a ∈ chainIds t (l0 :: rest), a < t.items.length := by
    intro a ha
    obtain ⟨l, ld, _, h2, h3⟩ := mem_chainIds _ a ha
    exact sh.item_lt l ld a h2 h3
  have hw := rankWalk_linked member rest l0 t.nodes.length 0 hlk hlen hval
  rw [hL]
  simp only [GetRank, hf, List.head?_cons, hw, List.length_map, Nat.zero_add]

end BPlusTree


namespace BPlusTree

theorem compareTo_self (e : Item) : e.CompareTo e = 0 := by
  simp [Item.CompareTo, String.lt_irrefl, Float64.lt_irr]

theorem compareTo_of_score_gt {a b : Item} (h : b.Score < a.Score) : a.CompareTo b = 1 := by
  have h1 : ¬ a.Score < b.Score := Float64.lt_asym h
  simp [Item.CompareTo, h, h1]

/-- In a strictly score-ascending sequence with pairwise distinct members, the
position of an entry is the number of distinct members with a smaller composite key. -/
theorem findIdx_eq_membersBelow (l : List Item) (e : Item) (he : e ∈ l)
    (hs : l.Pairwise (fun a b => a.Score < b.Score)) (hm : (l.map Item.Member).Nodup) :
    l.findIdx (fun x => decide (x.Member = e.Member)) = membersBelow l e ∧
      l.findIdx (fun x => decide (x.Member = e.Member)) < l.length := by
  obtain ⟨pre, post, rfl⟩ := List.append_of_mem he
  rw [List.pairwise_append] at hs
  obtain ⟨_, hs2, hs3⟩ := hs
  rw [List.pairwise_cons] at hs2
  rw [List.map_append, List.map_cons, List.nodup_append] at hm
  obtain ⟨hm1, _, hm3⟩ := hm
  have hpre : ∀ x ∈ pre, decide (x.Member = e.Member) = false := by
    intro x hx
    simp only [decide_eq_false_iff_not]
    intro heq
    exact hm3 (List.mem_map_of_mem _ hx) (heq ▸ List.mem_cons_self _ _)
  have hidx : (pre ++ e :: post).findIdx (fun x => decide (x.Member = e.Member)) = pre.length := by
    rw [List.findIdx_append, List.findIdx_eq_length_of_false hpre]
    simp [List.findIdx_cons]
  have hfil : (pre ++ e :: post).filter (fun x => decide (x.CompareTo e < 0)) = pre := by
    rw [List.filter_append]
    have h1 : pre.filter (fun x => decide (x.CompareTo e < 0)) = pre := by
      rw [List.filter_eq_self]
      intro x hx
      have := hs3 x hx e (List.mem_cons_self _ _)
      rw [compareTo_of_score_lt this]
      decide
    have h2 : (e :: post).filter (fun x => decide (x.CompareTo e < 0)) = [] := by
      rw [List.filter_eq_nil_iff]
      intro x hx
      rcases List.mem_cons.mp hx with h | h
      · rw [h, compareTo_self]; decide
      · rw [compareTo_of_score_gt (hs2.1 x h)]; decide
    rw [h1, h2, List.append_nil]
  refine ⟨?_, by rw [hidx]; simp⟩
  rw [hidx]
  unfold membersBelow
  rw [hfil, List.Nodup.dedup hm1, List.length_map]

/-- C4 (amended): for every degree >= 2 and every sequence of `Add` calls with pairwise
distinct members, pairwise distinct scores and no NaN score on `NewBPlusTree(degree)`,
for every added member `GetRank` returns the number of distinct members in the tree
whose composite key is strictly less than that of the member. -/
theorem rank_distinct (degree : Int) (hdeg : 2 ≤ degree) (ops : List (Float64 × String))
    (hmem : (ops.map Prod.snd).Nodup) (hsc : (ops.map Prod.fst).Nodup)
    (hnan : ∀ op ∈ ops, op.1 ≠ Float64.nan) :
    ∃ t l, build degree ops = some t ∧ leafChain t = some l ∧ l.Perm (ops.map toItem) ∧
      ∀ op ∈ ops, GetRank t op.2 = some (membersBelow l (toItem op) : Int) := by
  obtain ⟨t, hb, g, hitems, _⟩ := build_good degree hdeg ops hmem hnan
  obtain ⟨l, hl, hs, hp⟩ := g.traversal
  obtain ⟨ht, lo, hi, L, sh, _, ch, _⟩ := g
  have hl' := leafChain_eq sh ch
  rw [hl] at hl'
  have hleq : l = (chainIds t L).map (itemAt t) := Option.some.inj hl'
  rw [hitems] at hp
  have hscores : (l.map Item.Score).Nodup := by
    have h1 : (l.map Item.Score).Perm ((ops.map toItem).map Item.Score) := hp.map _
    have h2 : (ops.map toItem).map Item.Score = ops.map Prod.fst := by
      rw [List.map_map]; rfl
    rw [h2] at h1
    exact h1.nodup_iff.mpr hsc
  have hmembers : (l.map Item.Member).Nodup := by
    have h1 : (l.map Item.Member).Perm ((ops.map toItem).map Item.Member) := hp.map _
    have h2 : (ops.map toItem).map Item.Member = ops.map Prod.snd := by
      rw [List.map_map]; rfl
    rw [h2] at h1
    exact h1.nodup_iff.mpr hmem
  have hstrict := strict_of_sorted_nodup hs hscores
  refine ⟨t, l, hb, hl, hp, ?_⟩
  intro op hop
  have he : toItem op ∈ l := hp.mem_iff.mpr (List.mem_map_of_mem _ hop)
  obtain ⟨h1, h2⟩ := findIdx_eq_membersBelow l (toItem op) he hstrict hmembers
  rw [GetRank_eq sh ch op.2, ← hleq]
  have h2' : l.findIdx (fun x => decide (x.Member = op.2)) < l.length := h2
  rw [if_pos h2']
  have h1' : l.findIdx (fun x => decide (x.Member = op.2)) = membersBelow l (toItem op) := h1
  rw [h1']

/-- The amended rank theorem at degree 3 on six insertions. -/
theorem rank_distinct_witness :
    (2 : Int) ≤ 3 ∧
    ([(20, "b"), (10, "a"), (30, "c"), (60, "d"), (50, "e"), (40, "f")].map
      (Prod.snd : Float64 × String → String)).Nodup ∧
    ([(20, "b"), (10, "a"), (30, "c"), (60, "d"), (50, "e"), (40, "f")].map
      (Prod.fst : Float64 × String → Float64)).Nodup ∧
    (∀ op ∈ [((20 : Float64), "b"), (10, "a"), (30, "c"), (60, "d"), (50, "e"), (40, "f")],
      op.1 ≠ Float64.nan) ∧
    ∃ t l, build 3 [(20, "b"), (10, "a"), (30, "c"), (60, "d"), (50, "e"), (40, "f")] = some t ∧
      leafChain t = some l ∧
      l.Perm ([(20, "b"), (10, "a"), (30, "c"), (60, "d"), (50, "e"), (40, "f")].map toItem) ∧
      ∀ op ∈ [(20, "b"), (10, "a"), (30, "c"), (60, "d"), (50, "e"), (40, "f")],
        GetRank t op.2 = some (membersBelow l (toItem op) : Int) :=
  ⟨by decide, by decide, by decide, by decide,
    rank_distinct 3 (by decide) _ (by decide) (by decide) (by decide)⟩

end BPlusTree


namespace Dictionary

variable {V : Type}

/-- C18 (lazy expiration frame): `Get(k)` leaves the value and expiry records of
every other key unchanged, and leaves the whole dictionary unchanged when `k` has no
value record or is not expired; `HasExpired` never changes the dictionary. -/
theorem get_frame (d : Dictionary V) (k : String) (now : Nat) :
    (∀ j, j ≠ k → (d.Get k now).1.objects j = d.objects j ∧
      (d.Get k now).1.expired j = d.expired j) ∧
    (d.objects k = none ∨ d.HasExpired k now = false → (d.Get k now).1 = d) ∧
    (∀ c n, step d (Call.hasExpired c n) = d) := by
  refine ⟨?_, ?_, fun _ _ => rfl⟩
  · intro j hj
    unfold Get
    split
    · split
      · unfold Delete
        split <;> simp [mapDelete, hj]
      · exact ⟨rfl, rfl⟩
    · exact ⟨rfl, rfl⟩
  · intro h
    unfold Get
    split
    · next obj hobj =>
      rcases h with h | h
      · rw [hobj] at h; cases h
      · simp [h]
    · rfl

end Dictionary

theorem compareTo_lt_case {a b : Item}
    (h : a.Score < b.Score ∨ (a.Score = b.Score ∧ a.Member < b.Member)) :
    a.CompareTo b = -1 := by
  rcases h with h | ⟨h1, h2⟩
  · simp [Item.CompareTo, h]
  · simp [Item.CompareTo, h1, h2, Float64.lt_irr]

theorem compareTo_gt_case {a b : Item}
    (h : b.Score < a.Score ∨ (a.Score = b.Score ∧ b.Member < a.Member)) :
    a.CompareTo b = 1 := by
  rcases h with h | ⟨h1, h2⟩
  · have h' : ¬ a.Score < b.Score := Float64.lt_asym h
    simp [Item.CompareTo, h, h']
  · have h' : ¬ a.Member < b.Member := lt_asymm h2
    simp [Item.CompareTo, h1, h2, h', Float64.lt_irr]

theorem compareTo_eq_case {a b : Item} (h : a.Score = b.Score ∧ a.Member = b.Member) :
    a.CompareTo b = 0 := by
  simp [Item.CompareTo, h.1, h.2, Float64.lt_irr]

theorem compareTo_trichotomy (a b : Item) (ha : a.Score ≠ Float64.nan)
    (hb : b.Score ≠ Float64.nan) :
    (a.Score < b.Score ∨ (a.Score = b.Score ∧ a.Member < b.Member)) ∨
    (a.Score = b.Score ∧ a.Member = b.Member) ∨
    (b.Score < a.Score ∨ (a.Score = b.Score ∧ b.Member < a.Member)) := by
  rcases Float64.lt_tri ha hb with h | h | h
  · exact Or.inl (Or.inl h)
  · rcases lt_trichotomy a.Member b.Member with h' | h' | h'
    · exact Or.inl (Or.inr ⟨h, h'⟩)
    · exact Or.inr (Or.inl ⟨h, h'⟩)
    · exact Or.inr (Or.inr (Or.inr ⟨h, h'⟩))
  · exact Or.inr (Or.inr (Or.inl h))

theorem compareTo_le_iff (a b : Item) (ha : a.Score ≠ Float64.nan)
    (hb : b.Score ≠ Float64.nan) :
    a.CompareTo b ≤ 0 ↔ a.Score < b.Score ∨ (a.Score = b.Score ∧ a.Member ≤ b.Member) := by
  rcases compareTo_trichotomy a b ha hb with h | h | h
  · rw [compareTo_lt_case h]
    refine iff_of_true (by decide) ?_
    rcases h with h | ⟨h1, h2⟩
    · exact Or.inl h
    · exact Or.inr ⟨h1, le_of_lt h2⟩
  · rw [compareTo_eq_case h]
    exact iff_of_true (le_refl _) (Or.inr ⟨h.1, le_of_eq h.2⟩)
  · rw [compareTo_gt_case h]
    refine iff_of_false (by decide) ?_
    rintro (h' | ⟨h1, h2⟩)
    · rcases h with h | ⟨h, _⟩
      · exact Float64.lt_asym h h'
      · rw [h] at h'; exact Float64.lt_irr _ h'
    · rcases h with h | ⟨_, h⟩
      · rw [h1] at h; exact Float64.lt_irr _ h
      · exact not_lt.mpr h2 h

/-- C14 (`CompareTo` is the composite order): for scores taken from the linearly
ordered part of `float64`, that is scores that are not NaN, `a.CompareTo(b)` is -1
when `a` has the smaller score, or the same score and the smaller member; 1 in the
mirrored cases; 0 exactly when score and member are both equal; it is antisymmetric
in its arguments, and `CompareTo <= 0` is transitive. -/
theorem compareTo_spec (a b : Item) (ha : a.Score ≠ Float64.nan) (hb : b.Score ≠ Float64.nan) :
    (a.Score < b.Score ∨ (a.Score = b.Score ∧ a.Member < b.Member) → a.CompareTo b = -1) ∧
    (b.Score < a.Score ∨ (a.Score = b.Score ∧ b.Member < a.Member) → a.CompareTo b = 1) ∧
    (a.CompareTo b = 0 ↔ a.Score = b.Score ∧ a.Member = b.Member) ∧
    a.CompareTo b = -b.CompareTo a ∧
    (∀ c : Item, c.Score ≠ Float64.nan →
      a.CompareTo b ≤ 0 → b.CompareTo c ≤ 0 → a.CompareTo c ≤ 0) := by
  refine ⟨compareTo_lt_case, compareTo_gt_case, ?_, ?_, ?_⟩
  · constructor
    · intro h0
      rcases compareTo_trichotomy a b ha hb with h | h | h
      · rw [compareTo_lt_case h] at h0; cases h0
      · exact h
      · rw [compareTo_gt_case h] at h0; cases h0
    · exact compareTo_eq_case
  · rcases compareTo_trichotomy a b ha hb with h | h | h
    · rw [compareTo_lt_case h]
      have h' : a.Score < b.Score ∨ (b.Score = a.Score ∧ a.Member < b.Member) :=
        h.imp id (fun x => ⟨x.1.symm, x.2⟩)
      rw [compareTo_gt_case h']
    · rw [compareTo_eq_case h, compareTo_eq_case ⟨h.1.symm, h.2.symm⟩]
      rfl
    · rw [compareTo_gt_case h]
      have h' : b.Score < a.Score ∨ (b.Score = a.Score ∧ b.Member < a.Member) :=
        h.imp id (fun x => ⟨x.1.symm, x.2⟩)
      rw [compareTo_lt_case h']
      rfl
  · intro c hc hab hbc
    rw [compareTo_le_iff a b ha hb] at hab
    rw [compareTo_le_iff b c hb hc] at hbc
    rw [compareTo_le_iff a c ha hc]
    rcases hab with h1 | ⟨h1, h2⟩
    · rcases hbc with h3 | ⟨h3, _⟩
      · exact Or.inl (Float64.lt_chain h1 h3)
      · exact Or.inl (h3 ▸ h1)
    · rcases hbc with h3 | ⟨h3, h4⟩
      · exact Or.inl (h1 ▸ h3)
      · exact Or.inr ⟨h1.trans h3, le_trans h2 h4⟩

/-- The theorem on two entries with equal scores. -/
theorem compareTo_spec_witness :
    (Item.mk 1 "a").Score ≠ Float64.nan ∧ (Item.mk 1 "b").Score ≠ Float64.nan ∧
    ((Item.mk 1 "a").Score < (Item.mk 1 "b").Score ∨
        ((Item.mk 1 "a").Score = (Item.mk 1 "b").Score ∧
          (Item.mk 1 "a").Member < (Item.mk 1 "b").Member) →
      (Item.mk 1 "a").CompareTo (Item.mk 1 "b") = -1) :=
  ⟨by decide, by decide, (compareTo_spec (Item.mk 1 "a") (Item.mk 1 "b") (by decide) (by decide)).1⟩


namespace BPlusTree

/-! ### The descent of `Add` -/

theorem descentIndex_eq (t : BPlusTree) (score : Float64) :
    ∀ (items : List Nat), (∀ a ∈ items, a < t.items.length) →
      descentIndex t score items =
        some ((items.map (fun a => (itemAt t a).Score)).findIdx
          (fun s => decide (¬ score ≥ s))) := by
  intro items
  induction items with
  | nil => intro _; rfl
  | cons a as ih =>
    intro h
    have ha := h a (List.mem_cons_self _ _)
    have hit : itemAt t a = t.items[a] := by simp [itemAt, List.getElem?_eq_getElem ha]
    simp only [descentIndex, List.getElem?_eq_getElem ha, List.map_cons, List.findIdx_cons,
      ih (fun b hb => h b (List.mem_cons_of_mem _ hb)), hit]
    by_cases hge : score ≥ (t.items[a]).Score
    · simp [hge]
    · simp [hge]

theorem findIdx_not_ge (score : Float64) (hs : score ≠ Float64.nan) :
    ∀ (seps : List Float64), (∀ s ∈ seps, s ≠ Float64.nan) →
      seps.findIdx (fun s => decide (¬ score ≥ s)) = seps.findIdx (fun s => decide (score < s)) := by
  intro seps
  induction seps with
  | nil => intro _; rfl
  | cons s rest ih =>
  intro h
  have ih' := ih (fun x hx => h x (List.mem_cons_of_mem _ hx))
  have hsn := h s (List.mem_cons_self _ _)
  simp only [List.findIdx_cons, ih']
  have h1 : (score ≥ s) ↔ s.toInt ≤ score.toInt := Float64.le_iff_toInt hsn hs
  have h2 : (score < s) ↔ score.toInt < s.toInt := Float64.lt_iff_toInt hs hsn
  by_cases hlt : score < s
  · have : ¬ score ≥ s := fun hge => by
      have a1 := h1.mp hge
      have a2 := h2.mp hlt
      omega
    simp [hlt, this]
  · have : score ≥ s := h1.mpr (by
      have a2 : ¬ score.toInt < s.toInt := fun x => hlt (h2.mpr x)
      omega)
    simp [hlt, this]

/-- C16, as stated, fails.  After `Add(1,"a")`, `Add(2,"b")`, `Add(3,"c")` at degree 3
the root has the one separator `(2,"b")` and the children 0 and 2.  For the insertion
score 2 the first separator with `Score >= 2` is at index 0, but the descent loop
returns index 1 and `Add` descends to the right leaf (address 2), not the left one.
For the insertion score NaN no separator has a greater score, and the loop returns
index 0. -/
theorem descent_counterexample :
    ∃ t rd, build 3 [(1, "a"), (2, "b"), (3, "c")] = some t ∧ t.nodes[t.Root]? = some rd ∧
      rd.Items.map (fun a => (itemAt t a).Score) = [2] ∧ rd.Children = [0, 2] ∧
      ([2] : List Float64).findIdx (fun s => decide (s ≥ 2)) = 0 ∧
      descentIndex t 2 rd.Items = some 1 ∧
      findLeaf t.nodes.length t 2 t.Root = some 2 ∧
      ([2] : List Float64).findIdx (fun s => decide (Float64.nan < s)) = 1 ∧
      descentIndex t Float64.nan rd.Items = some 0 :=
  ⟨_, _, rfl, rfl, rfl, rfl, rfl, rfl, rfl, rfl, rfl⟩

/-- C16 (amended): at every internal node, the descent loop of `Add` stops at the first
separator for which `score >= Score` is false, and the child chosen is the one at
that index (the last child when there is no such separator); a separator whose score
is equal to the insertion score, which then is not NaN, does not stop the loop.  When
the insertion score and the separators of the node are not NaN, that index is the
index of the first separator whose score is greater than the insertion score. -/
theorem descent_choice (t : BPlusTree) (score : Float64) (f n : Nat) (nd : Node)
    (hn : t.nodes[n]? = some nd) (hleaf : nd.IsLeaf = false)
    (hval : ∀ a ∈ nd.Items, a < t.items.length) :
    descentIndex t score nd.Items =
      some ((nd.Items.map (fun a => (itemAt t a).Score)).findIdx
        (fun s => decide (¬ score ≥ s))) ∧
    findLeaf (f + 1) t score n =
      (match nd.Children[(nd.Items.map (fun a => (itemAt t a).Score)).findIdx
          (fun s => decide (¬ score ≥ s))]? with
        | none => none
        | some c => findLeaf f t score c) ∧
    (score ≠ Float64.nan →
      ∀ k, (nd.Items.map (fun a => (itemAt t a).Score))[k]? = some score →
        (nd.Items.map (fun a => (itemAt t a).Score)).findIdx (fun s => decide (¬ score ≥ s))
          ≠ k) ∧
    (score ≠ Float64.nan → (∀ a ∈ nd.Items, (itemAt t a).Score ≠ Float64.nan) →
      (nd.Items.map (fun a => (itemAt t a).Score)).findIdx (fun s => decide (¬ score ≥ s))
        = (nd.Items.map (fun a => (itemAt t a).Score)).findIdx
            (fun s => decide (score < s))) := by
  have h := descentIndex_eq t score nd.Items hval
  refine ⟨h, ?_, ?_, ?_⟩
  · simp only [findLeaf, hn, hleaf, h]
    rfl
  · intro hs k hk heq
    have hklt : k < (nd.Items.map (fun a => (itemAt t a).Score)).length := by
      by_contra hge
      rw [List.getElem?_eq_none (Nat.le_of_not_lt hge)] at hk
      cases hk
    have hget : (nd.Items.map (fun a => (itemAt t a).Score))[k] = score := by
      rw [List.getElem?_eq_getElem hklt] at hk
      exact Option.some.inj hk
    have hlt : (nd.Items.map (fun a => (itemAt t a).Score)).findIdx
        (fun s => decide (¬ score ≥ s)) < (nd.Items.map (fun a => (itemAt t a).Score)).length := by
      rw [heq]; exact hklt
    have hp := @List.findIdx_getElem _ (fun s => decide (¬ score ≥ s))
      (nd.Items.map (fun a => (itemAt t a).Score)) hlt
    simp only [heq, hget, decide_eq_true_eq] at hp
    apply hp
    show score ≤ score
    rw [Float64.le_iff_toInt hs hs]
  · intro hs hseps
    apply findIdx_not_ge score hs
    intro s hmem
    obtain ⟨a, ha, rfl⟩ := List.mem_map.mp hmem
    exact hseps a ha

/-- The amended theorem at the root of the tree of the counterexample, for the
insertion score 2. -/
theorem descent_choice_witness :
    ∃ t nd, build 3 [(1, "a"), (2, "b"), (3, "c")] = some t ∧ t.nodes[1]? = some nd ∧
      nd.IsLeaf = false ∧ descentIndex t 2 nd.Items = some 1 ∧
      findLeaf 2 t 2 1 = findLeaf 1 t 2 2 :=
  ⟨{ items := [⟨1, "a"⟩, ⟨2, "b"⟩, ⟨3, "c"⟩],
     nodes := [⟨[0], [], true, some 1, some 2⟩, ⟨[1], [0, 2], false, none, none⟩,
       ⟨[1, 2], [], true, some 1, none⟩],
     Root := 1, Degree := 3 },
    ⟨[1], [0, 2], false, none, none⟩, rfl, rfl, rfl,
    (descent_choice
      { items := [⟨1, "a"⟩, ⟨2, "b"⟩, ⟨3, "c"⟩],
        nodes := [⟨[0], [], true, some 1, some 2⟩, ⟨[1], [0, 2], false, none, none⟩,
          ⟨[1, 2], [], true, some 1, none⟩],
        Root := 1, Degree := 3 } 2 1 1 ⟨[1], [0, 2], false, none, none⟩ rfl rfl
      (by decide)).1,
    (descent_choice
      { items := [⟨1, "a"⟩, ⟨2, "b"⟩, ⟨3, "c"⟩],
        nodes := [⟨[0], [], true, some 1, some 2⟩, ⟨[1], [0, 2], false, none, none⟩,
          ⟨[1, 2], [], true, some 1, none⟩],
        Root := 1, Degree := 3 } 2 1 1 ⟨[1], [0, 2], false, none, none⟩ rfl rfl
      (by decide)).2.1⟩

end BPlusTree


namespace BPlusTree

/-! ### Reading `Score` off the leaf chain -/

theorem scoreInLeaf_eq (t : BPlusTree) (member : String) :
    ∀ (ids : List Nat), (∀ a ∈ ids, a < t.items.length) →
      scoreInLeaf t member ids =
        some (((ids.map (itemAt t)).find? (fun e => decide (e.Member = member))).map
          Item.Score) := by
  intro ids
  induction ids with
  | nil => intro _; rfl
  | cons a as ih =>
    intro h
    have ha := h a (List.mem_cons_self _ _)
    have hit : itemAt t a = t.items[a] := by simp [itemAt, List.getElem?_eq_getElem ha]
    simp only [scoreInLeaf, List.getElem?_eq_getElem ha, List.map_cons, List.find?_cons, hit]
    by_cases hm : (t.items[a]).Member = member
    · simp [hm]
    · rw [if_neg hm, ih (fun b hb => h b (List.mem_cons_of_mem _ hb))]
      simp [hm]

theorem scoreWalk_linked {t : BPlusTree} (member : String) :
    ∀ (L : List Nat) (l0 f : Nat), Linked t (l0 :: L) → (l0 :: L).length ≤ f →
      (∀ a ∈ chainIds t (l0 :: L), a < t.items.length) →
      scoreWalk f t member (some l0) =
        some (match ((chainIds t (l0 :: L)).map (itemAt t)).find?
            (fun e => decide (e.Member = member)) with
          | some e => (e.Score, true)
          | none => (0, false)) := by
  intro L
  induction L with
  | nil =>
    intro l0 f hl hf hval
    obtain ⟨ld, h1, _, h3⟩ := hl
    obtain ⟨f', rfl⟩ : ∃ f', f = f' + 1 := ⟨f - 1, by simp at hf; omega⟩
    rw [chainIds_cons h1] at hval ⊢
    simp only [chainIds, List.append_nil] at hval ⊢
    have hr := scoreInLeaf_eq t member ld.Items hval
    cases hfind : (ld.Items.map (itemAt t)).find? (fun e => decide (e.Member = member)) with
    | none =>
      rw [hfind] at hr
      simp only [scoreWalk, h1, hr, h3, Option.map_none']
    | some e =>
      rw [hfind] at hr
      simp only [scoreWalk, h1, hr, Option.map_some']
  | cons m rest ih =>
    intro l0 f hl hf hval
    obtain ⟨⟨ld, h1, _, h3⟩, hrest⟩ := hl
    obtain ⟨f', rfl⟩ : ∃ f', f = f' + 1 := ⟨f - 1, by simp at hf; omega⟩
    rw [chainIds_cons h1] at hval ⊢
    have hv1 : ∀ a ∈ ld.Items, a < t.items.length :=
      fun a ha => hval a (List.mem_append_left _ ha)
    have hv2 : ∀ a ∈ chainIds t (m :: rest), a < t.items.length :=
      fun a ha => hval a (List.mem_append_right _ ha)
    have hr := scoreInLeaf_eq t member ld.Items hv1
    rw [List.map_append, List.find?_append]
    cases hfind : (ld.Items.map (itemAt t)).find? (fun e => decide (e.Member = member)) with
    | none =>
      rw [hfind] at hr
      simp only [scoreWalk, h1, hr, h3, Option.map_none', Option.none_or]
      exact ih m f' hrest (by simp at hf ⊢; omega) hv2
    | some e =>
      rw [hfind] at hr
      simp only [scoreWalk, h1, hr, Option.map_some']
      rfl

/-- With the shape and chain invariants, `Score` returns the score of the first entry
of the traversal with the given member, or `(0, false)` when there is none. -/
theorem Score_eq {t : BPlusTree} {ht : Nat → Nat} {ov : Option Nat} {L : List Nat}
    (sh : Shape t ht ov) (ch : Chain t L) (member : String) :
    Score t member =
      some (match ((chainIds t L).map (itemAt t)).find?
          (fun e => decide (e.Member = member)) with
        | some e => (e.Score, true)
        | none => (0, false)) := by
  obtain ⟨l0, rest, hL⟩ : ∃ l0 rest, L = l0 :: rest := by
    cases hL : L with
    | nil => exact absurd hL ch.nonempty
    | cons l0 rest => exact ⟨l0, rest, rfl⟩
  have hf := ch.first
  have hlen := ch.length_le
  have hlk := ch.linked
  rw [hL] at hf hlen hlk
  have hval : ∀ a ∈ chainIds t (l0 :: rest), a < t.items.length := by
    intro a ha
    obtain ⟨l, ld, _, h2, h3⟩ := mem_chainIds _ a ha
    exact sh.item_lt l ld a h2 h3
  have hw := scoreWalk_linked member rest l0 t.nodes.length hlk hlen hval
  rw [hL]
  simp only [Score, hf, List.head?_cons, hw]

end BPlusTree


namespace BPlusTree

/-! ### The effect of `Add` on the traversal, for every sequence of calls -/

theorem chainIds_withEntry_split {t : BPlusTree} {l : Nat} {ld : Node} (i a : Nat)
    (hl : t.nodes[l]? = some ld) :
    ∀ (L : List Nat), L.Nodup → l ∈ L →
      ∃ pre post, chainIds t L = pre ++ post ∧
        chainIds (withEntry t l ld i a) L = pre ++ a :: post := by
  have hlook := withEntry_lookup i a hl
  intro L
  induction L with
  | nil => intro _ h; cases h
  | cons m rest ih =>
    intro hnd hmem
    have hnd' := List.nodup_cons.mp hnd
    have hcons : ∀ t' : BPlusTree, chainIds t' (m :: rest) =
        (match t'.nodes[m]? with
          | some ld => ld.Items
          | none => []) ++ chainIds t' rest := fun _ => rfl
    by_cases hml : m = l
    · subst hml
      refine ⟨ld.Items.take i, ld.Items.drop i ++ chainIds t rest, ?_, ?_⟩
      · rw [hcons, hl, ← List.append_assoc, List.take_append_drop]
      · rw [hcons, hlook, if_pos rfl, (chainIds_withEntry i a hl rest hnd'.2).1 hnd'.1]
        show insertAt ld.Items i a ++ chainIds t rest = _
        simp [insertAt]
    · have hlr : l ∈ rest := by
        rcases List.mem_cons.mp hmem with e | e
        · exact absurd e.symm hml
        · exact e
      obtain ⟨pre, post, h1, h2⟩ := ih hnd'.2 hlr
      refine ⟨(match t.nodes[m]? with
          | some ld => ld.Items
          | none => []) ++ pre, post, ?_, ?_⟩
      · rw [hcons, h1, List.append_assoc]
      · rw [hcons, hlook, if_neg hml, h2, List.append_assoc]

theorem mem_chainIds_of {t : BPlusTree} {l : Nat} {ld : Node} {a : Nat}
    (hl : t.nodes[l]? = some ld) (ha : a ∈ ld.Items) :
    ∀ (L : List Nat), l ∈ L → a ∈ chainIds t L := by
  intro L
  induction L with
  | nil => intro h; cases h
  | cons m rest ih =>
    intro hmem
    have hcons : chainIds t (m :: rest) =
        (match t.nodes[m]? with
          | some ld => ld.Items
          | none => []) ++ chainIds t rest := rfl
    rw [hcons]
    rcases List.mem_cons.mp hmem with e | e
    · subst e
      rw [hl]
      exact List.mem_append_left _ ha
    · exact List.mem_append_right _ (ih e)

theorem filter_map_agree {α β : Type} (p : β → Bool) (f g : α → β) :
    ∀ (ids : List α), (∀ b ∈ ids, f b = g b ∨ (p (f b) = false ∧ p (g b) = false)) →
      (ids.map f).filter p = (ids.map g).filter p := by
  intro ids
  induction ids with
  | nil => intro _; rfl
  | cons b bs ih =>
    intro h
    have ih' := ih (fun c hc => h c (List.mem_cons_of_mem _ hc))
    rcases h b (List.mem_cons_self _ _) with e | ⟨e1, e2⟩
    · simp only [List.map_cons, List.filter_cons, e, ih']
    · simp only [List.map_cons, List.filter_cons, e1, e2, ih']
      rfl

theorem find_filter_of_imp {β : Type} (p q : β → Bool) (h : ∀ x, p x = true → q x = true) :
    ∀ (l : List β), (l.filter q).find? p = l.find? p := by
  intro l
  induction l with
  | nil => rfl
  | cons b bs ih =>
    by_cases hq : q b = true
    · simp only [List.filter_cons, hq, if_true, List.find?_cons, ih]
    · have hp : p b = false := by
        cases hpb : p b with
        | false => rfl
        | true => exact absurd (h b hpb) hq
      have hq' : q b = false := by simpa using hq
      simp [List.filter_cons, hq', List.find?_cons, hp, ih]

theorem itemAt_withItem (t : BPlusTree) (score : Float64) (member : String) (a : Nat)
    (h : a < t.items.length) : itemAt (withItem t score member) a = itemAt t a := by
  simp [itemAt, withItem, List.getElem?_append_left h]

theorem itemAt_withItem_new (t : BPlusTree) (score : Float64) (member : String) :
    itemAt (withItem t score member) t.items.length = { Score := score, Member := member } := by
  simp [itemAt, withItem]

theorem itemAt_congr {t t2 : BPlusTree} (h : t2.items = t.items) : itemAt t2 = itemAt t := by
  funext a
  simp [itemAt, h]

end BPlusTree


namespace BPlusTree

theorem sound_new (degree : Int) (h : 2 ≤ degree) : Sound (NewBPlusTree degree) := by
  obtain ⟨ht, _, _, L, sh, _, ch, _⟩ := good_new degree h
  exact ⟨ht, L, sh, ch⟩

/-- Any `Add` returns 1 and keeps `Sound`; in the traversal the entries of the other
members stay as they were, in the same order, and the member added has an entry. -/
theorem Add_sound {t : BPlusTree} (s : Sound t) (score : Float64) (member : String) :
    ∃ t', Add t score member = some (t', 1) ∧ Sound t' ∧ t'.Degree = t.Degree ∧
      ∃ l l', leafChain t = some l ∧ leafChain t' = some l' ∧
        l'.filter (fun e => decide (e.Member ≠ member))
          = l.filter (fun e => decide (e.Member ≠ member)) ∧
        ∃ e ∈ l', e.Member = member := by
  obtain ⟨ht, L, sh, ch⟩ := s
  obtain ⟨l, ld, hl, hleaf, hfl, hcase⟩ := Add_cases sh score member
  have sh0 := sh.after_withItem score member
  obtain ⟨ch0, ids0⟩ := ch.chain_withItem score member
  have hl0 : (withItem t score member).nodes[l]? = some ld := hl
  have hvalid : ∀ b ∈ chainIds t L, b < t.items.length := by
    intro b hb
    obtain ⟨n, nd, _, h2, h3⟩ := mem_chainIds _ b hb
    exact sh.item_lt n nd b h2 h3
  have hlc := leafChain_eq sh ch
  have hlL : l ∈ L := ch.all l ld hl hleaf
  rcases hcase with ⟨a, it, hfm, ham, hit, hadd⟩ | ⟨_, i, hins, hle, hov, hnov⟩
  · -- the update path
    obtain ⟨_, it', hit', hmem⟩ := findMember_found _ member ld.Items a hfm
    rw [hit] at hit'
    cases hit'
    have halt := sh.item_lt l ld a hl ham
    have hget : t.items[a]? = some it := by
      rw [← hit]
      simp [withItem, List.getElem?_append_left halt]
    have sh1 := sh0.after_withScore a it score
    obtain ⟨ch1, ids1⟩ := ch0.chain_withScore a it score
    have hlc1 := leafChain_eq sh1 ch1
    rw [ids1, ids0] at hlc1
    have hnew : itemAt (withScore (withItem t score member) a it score) a
        = { it with Score := score } := by
      have : a < (t.items ++ [({ Score := score, Member := member } : Item)]).length := by
        simp; omega
      have h2 : a < t.items.length + 1 := by omega
      simp [itemAt, withScore, withItem, List.getElem?_set, h2]
    have hold : ∀ b, b ≠ a → itemAt (withScore (withItem t score member) a it score) b
        = itemAt (withItem t score member) b := by
      intro b hb
      simp [itemAt, withScore, List.getElem?_set, Ne.symm hb]
    refine ⟨_, hadd, ⟨ht, L, sh1, ch1⟩, rfl, _, _, hlc, hlc1, ?_, ?_⟩
    · apply filter_map_agree
      intro b hb
      by_cases hba : b = a
      · right
        subst hba
        rw [hnew]
        have : itemAt t b = it := by simp [itemAt, hget]
        rw [this]
        simp [hmem]
      · left
        rw [hold b hba, itemAt_withItem t score member b (hvalid b hb)]
    · refine ⟨_, List.mem_map.mpr ⟨a, mem_chainIds_of hl ham L hlL, rfl⟩, ?_⟩
      rw [hnew]
      exact hmem
  · -- the insert path
    obtain ⟨pre, post, hpre, hpost⟩ :=
      chainIds_withEntry_split i t.items.length hl0 L ch.nodup hlL
    rw [ids0] at hpre
    have sh1 : Shape (withEntry (withItem t score member) l ld i t.items.length) ht (some l) :=
      sh0.after_withEntry hl0 hleaf hle (by simp [BPlusTree.withItem])
    obtain ⟨ch1, _⟩ := ch0.chain_withEntry i t.items.length hl0 hleaf
    have hl1 : (withEntry (withItem t score member) l ld i t.items.length).nodes[l]?
        = some { ld with Items := insertAt ld.Items i t.items.length } := by
      rw [withEntry_lookup i _ hl0, if_pos rfl]
    have fin : ∀ (tf : BPlusTree) (htf : Nat → Nat) (Lf : List Nat), Shape tf htf none →
        Chain tf Lf →
        chainIds tf Lf = chainIds (withEntry (withItem t score member) l ld i t.items.length) L →
        tf.items = (withItem t score member).items →
        ∃ l l', leafChain t = some l ∧ leafChain tf = some l' ∧
          l'.filter (fun e => decide (e.Member ≠ member))
            = l.filter (fun e => decide (e.Member ≠ member)) ∧
          ∃ e ∈ l', e.Member = member := by
      intro tf htf Lf shf chf hids hitems
      have hlcf := leafChain_eq shf chf
      rw [hids, hpost, itemAt_congr hitems] at hlcf
      have hp : ∀ b ∈ pre, itemAt (withItem t score member) b = itemAt t b := fun b hb =>
        itemAt_withItem t score member b (hvalid b (by rw [hpre]; exact List.mem_append_left _ hb))
      have hq : ∀ b ∈ post, itemAt (withItem t score member) b = itemAt t b := fun b hb =>
        itemAt_withItem t score member b (hvalid b (by rw [hpre]; exact List.mem_append_right _ hb))
      refine ⟨_, _, hlc, hlcf, ?_, ?_⟩
      · rw [hpre, List.map_append, List.map_append, List.map_cons,
          List.map_congr_left hp, List.map_congr_left hq, itemAt_withItem_new,
          List.filter_append, List.filter_append, List.filter_cons]
        simp
      · exact ⟨_, List.mem_map.mpr ⟨t.items.length, by simp, rfl⟩, by
          rw [itemAt_withItem_new]⟩
    by_cases h : ((insertAt ld.Items i t.items.length).length : Int) > t.Degree - 1
    · have hfull : ((insertAt ld.Items i t.items.length).length : Int) = t.Degree := by
        rcases sh1.size l _ hl1 with e | ⟨_, e⟩
        · exact absurd h (by
            have e' : ((insertAt ld.Items i t.items.length).length : Int) ≤ t.Degree - 1 := e
            omega)
        · exact e
      obtain ⟨t2, ht2, hsp, ⟨⟨sh2, L2, ch2, ids2⟩, hd2, hi2⟩⟩ :=
        splitNode_closed
          ((chain_splitClosed
            (chainIds (withEntry (withItem t score member) l ld i t.items.length) L)).frame
              t.Degree (withEntry (withItem t score member) l ld i t.items.length).items)
          (t.nodes.length + 1)
          (withEntry (withItem t score member) l ld i t.items.length) ht l _
          ⟨⟨sh1, L, ch1, rfl⟩, rfl, rfl⟩ hl1 hfull
          (by
            have := sh.ht_fuel
            show ht t.Root - ht l < t.nodes.length + 1
            omega)
      exact ⟨t2, hov h t2 hsp, ⟨ht2, L2, sh2, ch2⟩, hd2, fin t2 ht2 L2 sh2 ch2 ids2 hi2⟩
    · have shf := sh1.clear hl1 (by
        show ((insertAt ld.Items i t.items.length).length : Int) ≤ t.Degree - 1
        omega)
      exact ⟨_, hnov h, ⟨ht, L, shf, ch1⟩, rfl, fin _ ht L shf ch1 rfl rfl⟩

end BPlusTree


namespace BPlusTree

theorem mem_filter_member {l l' : List Item} {member : String}
    (h : l'.filter (fun e => decide (e.Member ≠ member))
      = l.filter (fun e => decide (e.Member ≠ member)))
    (m : String) (hm : m ≠ member) :
    (∃ e ∈ l', e.Member = m) ↔ (∃ e ∈ l, e.Member = m) := by
  have key : ∀ (k : List Item), (∃ e ∈ k, e.Member = m) ↔
      (∃ e ∈ k.filter (fun e => decide (e.Member ≠ member)), e.Member = m) := by
    intro k
    constructor
    · rintro ⟨e, he, hem⟩
      exact ⟨e, List.mem_filter.mpr ⟨he, by simp [hem, hm]⟩, hem⟩
    · rintro ⟨e, he, hem⟩
      exact ⟨e, (List.mem_filter.mp he).1, hem⟩
  rw [key l', key l, h]

/-- Any sequence of `Add` calls returns and keeps `Sound`; the members with an entry in
the traversal afterwards are those with an entry before and those added. -/
theorem addAll_sound (ops : List (Float64 × String)) :
    ∀ (t : BPlusTree), Sound t →
      ∃ t', addAll t ops = some t' ∧ Sound t' ∧ t'.Degree = t.Degree ∧
        ∃ l l', leafChain t = some l ∧ leafChain t' = some l' ∧
          ∀ m, (∃ e ∈ l', e.Member = m) ↔ ((∃ e ∈ l, e.Member = m) ∨ m ∈ ops.map Prod.snd) := by
  induction ops with
  | nil =>
    intro t s
    obtain ⟨ht, L, sh, ch⟩ := s
    exact ⟨t, rfl, ⟨ht, L, sh, ch⟩, rfl, _, _, leafChain_eq sh ch, leafChain_eq sh ch,
      fun m => by simp⟩
  | cons op ops ih =>
    intro t s
    obtain ⟨score, member⟩ := op
    obtain ⟨t1, h1, s1, hd1, l, l1, hl, hl1, hfil, e0, he0, hem0⟩ := Add_sound s score member
    obtain ⟨t2, h2, s2, hd2, l1', l2, hl1', hl2, hmem⟩ := ih t1 s1
    rw [hl1] at hl1'
    cases hl1'
    refine ⟨t2, by simp only [addAll, h1, h2], s2, by rw [hd2, hd1], l, l2, hl, hl2, ?_⟩
    intro m
    rw [hmem m]
    by_cases hm : m = member
    · subst hm
      constructor
      · intro _
        exact Or.inr (by simp)
      · intro _
        exact Or.inl ⟨e0, he0, hem0⟩
    · rw [mem_filter_member hfil m hm]
      simp [hm]

theorem build_sound (degree : Int) (h : 2 ≤ degree) (ops : List (Float64 × String)) :
    ∃ t l, build degree ops = some t ∧ Sound t ∧ t.Degree = degree ∧ leafChain t = some l ∧
      ∀ m, (∃ e ∈ l, e.Member = m) ↔ m ∈ ops.map Prod.snd := by
  obtain ⟨t, hb, s, hd, l0, l, hl0, hl, hmem⟩ := addAll_sound ops _ (sound_new degree h)
  have h0 : leafChain (NewBPlusTree degree) = some [] := rfl
  rw [h0] at hl0
  cases hl0
  exact ⟨t, l, hb, s, hd, hl, fun m => by rw [hmem m]; simp⟩

/-- On a `Sound` tree both queries return, and what they return is read off the
traversal: the first entry with the member, and its index. -/
theorem Sound.queries {t : BPlusTree} (s : Sound t) :
    ∃ l, leafChain t = some l ∧
      (∀ m, Score t m =
        some (match l.find? (fun e => decide (e.Member = m)) with
          | some e => (e.Score, true)
          | none => (0, false))) ∧
      (∀ m, GetRank t m =
        some (if l.findIdx (fun e => decide (e.Member = m)) < l.length
          then (l.findIdx (fun e => decide (e.Member = m)) : Int) else -1)) := by
  obtain ⟨ht, L, sh, ch⟩ := s
  exact ⟨_, leafChain_eq sh ch, fun m => Score_eq sh ch m, fun m => GetRank_eq sh ch m⟩

theorem find_some_of_mem {l : List Item} {m : String} (h : ∃ e ∈ l, e.Member = m) :
    ∃ e, l.find? (fun e => decide (e.Member = m)) = some e ∧ e ∈ l ∧ e.Member = m := by
  cases hf : l.find? (fun e => decide (e.Member = m)) with
  | none =>
    obtain ⟨e, he, hem⟩ := h
    have := List.find?_eq_none.mp hf e he
    simp [hem] at this
  | some e =>
    have h1 := List.find?_some hf
    exact ⟨e, rfl, List.mem_of_find?_eq_some hf, by simpa using h1⟩

theorem find_none_of_not_mem {l : List Item} {m : String} (h : ¬ ∃ e ∈ l, e.Member = m) :
    l.find? (fun e => decide (e.Member = m)) = none := by
  rw [List.find?_eq_none]
  intro e he
  simp only [decide_eq_true_eq]
  exact fun hem => h ⟨e, he, hem⟩

/-- C11 (`Score` membership): for every degree >= 2, every sequence of `Add` calls on
`NewBPlusTree(degree)` and every string `m`, the calls return and `Score(m)` returns;
when `m` was the member of one of the calls it returns `found = true` with the score
of the first entry with member `m` of the leaf-chain traversal, and otherwise it
returns `(0, false)`. -/
theorem score_membership (degree : Int) (hdeg : 2 ≤ degree) (ops : List (Float64 × String))
    (m : String) :
    ∃ t l, build degree ops = some t ∧ leafChain t = some l ∧
      (m ∈ ops.map Prod.snd →
        ∃ e, l.find? (fun e => decide (e.Member = m)) = some e ∧
          Score t m = some (e.Score, true)) ∧
      (m ∉ ops.map Prod.snd → Score t m = some (0, false)) := by
  obtain ⟨t, l, hb, s, _, hl, hmem⟩ := build_sound degree hdeg ops
  obtain ⟨l', hl', hsc, _⟩ := s.queries
  rw [hl] at hl'
  cases hl'
  refine ⟨t, l, hb, hl, ?_, ?_⟩
  · intro hm
    obtain ⟨e, he, _, _⟩ := find_some_of_mem ((hmem m).mpr hm)
    exact ⟨e, he, by rw [hsc m, he]⟩
  · intro hm
    have := find_none_of_not_mem (fun h => hm ((hmem m).mp h))
    rw [hsc m, this]

/-- The membership theorem on a sequence with a repeated member and a tie. -/
theorem score_membership_witness :
    (2 : Int) ≤ 3 ∧
    ∃ t l, build 3 [(2, "b"), (1, "a"), (2, "c"), (5, "a"), (2, "d")] = some t ∧
      leafChain t = some l ∧
      ("a" ∈ [(2, "b"), (1, "a"), (2, "c"), (5, "a"), (2, "d")].map
          (Prod.snd : Float64 × String → String) →
        ∃ e, l.find? (fun e => decide (e.Member = "a")) = some e ∧
          Score t "a" = some (e.Score, true)) ∧
      ("a" ∉ [(2, "b"), (1, "a"), (2, "c"), (5, "a"), (2, "d")].map
          (Prod.snd : Float64 × String → String) →
        Score t "a" = some (0, false)) :=
  ⟨by decide, score_membership 3 (by decide) _ "a"⟩

/-- C13 (`GetRank` result): for every degree >= 2, every sequence of `Add` calls on
`NewBPlusTree(degree)` and every string `m`, `GetRank(m)` returns; when some entry of
the leaf-chain traversal has member `m` it returns the index of the first such
entry, that is the number of entries before it, and otherwise it returns -1; it
returns -1 exactly when `Score(m)` reports not found. -/
theorem rank_result (degree : Int) (hdeg : 2 ≤ degree) (ops : List (Float64 × String))
    (m : String) :
    ∃ t l, build degree ops = some t ∧ leafChain t = some l ∧
      ((∃ e ∈ l, e.Member = m) →
        l.findIdx (fun e => decide (e.Member = m)) < l.length ∧
        GetRank t m = some (l.findIdx (fun e => decide (e.Member = m)) : Int)) ∧
      ((¬ ∃ e ∈ l, e.Member = m) → GetRank t m = some (-1)) ∧
      (GetRank t m = some (-1) ↔ ∃ s, Score t m = some (s, false)) := by
  obtain ⟨t, l, hb, s, _, hl, _⟩ := build_sound degree hdeg ops
  obtain ⟨l', hl', hsc, hrk⟩ := s.queries
  rw [hl] at hl'
  cases hl'
  have hpos : (∃ e ∈ l, e.Member = m) →
      l.findIdx (fun e => decide (e.Member = m)) < l.length := by
    rintro ⟨e, he, hem⟩
    exact List.findIdx_lt_length_of_exists ⟨e, he, by simp [hem]⟩
  have hneg : (¬ ∃ e ∈ l, e.Member = m) →
      ¬ l.findIdx (fun e => decide (e.Member = m)) < l.length := by
    intro h hlt
    have := List.findIdx_getElem (w := hlt)
    exact h ⟨_, List.getElem_mem hlt, by simpa using this⟩
  refine ⟨t, l, hb, hl, ?_, ?_, ?_⟩
  · intro h
    exact ⟨hpos h, by rw [hrk m, if_pos (hpos h)]⟩
  · intro h
    rw [hrk m, if_neg (hneg h)]
  · by_cases h : ∃ e ∈ l, e.Member = m
    · obtain ⟨e, he, _, _⟩ := find_some_of_mem h
      rw [hrk m, if_pos (hpos h), hsc m, he]
      constructor
      · intro h1
        have h2 := Option.some.inj h1
        omega
      · rintro ⟨s, h1⟩
        have h2 := Option.some.inj h1
        simp at h2
    · rw [hrk m, if_neg (hneg h), hsc m, find_none_of_not_mem h]
      exact ⟨fun _ => ⟨0, rfl⟩, fun _ => rfl⟩

/-- The rank theorem on a sequence with a repeated member and a tie. -/
theorem rank_result_witness :
    (2 : Int) ≤ 3 ∧
    ∃ t l, build 3 [(2, "b"), (1, "a"), (2, "c"), (5, "a"), (2, "d")] = some t ∧
      leafChain t = some l ∧
      ((∃ e ∈ l, e.Member = "c") →
        l.findIdx (fun e => decide (e.Member = "c")) < l.length ∧
        GetRank t "c" = some (l.findIdx (fun e => decide (e.Member = "c")) : Int)) ∧
      ((¬ ∃ e ∈ l, e.Member = "c") → GetRank t "c" = some (-1)) ∧
      (GetRank t "c" = some (-1) ↔ ∃ s, Score t "c" = some (s, false)) :=
  ⟨by decide, rank_result 3 (by decide) _ "c"⟩

end BPlusTree


namespace BPlusTree

/-- C20 (`Add` does not disturb other members): for every degree >= 2, every tree
reached from `NewBPlusTree(degree)` by `Add` calls and all members `m' ≠ m`, the call
`Add(s, m)` returns 1, `Score(m')` returns the same result before and after it, and
the entries of the members other than `m` are the same, in the same order, in the
leaf-chain traversal before and after. -/
theorem add_frame (degree : Int) (hdeg : 2 ≤ degree) (ops : List (Float64 × String))
    (s : Float64) (m m' : String) (hne : m' ≠ m) :
    ∃ t t' l l' r, build degree ops = some t ∧ Add t s m = some (t', 1) ∧
      Score t m' = some r ∧ Score t' m' = some r ∧
      leafChain t = some l ∧ leafChain t' = some l' ∧
      l'.filter (fun e => decide (e.Member ≠ m)) = l.filter (fun e => decide (e.Member ≠ m)) := by
  obtain ⟨t, _, hb, st, _, _, _⟩ := build_sound degree hdeg ops
  obtain ⟨t', hadd, st', _, l, l', hl, hl', hfil, _⟩ := Add_sound st s m
  obtain ⟨k, hk, hsc, _⟩ := st.queries
  obtain ⟨k', hk', hsc', _⟩ := st'.queries
  rw [hl] at hk
  rw [hl'] at hk'
  cases hk
  cases hk'
  have himp : ∀ x : Item, decide (x.Member = m') = true → decide (x.Member ≠ m) = true := by
    intro x hx
    simp only [decide_eq_true_eq] at hx ⊢
    rw [hx]
    exact hne
  have h1 := find_filter_of_imp (fun e : Item => decide (e.Member = m'))
    (fun e => decide (e.Member ≠ m)) himp l
  have h2 := find_filter_of_imp (fun e : Item => decide (e.Member = m'))
    (fun e => decide (e.Member ≠ m)) himp l'
  refine ⟨t, t', l, l', _, hb, hadd, hsc m', ?_, hl, hl', hfil⟩
  rw [hsc' m', ← h2, hfil, h1]

/-- The frame theorem at degree 3 for an `Add` of the member `a`, added before, and the
score of `c`. -/
theorem add_frame_witness :
    (2 : Int) ≤ 3 ∧ "c" ≠ "a" ∧
    ∃ t t' l l' r, build 3 [(2, "b"), (1, "a"), (2, "c"), (5, "d")] = some t ∧
      Add t 7 "a" = some (t', 1) ∧
      Score t "c" = some r ∧ Score t' "c" = some r ∧
      leafChain t = some l ∧ leafChain t' = some l' ∧
      l'.filter (fun e => decide (e.Member ≠ "a"))
        = l.filter (fun e => decide (e.Member ≠ "a")) :=
  ⟨by decide, by decide, add_frame 3 (by decide) _ 7 "a" "c" (by decide)⟩

/-- C12 (`Add` always succeeds): for every degree >= 2 and every tree reached from
`NewBPlusTree(degree)` by `Add` calls, every call `Add(score, member)` returns, with
result 1; and when the entry goes into a leaf at depth `k` that overflows, the split
cascade started at that leaf returns within `k + 1` nested `splitNode` calls, one for
each level from the leaf up to the old root. -/
theorem add_succeeds (degree : Int) (hdeg : 2 ≤ degree) (ops : List (Float64 × String)) :
    ∃ t, build degree ops = some t ∧
      (∀ (score : Float64) (member : String), ∃ t', Add t score member = some (t', 1)) ∧
      (∀ (score : Float64) (member : String) (l : Nat) (ld : Node) (i k : Nat),
        t.nodes[l]? = some ld → ld.IsLeaf = true → i ≤ ld.Items.length →
        ((insertAt ld.Items i t.items.length).length : Int) > t.Degree - 1 → Reach t l k →
        ∀ f, k < f →
          ∃ t2, splitNode f (withEntry (withItem t score member) l ld i t.items.length) l
            = some t2) := by
  obtain ⟨t, ht, hb, sh, _⟩ := build_shape degree hdeg ops
  refine ⟨t, hb, ?_, ?_⟩
  · intro score member
    obtain ⟨t', _, h, _⟩ := Add_shape sh score member
    exact ⟨t', h⟩
  · intro score member l ld i k hl hleaf hle hover hr f hf
    have sh0 := sh.after_withItem score member
    have hl0 : (withItem t score member).nodes[l]? = some ld := hl
    have sh1 : Shape (withEntry (withItem t score member) l ld i t.items.length) ht (some l) :=
      sh0.after_withEntry hl0 hleaf hle (by simp [BPlusTree.withItem])
    have hl1 : (withEntry (withItem t score member) l ld i t.items.length).nodes[l]?
        = some { ld with Items := insertAt ld.Items i t.items.length } := by
      rw [withEntry_lookup i _ hl0, if_pos rfl]
    have hfull : ((insertAt ld.Items i t.items.length).length : Int) = t.Degree := by
      rcases sh1.size l _ hl1 with e | ⟨_, e⟩
      · exact absurd hover (by
          have e' : ((insertAt ld.Items i t.items.length).length : Int) ≤ t.Degree - 1 := e
          omega)
      · exact e
    obtain ⟨_, hk, _⟩ := sh.reach hr
    obtain ⟨t2, _, hsp, _⟩ :=
      splitNode_closed shape_splitClosed f
        (withEntry (withItem t score member) l ld i t.items.length) ht l _ sh1 hl1 hfull
        (by
          show ht t.Root - ht l < f
          omega)
    exact ⟨t2, hsp⟩

/-- The theorem on the full root leaf of a degree-3 tree. -/
theorem add_succeeds_witness :
    (2 : Int) ≤ 3 ∧
    ∃ t, build 3 [(1, "a"), (2, "b")] = some t ∧
      (∀ (score : Float64) (member : String), ∃ t', Add t score member = some (t', 1)) ∧
      (∀ (score : Float64) (member : String) (l : Nat) (ld : Node) (i k : Nat),
        t.nodes[l]? = some ld → ld.IsLeaf = true → i ≤ ld.Items.length →
        ((insertAt ld.Items i t.items.length).length : Int) > t.Degree - 1 → Reach t l k →
        ∀ f, k < f →
          ∃ t2, splitNode f (withEntry (withItem t score member) l ld i t.items.length) l
            = some t2) :=
  ⟨by decide, add_succeeds 3 (by decide) _⟩

/-- C17 (no out-of-range access): in the model every access outside a slice and every
nil dereference makes the function return `none`.  For every degree >= 2 and every
tree reached from `NewBPlusTree(degree)` by `Add` calls, `Add`, `Score` and `GetRank`
return for all arguments; at every internal node `Children[0]` exists and the descent
index of `Add` is an index of `Children`; every node with a parent is found among
the children of that parent; and when an insertion overflows a leaf, the items of
the leaf at the median index and the first item of the new leaf exist. -/
theorem no_out_of_range (degree : Int) (hdeg : 2 ≤ degree) (ops : List (Float64 × String)) :
    ∃ t, build degree ops = some t ∧
      (∀ (score : Float64) (member : String), ∃ r, Add t score member = some r) ∧
      (∀ (member : String), ∃ r, Score t member = some r) ∧
      (∀ (member : String), ∃ r, GetRank t member = some r) ∧
      (∀ (n : Nat) (nd : Node), t.nodes[n]? = some nd → nd.IsLeaf = false →
        (∃ c, nd.Children[0]? = some c) ∧
        ∀ (score : Float64), ∃ i c, descentIndex t score nd.Items = some i ∧
          i < nd.Children.length ∧ nd.Children[i]? = some c) ∧
      (∀ (n : Nat) (nd : Node) (p : Nat), t.nodes[n]? = some nd → nd.Parent = some p →
        ∃ pd, t.nodes[p]? = some pd ∧ childIndexOf n pd.Children < pd.Children.length) ∧
      (∀ (l : Nat) (ld : Node) (i : Nat), t.nodes[l]? = some ld → ld.IsLeaf = true →
        i ≤ ld.Items.length →
        ((insertAt ld.Items i t.items.length).length : Int) > t.Degree - 1 →
        ∃ a b,
          (insertAt ld.Items i t.items.length)[(insertAt ld.Items i t.items.length).length / 2]?
            = some a ∧
          ((insertAt ld.Items i t.items.length).drop
            ((insertAt ld.Items i t.items.length).length / 2))[0]? = some b) := by
  obtain ⟨t, _, hb, st, _, _, _⟩ := build_sound degree hdeg ops
  obtain ⟨_, _, hsc, hrk⟩ := st.queries
  obtain ⟨ht, L, sh, ch⟩ := st
  refine ⟨t, hb, ?_, fun m => ⟨_, hsc m⟩, fun m => ⟨_, hrk m⟩, ?_, ?_, ?_⟩
  · intro score member
    obtain ⟨t', _, h, _⟩ := Add_shape sh score member
    exact ⟨_, h⟩
  · intro n nd hn hleaf
    have har := sh.arity n nd hn hleaf
    refine ⟨⟨nd.Children[0], List.getElem?_eq_getElem (by omega)⟩, ?_⟩
    intro score
    obtain ⟨i, hi, hle⟩ := descentIndex_some t score nd.Items (fun a ha => sh.item_lt n nd a hn ha)
    have hlt : i < nd.Children.length := by omega
    exact ⟨i, nd.Children[i], hi, hlt, List.getElem?_eq_getElem hlt⟩
  · intro n nd p hn hp
    obtain ⟨pd, hpd, _⟩ := sh.parent n nd p hn hp
    exact ⟨pd, hpd, (sh.parent_facts hn hp hpd).2.2.2.2.1⟩
  · intro l ld i hl hleaf hle hover
    have hlen := insertAt_length ld.Items i t.items.length hle
    have hdeg' := sh.deg
    have h2 : 2 ≤ (insertAt ld.Items i t.items.length).length := by
      have : (2 : Int) ≤ ((insertAt ld.Items i t.items.length).length : Int) := by omega
      exact_mod_cast this
    have h3 : (insertAt ld.Items i t.items.length).length / 2
        < (insertAt ld.Items i t.items.length).length := by omega
    refine ⟨(insertAt ld.Items i t.items.length).get ⟨_, h3⟩,
      (insertAt ld.Items i t.items.length).get ⟨_, h3⟩, List.getElem?_eq_getElem h3, ?_⟩
    rw [List.getElem?_drop, Nat.add_zero]
    exact List.getElem?_eq_getElem h3

/-- The theorem on a degree-3 tree of two levels. -/
theorem no_out_of_range_witness :
    (2 : Int) ≤ 3 ∧
    ∃ t, build 3 [(1, "a"), (2, "b"), (3, "c")] = some t ∧
      (∀ (score : Float64) (member : String), ∃ r, Add t score member = some r) ∧
      (∀ (member : String), ∃ r, Score t member = some r) ∧
      (∀ (member : String), ∃ r, GetRank t member = some r) ∧
      (∀ (n : Nat) (nd : Node), t.nodes[n]? = some nd → nd.IsLeaf = false →
        (∃ c, nd.Children[0]? = some c) ∧
        ∀ (score : Float64), ∃ i c, descentIndex t score nd.Items = some i ∧
          i < nd.Children.length ∧ nd.Children[i]? = some c) ∧
      (∀ (n : Nat) (nd : Node) (p : Nat), t.nodes[n]? = some nd → nd.Parent = some p →
        ∃ pd, t.nodes[p]? = some pd ∧ childIndexOf n pd.Children < pd.Children.length) ∧
      (∀ (l : Nat) (ld : Node) (i : Nat), t.nodes[l]? = some ld → ld.IsLeaf = true →
        i ≤ ld.Items.length →
        ((insertAt ld.Items i t.items.length).length : Int) > t.Degree - 1 →
        ∃ a b,
          (insertAt ld.Items i t.items.length)[(insertAt ld.Items i t.items.length).length / 2]?
            = some a ∧
          ((insertAt ld.Items i t.items.length).drop
            ((insertAt ld.Items i t.items.length).length / 2))[0]? = some b) :=
  ⟨by decide, no_out_of_range 3 (by decide) _⟩

end BPlusTree


namespace BPlusTree

/-- In a strictly ascending sequence with pairwise distinct members, the first entry
with the member of `e` is `e`, and its index is the number of entries with a
smaller score. -/
theorem strict_position (l : List Item) (e : Item) (he : e ∈ l)
    (hs : l.Pairwise (fun a b => a.Score < b.Score)) (hm : (l.map Item.Member).Nodup) :
    l.find? (fun x => decide (x.Member = e.Member)) = some e ∧
      l.findIdx (fun x => decide (x.Member = e.Member))
        = (l.filter (fun x => decide (x.Score < e.Score))).length ∧
      l.findIdx (fun x => decide (x.Member = e.Member)) < l.length := by
  obtain ⟨pre, post, rfl⟩ := List.append_of_mem he
  rw [List.pairwise_append] at hs
  obtain ⟨_, hs2, hs3⟩ := hs
  rw [List.pairwise_cons] at hs2
  rw [List.map_append, List.map_cons, List.nodup_append] at hm
  obtain ⟨_, _, hm3⟩ := hm
  have hpre : ∀ x ∈ pre, decide (x.Member = e.Member) = false := by
    intro x hx
    simp only [decide_eq_false_iff_not]
    intro heq
    exact hm3 (List.mem_map_of_mem _ hx) (heq ▸ List.mem_cons_self _ _)
  have hidx : (pre ++ e :: post).findIdx (fun x => decide (x.Member = e.Member)) = pre.length := by
    rw [List.findIdx_append, List.findIdx_eq_length_of_false hpre]
    simp [List.findIdx_cons]
  have hfil : (pre ++ e :: post).filter (fun x => decide (x.Score < e.Score)) = pre := by
    rw [List.filter_append]
    have h1 : pre.filter (fun x => decide (x.Score < e.Score)) = pre := by
      rw [List.filter_eq_self]
      intro x hx
      simpa using hs3 x hx e (List.mem_cons_self _ _)
    have h2 : (e :: post).filter (fun x => decide (x.Score < e.Score)) = [] := by
      rw [List.filter_eq_nil_iff]
      intro x hx
      rcases List.mem_cons.mp hx with h | h
      · rw [h]
        simp only [decide_eq_true_eq]
        exact Float64.lt_irr _
      · have := hs2.1 x h
        simp only [decide_eq_true_eq]
        exact Float64.lt_asym this
    rw [h1, h2, List.append_nil]
  refine ⟨?_, by rw [hidx, hfil], by rw [hidx]; simp⟩
  rw [List.find?_append]
  have hnone : pre.find? (fun x => decide (x.Member = e.Member)) = none := by
    rw [List.find?_eq_none]
    intro x hx
    rw [hpre x hx]
    decide
  rw [hnone]
  simp [List.find?_cons]

/-- C19, as stated, fails at a NaN score: after `Add(1, "a")`, `Add(NaN, "n")` at
degree 3, two calls with distinct members and distinct scores, the traversal is
`(NaN, "n")`, `(1, "a")`, which is not strictly ascending by score, and `GetRank("a")`
is 1 although no added entry has a score smaller than 1. -/
theorem distinct_counterexample :
    ([((1 : Float64), "a"), (Float64.nan, "n")].map Prod.snd).Nodup ∧
    ([((1 : Float64), "a"), (Float64.nan, "n")].map Prod.fst).Nodup ∧
    ∃ t, build 3 [(1, "a"), (Float64.nan, "n")] = some t ∧
      leafChain t = some [⟨Float64.nan, "n"⟩, ⟨1, "a"⟩] ∧
      ¬ ([⟨Float64.nan, "n"⟩, ⟨1, "a"⟩] : List Item).Pairwise (fun a b => a.Score < b.Score) ∧
      GetRank t "a" = some 1 ∧
      ([((1 : Float64), "a"), (Float64.nan, "n")].filter
        (fun o => decide (o.1 < (1 : Float64)))).length = 0 :=
  ⟨by decide, by decide, _, rfl, rfl, by decide, rfl, by decide⟩

/-- C19 (amended; correctness without ties, updates or NaN): for every degree >= 2 and
every sequence of `Add` calls on `NewBPlusTree(degree)` whose members are pairwise
distinct and whose scores are pairwise distinct and not NaN, the calls return, the
leaf-chain traversal is strictly ascending by score and holds exactly one entry per
call, and for each added member `Score` returns the score it was added with and
`GetRank` returns the number of added entries with a smaller score. -/
theorem distinct_correct (degree : Int) (hdeg : 2 ≤ degree) (ops : List (Float64 × String))
    (hmem : (ops.map Prod.snd).Nodup) (hsc : (ops.map Prod.fst).Nodup)
    (hnan : ∀ op ∈ ops, op.1 ≠ Float64.nan) :
    ∃ t l, build degree ops = some t ∧ leafChain t = some l ∧
      l.Pairwise (fun a b => a.Score < b.Score) ∧ l.Perm (ops.map toItem) ∧
      ∀ op ∈ ops, Score t op.2 = some (op.1, true) ∧
        GetRank t op.2 = some ((ops.filter (fun o => decide (o.1 < op.1))).length : Int) := by
  obtain ⟨t, hb, g, hitems, _⟩ := build_good degree hdeg ops hmem hnan
  obtain ⟨l, hl, hs, hp⟩ := g.traversal
  obtain ⟨ht, lo, hi, L, sh, _, ch, _⟩ := g
  have hl' := leafChain_eq sh ch
  rw [hl] at hl'
  have hleq : l = (chainIds t L).map (itemAt t) := Option.some.inj hl'
  rw [hitems] at hp
  have hscores : (l.map Item.Score).Nodup := by
    have h1 : (l.map Item.Score).Perm ((ops.map toItem).map Item.Score) := hp.map _
    have h2 : (ops.map toItem).map Item.Score = ops.map Prod.fst := by
      rw [List.map_map]; rfl
    rw [h2] at h1
    exact h1.nodup_iff.mpr hsc
  have hmembers : (l.map Item.Member).Nodup := by
    have h1 : (l.map Item.Member).Perm ((ops.map toItem).map Item.Member) := hp.map _
    have h2 : (ops.map toItem).map Item.Member = ops.map Prod.snd := by
      rw [List.map_map]; rfl
    rw [h2] at h1
    exact h1.nodup_iff.mpr hmem
  have hstrict := strict_of_sorted_nodup hs hscores
  refine ⟨t, l, hb, hl, hstrict, hp, ?_⟩
  intro op hop
  have he : toItem op ∈ l := hp.mem_iff.mpr (List.mem_map_of_mem _ hop)
  obtain ⟨h1, h2, h3⟩ := strict_position l (toItem op) he hstrict hmembers
  have h1' : l.find? (fun x => decide (x.Member = op.2)) = some (toItem op) := h1
  have h3' : l.findIdx (fun x => decide (x.Member = op.2)) < l.length := h3
  have h2' : l.findIdx (fun x => decide (x.Member = op.2))
      = (l.filter (fun x => decide (x.Score < op.1))).length := h2
  have hcount : (l.filter (fun x => decide (x.Score < op.1))).length
      = (ops.filter (fun o => decide (o.1 < op.1))).length := by
    rw [(hp.filter _).length_eq, List.filter_map, List.length_map]
    rfl
  constructor
  · rw [Score_eq sh ch op.2, ← hleq, h1']
    rfl
  · rw [GetRank_eq sh ch op.2, ← hleq, if_pos h3', h2', hcount]

/-- The theorem at degree 3 on six insertions. -/
theorem distinct_correct_witness :
    (2 : Int) ≤ 3 ∧
    ([(20, "b"), (10, "a"), (30, "c"), (60, "d"), (50, "e"), (40, "f")].map
      (Prod.snd : Float64 × String → String)).Nodup ∧
    ([(20, "b"), (10, "a"), (30, "c"), (60, "d"), (50, "e"), (40, "f")].map
      (Prod.fst : Float64 × String → Float64)).Nodup ∧
    (∀ op ∈ [((20 : Float64), "b"), (10, "a"), (30, "c"), (60, "d"), (50, "e"), (40, "f")],
      op.1 ≠ Float64.nan) ∧
    ∃ t l, build 3 [(20, "b"), (10, "a"), (30, "c"), (60, "d"), (50, "e"), (40, "f")] = some t ∧
      leafChain t = some l ∧
      l.Pairwise (fun a b => a.Score < b.Score) ∧
      l.Perm ([(20, "b"), (10, "a"), (30, "c"), (60, "d"), (50, "e"), (40, "f")].map toItem) ∧
      ∀ op ∈ [(20, "b"), (10, "a"), (30, "c"), (60, "d"), (50, "e"), (40, "f")],
        Score t op.2 = some (op.1, true) ∧
        GetRank t op.2 = some
          (([(20, "b"), (10, "a"), (30, "c"), (60, "d"), (50, "e"), (40, "f")].filter
            (fun o : Float64 × String => decide (o.1 < op.1))).length : Int) :=
  ⟨by decide, by decide, by decide, by decide,
    distinct_correct 3 (by decide) _ (by decide) (by decide) (by decide)⟩

end BPlusTree


namespace BPlusTree

/-! ### Separators and the entries below them -/

theorem ChildBounds.head_lo {sc : Nat → Int} {lo hi : Nat → Option Int} :
    ∀ (as cs : List Nat) (l h : Option Int) (c : Nat), ChildBounds sc lo hi l h as cs →
      cs[0]? = some c → lo c = l := by
  intro as cs l h c hb hc
  match as, cs, hb, hc with
  | [], [c0], hb, hc =>
    simp only [List.getElem?_cons_zero, Option.some.injEq] at hc
    subst hc
    exact hb.1
  | a :: as, c0 :: cs, hb, hc =>
    simp only [List.getElem?_cons_zero, Option.some.injEq] at hc
    subst hc
    exact hb.1

/-- Child `i` ends at separator `i`, and child `i + 1` begins at separator `i`. -/
theorem ChildBounds.at_index {sc : Nat → Int} {lo hi : Nat → Option Int} :
    ∀ (i : Nat) (as cs : List Nat) (l h : Option Int) (s : Nat),
      ChildBounds sc lo hi l h as cs → as[i]? = some s →
      (∀ c, cs[i]? = some c → hi c = some (sc s)) ∧
      (∀ c, cs[i + 1]? = some c → lo c = some (sc s)) := by
  intro i
  induction i with
  | zero =>
    intro as cs l h s hb hs
    match as, cs, hb, hs with
    | a :: as, c0 :: cs, hb, hs =>
      simp only [List.getElem?_cons_zero, Option.some.injEq] at hs
      subst hs
      constructor
      · intro c hc
        simp only [List.getElem?_cons_zero, Option.some.injEq] at hc
        subst hc
        exact hb.2.1
      · intro c hc
        simp only [List.getElem?_cons_succ] at hc
        exact ChildBounds.head_lo as cs _ h c hb.2.2 hc
  | succ i ih =>
    intro as cs l h s hb hs
    match as, cs, hb, hs with
    | a :: as, c0 :: cs, hb, hs =>
      simp only [List.getElem?_cons_succ] at hs
      obtain ⟨h1, h2⟩ := ih as cs _ h s hb.2.2 hs
      exact ⟨fun c hc => h1 c (by simpa using hc), fun c hc => h2 c (by simpa using hc)⟩

/-- The range of a child lies within the range of its parent. -/
theorem ChildBounds.nested {sc : Nat → Int} {lo hi : Nat → Option Int} :
    ∀ (as cs : List Nat) (l h : Option Int), ChildBounds sc lo hi l h as cs →
      (∀ c ∈ cs, ∀ a b, lo c = some a → hi c = some b → a ≤ b) →
      ∀ (c : Nat) (s : Int), c ∈ cs → LoLe (lo c) s → LeHi s (hi c) → LoLe l s ∧ LeHi s h := by
  intro as
  induction as with
  | nil =>
    intro cs l h hb _ c s hc h1 h2
    match cs, hb, hc with
    | [c0], hb, hc =>
      rw [List.mem_singleton] at hc
      subst hc
      exact ⟨by rw [← hb.1]; exact h1, by rw [← hb.2]; exact h2⟩
  | cons a as ih =>
    intro cs l h hb hle c s hc h1 h2
    match cs, hb, hc with
    | c0 :: cs, hb, hc =>
      have hle' : ∀ c ∈ cs, ∀ a b, lo c = some a → hi c = some b → a ≤ b :=
        fun d hd => hle d (List.mem_cons_of_mem _ hd)
      rcases List.mem_cons.mp hc with e | e
      · subst e
        refine ⟨by rw [← hb.1]; exact h1, ?_⟩
        intro b hb'
        have hs : s ≤ sc a := h2 (sc a) hb.2.1
        have := ChildBounds.range_le as cs _ h hb.2.2 hle' (sc a) b rfl hb'
        omega
      · obtain ⟨g1, g2⟩ := ih cs _ h hb.2.2 hle' c s e h1 h2
        refine ⟨?_, g2⟩
        intro b hb'
        have h3 := hle c0 (List.mem_cons_self _ _) b (sc a) (by rw [hb.1]; exact hb') hb.2.1
        have h4 := g1 (sc a) rfl
        omega

/-- The range of a node of a subtree lies within the range of the root of the subtree. -/
theorem Below.range {t : BPlusTree} {ht : Nat → Nat} {ov : Option Nat} {lo hi : Nat → Option Int}
    (sh : Shape t ht ov) (ord : Ord t lo hi) {n d : Nat} (hb : Below t n d) :
    ∀ (s : Int), LoLe (lo d) s → LeHi s (hi d) → LoLe (lo n) s ∧ LeHi s (hi n) := by
  induction hb with
  | self n => exact fun s h1 h2 => ⟨h1, h2⟩
  | @child n c d nd hn hc _ ih =>
    intro s h1 h2
    obtain ⟨g1, g2⟩ := ih s h1 h2
    have hleaf : nd.IsLeaf = false := by
      cases hlf : nd.IsLeaf with
      | false => rfl
      | true =>
        rw [sh.leaf_children n nd hn hlf] at hc
        cases hc
    refine ChildBounds.nested nd.Items nd.Children _ _ (ord.bounds n nd hn hleaf) ?_ c s hc g1 g2
    intro c' hc' a b ha hb'
    obtain ⟨cd, hcd, _⟩ := sh.child n nd c' hn hc'
    exact ord.lo_le_hi c' cd hcd a b ha hb'

end BPlusTree


namespace BPlusTree

/-! ### The strict order invariant -/

theorem sorted_take_lt {f : Nat → Int} {l : List Nat} (hl : (l.map f).Pairwise (· < ·))
    {m a s : Nat} (hs : l[m]? = some s) (ha : a ∈ l.take m) : f a < f s := by
  have hsd : s ∈ l.drop m := by
    have : (l.drop m)[0]? = some s := by rw [List.getElem?_drop]; simpa using hs
    exact List.getElem?_mem this
  rw [← List.take_append_drop m l, List.map_append, List.pairwise_append] at hl
  exact hl.2.2 (f a) (List.mem_map_of_mem f ha) (f s) (List.mem_map_of_mem f hsd)

section split

variable {t t2 : BPlusTree} {x p : Nat} {xd pd : Node} {I1 I2 : List Nat} {sep k : Nat}
  {nx1 nx2 : Option Nat} {ht : Nat → Nat} {hi : Nat → Option Int}

theorem SplitStep.strict_split (hs : SplitStep t t2 x p xd pd I1 I2 sep k nx1 nx2)
    (sh : Shape t ht (some x)) (st : Strict t hi)
    (hx : t.nodes[x]? = some xd) (hp : xd.Parent = some p) (hpd : t.nodes[p]? = some pd)
    (hI1 : xd.IsLeaf = true → ∀ a ∈ I1, scoreAt t a < scoreAt t sep)
    (hI2 : xd.IsLeaf = true → ∀ a ∈ I2, a ∈ xd.Items)
    (hsorted1 : xd.IsLeaf = true → (I1.map (scoreAt t)).Pairwise (· < ·))
    (hsorted2 : xd.IsLeaf = true → (I2.map (scoreAt t)).Pairwise (· < ·)) :
    Strict t2
      (Function.update (Function.update hi x (some (scoreAt t sep))) t.nodes.length (hi x)) := by
  have hxlt := lookup_lt hx
  have hsc := scoreAt_congr hs.items
  have hmvc : ∀ c ∈ xd.Children.drop k,
      ∃ cd, t.nodes[c]? = some cd ∧ cd.Parent = some x ∧ ht c + 1 = ht x :=
    fun c hc => sh.child x xd c hx (List.mem_of_mem_drop hc)
  have hmv : ∀ c ∈ xd.Children.drop k, ∃ cd, t.nodes[c]? = some cd :=
    fun c hc => (hmvc c hc).imp fun _ h => h.1
  have hmvx : ∀ c ∈ xd.Children.drop k, c ≠ x := by
    intro c hc
    obtain ⟨cd, _, _, hh⟩ := hmvc c hc
    intro h
    rw [h] at hh
    omega
  have hcls := hs.classify_split hmv
  have hpleaf : pd.IsLeaf = false := (sh.parent_facts hx hp hpd).2.2.2.1
  have hhi : ∀ n, n ≠ t.nodes.length → n ≠ x →
      Function.update (Function.update hi x (some (scoreAt t sep))) t.nodes.length (hi x) n
        = hi n := by
    intro n h1 h2
    rw [Function.update_noteq h1, Function.update_noteq h2]
  have hhix :
      Function.update (Function.update hi x (some (scoreAt t sep))) t.nodes.length (hi x) x
        = some (scoreAt t sep) := by
    rw [Function.update_noteq (Nat.ne_of_lt hxlt), Function.update_same]
  have hhinew :
      Function.update (Function.update hi x (some (scoreAt t sep))) t.nodes.length (hi x)
        t.nodes.length = hi x := Function.update_same _ _ _
  constructor
  · intro n nd hn hleaf
    rw [hsc]
    rcases hcls n nd hn with ⟨_, rfl⟩ | ⟨_, rfl⟩ | ⟨_, rfl⟩ | ⟨_, _, cd, hcd, rfl⟩ |
      ⟨_, _, _, _, hold⟩
    · exact hsorted1 hleaf
    · exact hsorted2 hleaf
    · rw [hpleaf] at hleaf; cases hleaf
    · exact st.ascending n cd hcd hleaf
    · exact st.ascending n nd hold hleaf
  · intro n nd a hn hleaf ha b hb
    rw [hsc]
    rcases hcls n nd hn with ⟨rfl, rfl⟩ | ⟨rfl, rfl⟩ | ⟨_, rfl⟩ | ⟨hmem, hnew, cd, hcd, rfl⟩ |
      ⟨h1, _, h3, _, hold⟩
    · rw [hhix] at hb
      cases hb
      exact hI1 hleaf a ha
    · rw [hhinew] at hb
      exact st.upper _ xd a hx hleaf (hI2 hleaf a ha) b hb
    · rw [hpleaf] at hleaf; cases hleaf
    · rw [hhi n hnew (hmvx n hmem)] at hb
      exact st.upper n cd a hcd hleaf ha b hb
    · rw [hhi n h3 h1] at hb
      exact st.upper n nd a hold hleaf ha b hb

end split

theorem WrapStep.strict_wrap {t t1 : BPlusTree} {od : Node} {ht : Nat → Nat} {ov : Option Nat}
    {hi : Nat → Option Int} (hw : WrapStep t t1 od) (sh : Shape t ht ov)
    (st : Strict t hi) (hroot : t.nodes[t.Root]? = some od) :
    Strict t1 (Function.update hi t.nodes.length none) := by
  have hrlt := sh.root_lt
  have hsc := scoreAt_congr hw.items
  have hhi : ∀ n, n ≠ t.nodes.length → Function.update hi t.nodes.length none n = hi n :=
    fun n hn => Function.update_noteq hn _ _
  have hcls := hw.classify_wrap
  constructor
  · intro n nd hn hleaf
    rw [hsc]
    rcases hcls n nd hn with ⟨_, rfl⟩ | ⟨_, rfl⟩ | ⟨_, _, hold⟩
    · exact st.ascending _ od hroot hleaf
    · cases hleaf
    · exact st.ascending n nd hold hleaf
  · intro n nd a hn hleaf ha b hb
    rw [hsc]
    rcases hcls n nd hn with ⟨rfl, rfl⟩ | ⟨rfl, rfl⟩ | ⟨_, hne, hold⟩
    · rw [hhi _ (Nat.ne_of_lt hrlt)] at hb
      exact st.upper _ od a hroot hleaf ha b hb
    · cases hleaf
    · rw [hhi _ hne] at hb
      exact st.upper n nd a hold hleaf ha b hb

theorem Strict.strict_withItem {t : BPlusTree} {ht : Nat → Nat} {ov : Option Nat}
    {hi : Nat → Option Int} (st : Strict t hi) (sh : Shape t ht ov)
    (score : Float64) (member : String) : Strict (withItem t score member) hi := by
  have hsc : ∀ (n : Nat) (nd : Node) (a : Nat), t.nodes[n]? = some nd → a ∈ nd.Items →
      scoreAt (withItem t score member) a = scoreAt t a :=
    fun n nd a hn ha => scoreAt_withItem t score member a (sh.item_lt n nd a hn ha)
  constructor
  · intro n nd hn hleaf
    have : nd.Items.map (scoreAt (withItem t score member)) = nd.Items.map (scoreAt t) :=
      List.map_congr_left (fun a ha => hsc n nd a hn ha)
    rw [this]
    exact st.ascending n nd hn hleaf
  · intro n nd a hn hleaf ha b hb
    rw [hsc n nd a hn ha]
    exact st.upper n nd a hn hleaf ha b hb

/-- Inserting a score that the leaf does not hold at the index found by the
insertion-point loop keeps the leaf strictly ascending. -/
theorem insertIndex_strict (t : BPlusTree) (a : Nat)
    (hnum : ∀ it ∈ t.items, it.Score ≠ Float64.nan) :
    ∀ (as : List Nat) (i : Nat), insertIndex t (Float64.num (scoreAt t a)) as = some i →
      (as.map (scoreAt t)).Pairwise (· < ·) → (∀ b ∈ as, scoreAt t b ≠ scoreAt t a) →
      ((insertAt as i a).map (scoreAt t)).Pairwise (· < ·) := by
  intro as
  induction as with
  | nil =>
    intro i hi _ _
    simp only [insertIndex, Option.some.injEq] at hi
    subst hi
    simp [insertAt]
  | cons b bs ih =>
    intro i hi hs hne
    simp only [insertIndex] at hi
    rw [List.map_cons, List.pairwise_cons] at hs
    have hneb := hne b (List.mem_cons_self _ _)
    cases hit : t.items[b]? with
    | none => rw [hit] at hi; cases hi
    | some it =>
      rw [hit] at hi
      have hsc : scoreAt t b = it.Score.toInt := by simp [scoreAt, hit]
      have hnn := hnum it (List.getElem?_mem hit)
      have hcmp : Float64.num (scoreAt t a) > it.Score ↔ scoreAt t a > it.Score.toInt := by
        show it.Score < Float64.num (scoreAt t a) ↔ _
        rw [Float64.eq_num_of_ne_nan hnn, Float64.num_lt_num]
        rfl
      by_cases hgt : Float64.num (scoreAt t a) > it.Score
      · have hgt' := hcmp.mp hgt
        simp only [hgt, if_true, Option.map_eq_some'] at hi
        obtain ⟨j, hj, rfl⟩ := hi
        rw [insertAt_succ, List.map_cons, List.pairwise_cons]
        refine ⟨?_, ih j hj hs.2 (fun c hc => hne c (List.mem_cons_of_mem _ hc))⟩
        intro y hy
        obtain ⟨c, hc, rfl⟩ := List.mem_map.mp hy
        rcases (mem_insertAt _ _ _ _).mp hc with e | e
        · rw [e, hsc]; omega
        · exact hs.1 _ (List.mem_map_of_mem _ e)
      · have hgt' : ¬ (scoreAt t a > it.Score.toInt) := fun h => hgt (hcmp.mpr h)
        simp only [hgt, if_false, Option.some.injEq] at hi
        subst hi
        rw [insertAt_zero, List.map_cons, List.pairwise_cons, List.map_cons, List.pairwise_cons]
        refine ⟨?_, hs⟩
        intro y hy
        rcases List.mem_cons.mp hy with e | e
        · rw [e]; omega
        · have := hs.1 y e
          omega

theorem Strict.strict_withEntry {t : BPlusTree} {hi : Nat → Option Int} {l : Nat} {ld : Node}
    {i a : Nat} (st : Strict t hi)
    (hl : t.nodes[l]? = some ld) (hleaf : ld.IsLeaf = true)
    (hnum : ∀ it ∈ t.items, it.Score ≠ Float64.nan)
    (hi' : insertIndex t (Float64.num (scoreAt t a)) ld.Items = some i)
    (hup : ∀ b, hi l = some b → scoreAt t a < b)
    (hne : ∀ b ∈ ld.Items, scoreAt t b ≠ scoreAt t a) :
    Strict (withEntry t l ld i a) hi := by
  have hlook := withEntry_lookup i a hl
  have hsc : scoreAt (withEntry t l ld i a) = scoreAt t := rfl
  have hold : ∀ n nd, (BPlusTree.withEntry t l ld i a).nodes[n]? = some nd →
      (n = l ∧ nd = { ld with Items := insertAt ld.Items i a }) ∨ (n ≠ l ∧ t.nodes[n]? = some nd) := by
    intro n nd hn
    rw [hlook] at hn
    by_cases h : n = l
    · rw [if_pos h] at hn
      exact Or.inl ⟨h, (Option.some.inj hn).symm⟩
    · rw [if_neg h] at hn
      exact Or.inr ⟨h, hn⟩
  constructor
  · intro n nd hn hlf
    rw [hsc]
    rcases hold n nd hn with ⟨rfl, rfl⟩ | ⟨_, h0⟩
    · exact insertIndex_strict t a hnum ld.Items i hi' (st.ascending _ ld hl hleaf) hne
    · exact st.ascending n nd h0 hlf
  · intro n nd b hn hlf hb' c hc
    rw [hsc]
    rcases hold n nd hn with ⟨rfl, rfl⟩ | ⟨_, h0⟩
    · rcases (mem_insertAt _ _ _ _).mp hb' with e | e
      · rw [e]; exact hup c hc
      · exact st.upper _ ld b hl hleaf e c hc
    · exact st.upper n nd b h0 hlf hb' c hc

/-- The child chosen by the descent loop has an upper end strictly above the score. -/
theorem ChildBounds.descent_lt {t : BPlusTree} {lo hi : Nat → Option Int} (s : Int)
    (hnum : ∀ it ∈ t.items, it.Score ≠ Float64.nan) :
    ∀ (as cs : List Nat) (l h : Option Int) (i c : Nat),
      ChildBounds (scoreAt t) lo hi l h as cs →
      descentIndex t (Float64.num s) as = some i → cs[i]? = some c →
      (∀ b, h = some b → s < b) → ∀ b, hi c = some b → s < b := by
  intro as
  induction as with
  | nil =>
    intro cs l h i c hb hd hc hh
    match cs, hb with
    | [d], hb =>
      simp only [descentIndex, Option.some.injEq] at hd
      subst hd
      simp only [List.getElem?_cons_zero, Option.some.injEq] at hc
      subst hc
      rw [hb.2]
      exact hh
  | cons a as ih =>
    intro cs l h i c hb hd hc hh
    match cs, hb with
    | d :: cs, hb =>
      simp only [descentIndex] at hd
      cases hit : t.items[a]? with
      | none => rw [hit] at hd; cases hd
      | some it =>
        rw [hit] at hd
        have hsc : scoreAt t a = it.Score.toInt := by simp [scoreAt, hit]
        have hnn := hnum it (List.getElem?_mem hit)
        have hcmp : Float64.num s ≥ it.Score ↔ s ≥ it.Score.toInt := by
          show it.Score ≤ Float64.num s ↔ _
          rw [Float64.eq_num_of_ne_nan hnn, Float64.num_le_num]
          rfl
        by_cases hge : Float64.num s ≥ it.Score
        · simp only [hge, if_true, Option.map_eq_some'] at hd
          obtain ⟨j, hj, rfl⟩ := hd
          simp only [List.getElem?_cons_succ] at hc
          exact ih cs _ h j c hb.2.2 hj hc hh
        · simp only [hge, if_false, Option.some.injEq] at hd
          subst hd
          simp only [List.getElem?_cons_zero, Option.some.injEq] at hc
          subst hc
          intro b hb'
          rw [hb.2.1] at hb'
          cases hb'
          rw [hsc]
          have hlt : ¬ (s ≥ it.Score.toInt) := fun h => hge (hcmp.mpr h)
          omega

/-- The leaf reached by the descent of `Add` has an upper end strictly above the score. -/
theorem findLeaf_lt {t : BPlusTree} {lo hi : Nat → Option Int} (ord : Ord t lo hi) (s : Int)
    (hnum : ∀ it ∈ t.items, it.Score ≠ Float64.nan) :
    ∀ (f n l : Nat), findLeaf f t (Float64.num s) n = some l →
      (∀ b, hi n = some b → s < b) → ∀ b, hi l = some b → s < b := by
  intro f
  induction f with
  | zero => intro n l h; simp [findLeaf] at h
  | succ f ih =>
    intro n l h hhi
    simp only [findLeaf] at h
    cases hn : t.nodes[n]? with
    | none => rw [hn] at h; cases h
    | some nd =>
      rw [hn] at h
      cases hleaf : nd.IsLeaf with
      | true =>
        simp only [hleaf, if_true, Option.some.injEq] at h
        subst h
        exact hhi
      | false =>
        simp only [hleaf, Bool.false_eq_true, if_false] at h
        cases hd : descentIndex t (Float64.num s) nd.Items with
        | none => rw [hd] at h; simp at h
        | some i =>
          rw [hd] at h
          simp only at h
          cases hc : nd.Children[i]? with
          | none => rw [hc] at h; simp at h
          | some c =>
            rw [hc] at h
            simp only at h
            exact ih c l h (ChildBounds.descent_lt s hnum nd.Items nd.Children _ _ i c
              (ord.bounds n nd hn hleaf) hd hc hhi)

end BPlusTree


namespace BPlusTree

/-- The order invariant with its strict part is kept by the split cascade. -/
theorem strict_splitClosed :
    SplitClosed (fun t ht ov => Shape t ht ov ∧ ∃ lo hi, Ord t lo hi ∧ Strict t hi) where
  shape := fun _ _ _ h => h.1
  wrap := fun t t1 ht od h hroot hw =>
    ⟨hw.shape_wrap h.1 hroot, by
      obtain ⟨lo, hi, ord, st⟩ := h.2
      exact ⟨_, _, hw.ord_wrap h.1 ord hroot, hw.strict_wrap h.1 st hroot⟩⟩
  leaf := by
    intro t t2 ht x p xd pd sep h hx hleaf hp hpd hfull hsep hs
    refine ⟨shape_splitClosed.leaf t t2 ht x p xd pd sep h.1 hx hleaf hp hpd hfull hsep hs, ?_⟩
    obtain ⟨lo, hi, ord, st⟩ := h.2
    have hsorted := ord.sorted x xd hx hleaf
    have hstrict := st.ascending x xd hx hleaf
    refine ⟨_, _, hs.ord_split h.1 ord hx hp hpd
      (ord.within x xd sep hx hleaf (List.getElem?_mem hsep)) ?_ ?_ ?_ ?_
      (fun e => by rw [hleaf] at e; cases e) (fun e => by rw [hleaf] at e; cases e)
      (fun _ => rfl) (fun _ => rfl),
      hs.strict_split h.1 st hx hp hpd ?_ ?_ ?_ ?_⟩
    · intro _ a ha
      exact ⟨List.mem_of_mem_take ha, sorted_take_le hsorted hsep ha⟩
    · intro _ a ha
      exact ⟨List.mem_of_mem_drop ha, sorted_le_drop hsorted hsep ha⟩
    · intro _
      exact hsorted.sublist ((List.take_sublist _ _).map _)
    · intro _
      exact hsorted.sublist ((List.drop_sublist _ _).map _)
    · intro _ a ha
      exact sorted_take_lt hstrict hsep ha
    · intro _ a ha
      exact List.mem_of_mem_drop ha
    · intro _
      exact hstrict.sublist ((List.take_sublist _ _).map _)
    · intro _
      exact hstrict.sublist ((List.drop_sublist _ _).map _)
  internal := by
    intro t t2 ht x p xd pd sep h hx hleaf hp hpd hfull hsep hs
    refine ⟨shape_splitClosed.internal t t2 ht x p xd pd sep h.1 hx hleaf hp hpd hfull hsep hs,
      ?_⟩
    obtain ⟨lo, hi, ord, st⟩ := h.2
    obtain ⟨hb1, hb2⟩ := ChildBounds.split (xd.Items.length / 2) xd.Items xd.Children _ _ sep
      (ord.bounds x xd hx hleaf) hsep
    have hchild : ∀ c ∈ xd.Children, ∀ a b, lo c = some a → hi c = some b → a ≤ b := by
      intro c hc
      obtain ⟨cd, hcd, _⟩ := h.1.child x xd c hx hc
      exact ord.lo_le_hi c cd hcd
    have hsepin : LoLe (lo x) (scoreAt t sep) ∧ LeHi (scoreAt t sep) (hi x) := by
      constructor
      · intro a ha
        exact ChildBounds.range_le _ _ _ _ hb1
          (fun c hc => hchild c (List.mem_of_mem_take hc)) a _ ha rfl
      · intro b hb
        exact ChildBounds.range_le _ _ _ _ hb2
          (fun c hc => hchild c (List.mem_of_mem_drop hc)) _ b rfl hb
    exact ⟨_, _, hs.ord_split h.1 ord hx hp hpd hsepin
      (fun e => by rw [hleaf] at e; cases e) (fun e => by rw [hleaf] at e; cases e)
      (fun e => by rw [hleaf] at e; cases e) (fun e => by rw [hleaf] at e; cases e)
      (fun _ => hb1) (fun _ => hb2)
      (fun e => by rw [hleaf] at e; cases e) (fun e => by rw [hleaf] at e; cases e),
      hs.strict_split h.1 st hx hp hpd
      (fun e => by rw [hleaf] at e; cases e) (fun e => by rw [hleaf] at e; cases e)
      (fun e => by rw [hleaf] at e; cases e) (fun e => by rw [hleaf] at e; cases e)⟩
  done := fun t ht p pd h hpd hsz => ⟨h.1.clear hpd hsz, h.2⟩

theorem tight_new (degree : Int) (h : 2 ≤ degree) : Tight (NewBPlusTree degree) := by
  obtain ⟨ht, lo, hi, _, sh, ord, _, _, hnum⟩ := good_new degree h
  have hl' : ∀ (n : Nat) (nd : Node), (NewBPlusTree degree).nodes[n]? = some nd →
      nd.Items = [] := by
    intro n nd hn
    cases n with
    | zero =>
      simp [NewBPlusTree] at hn
      rw [← hn]
    | succ n => simp [NewBPlusTree] at hn
  refine ⟨ht, lo, hi, sh, ord, ⟨?_, ?_⟩, hnum⟩
  · intro n nd hn _
    rw [hl' n nd hn]
    exact List.Pairwise.nil
  · intro n nd a hn _ ha
    rw [hl' n nd hn] at ha
    cases ha

/-- An `Add` of a member and of a score that no allocated item carries, the score
not NaN, inserts, and keeps `Tight`. -/
theorem Add_tight {t : BPlusTree} (g : Tight t) (score : Float64) (member : String)
    (hnew : ∀ it ∈ t.items, it.Member ≠ member) (hscore : score ≠ Float64.nan)
    (hfresh : ∀ it ∈ t.items, it.Score ≠ score) :
    ∃ t', Add t score member = some (t', 1) ∧ Tight t' ∧
      t'.items = t.items ++ [{ Score := score, Member := member }] ∧ t'.Degree = t.Degree := by
  obtain ⟨ht, lo, hi, sh, ord, st, hnum⟩ := g
  obtain ⟨s, rfl⟩ : ∃ s, score = Float64.num s := ⟨_, Float64.eq_num_of_ne_nan hscore⟩
  have hnum0 : ∀ it ∈ (withItem t (Float64.num s) member).items, it.Score ≠ Float64.nan := by
    intro it hit
    simp only [withItem, List.mem_append, List.mem_singleton] at hit
    rcases hit with h | h
    · exact hnum it h
    · rw [h]; exact hscore
  obtain ⟨l, ld, hl, hleaf, hfl, hcase⟩ := Add_cases sh (Float64.num s) member
  have sh0 := sh.after_withItem (Float64.num s) member
  have ord0 := ord.ord_withItem sh (Float64.num s) member
  have st0 := st.strict_withItem sh (Float64.num s) member
  have hl0 : (withItem t (Float64.num s) member).nodes[l]? = some ld := hl
  rcases hcase with ⟨a, it, hfm, ham, hit, _⟩ | ⟨_, i, hins, hle, hov, hnov⟩
  · -- the update path cannot be taken
    exfalso
    obtain ⟨_, it', hit', hmem⟩ := findMember_found _ member ld.Items a hfm
    have halt := sh.item_lt l ld a hl ham
    have hget : (withItem t (Float64.num s) member).items[a]? = t.items[a]? := by
      simp [withItem, List.getElem?_append_left halt]
    rw [hget] at hit'
    exact hnew it' (List.getElem?_mem hit') hmem
  · have hsnew : scoreAt (withItem t (Float64.num s) member) t.items.length = s := by
      rw [scoreAt_withItem_new]
      rfl
    have hb := findLeaf_bounds ord0 s hnum0 _ _ _ hfl
      (fun b hb => by rw [ord.root_lo] at hb; cases hb)
      (fun b hb => by rw [ord.root_hi] at hb; cases hb)
    have hup := findLeaf_lt ord0 s hnum0 _ _ _ hfl
      (fun b hb => by rw [ord.root_hi] at hb; cases hb)
    have hne : ∀ b ∈ ld.Items, scoreAt (withItem t (Float64.num s) member) b
        ≠ scoreAt (withItem t (Float64.num s) member) t.items.length := by
      intro b hb heq
      have hblt := sh.item_lt l ld b hl hb
      rw [hsnew, scoreAt_withItem t _ _ b hblt] at heq
      have hmem : t.items[b] ∈ t.items := List.getElem_mem hblt
      have hsb : scoreAt t b = (t.items[b]).Score.toInt := by
        simp [scoreAt, List.getElem?_eq_getElem hblt]
      apply hfresh _ hmem
      apply Float64.toInt_inj (hnum _ hmem) hscore
      rw [← hsb, heq]
      rfl
    have sh1 : Shape (withEntry (withItem t (Float64.num s) member) l ld i t.items.length) ht
        (some l) :=
      sh0.after_withEntry hl0 hleaf hle (by simp [BPlusTree.withItem])
    have ord1 : Ord (withEntry (withItem t (Float64.num s) member) l ld i t.items.length) lo hi :=
      ord0.ord_withEntry hl0 hleaf hnum0 (by rw [hsnew]; exact hins) (by rw [hsnew]; exact hb)
    have st1 : Strict (withEntry (withItem t (Float64.num s) member) l ld i t.items.length) hi :=
      st0.strict_withEntry hl0 hleaf hnum0 (by rw [hsnew]; exact hins)
        (by rw [hsnew]; exact hup) hne
    have hl1 : (withEntry (withItem t (Float64.num s) member) l ld i t.items.length).nodes[l]?
        = some { ld with Items := insertAt ld.Items i t.items.length } := by
      rw [withEntry_lookup i _ hl0, if_pos rfl]
    by_cases h : ((insertAt ld.Items i t.items.length).length : Int) > t.Degree - 1
    · have hfull : ((insertAt ld.Items i t.items.length).length : Int) = t.Degree := by
        rcases sh1.size l _ hl1 with e | ⟨_, e⟩
        · exact absurd h (by
            have e' : ((insertAt ld.Items i t.items.length).length : Int) ≤ t.Degree - 1 := e
            omega)
        · exact e
      obtain ⟨t2, ht2, hsp, ⟨sh2, lo2, hi2, ord2, st2⟩, hd2, hi2'⟩ :=
        splitNode_closed
          (strict_splitClosed.frame t.Degree
            (withEntry (withItem t (Float64.num s) member) l ld i t.items.length).items)
          (t.nodes.length + 1)
          (withEntry (withItem t (Float64.num s) member) l ld i t.items.length) ht l _
          ⟨⟨sh1, lo, hi, ord1, st1⟩, rfl, rfl⟩ hl1 hfull
          (by
            have := sh.ht_fuel
            show ht t.Root - ht l < t.nodes.length + 1
            omega)
      refine ⟨t2, hov h t2 hsp, ⟨ht2, lo2, hi2, sh2, ord2, st2, ?_⟩, hi2', hd2⟩
      rw [hi2']
      exact hnum0
    · exact ⟨_, hnov h, ⟨ht, lo, hi, sh1.clear hl1 (by
        show ((insertAt ld.Items i t.items.length).length : Int) ≤ t.Degree - 1
        omega), ord1, st1, hnum0⟩, rfl, rfl⟩

theorem addAll_tight (ops : List (Float64 × String)) :
    ∀ (t : BPlusTree), Tight t → (t.items.map Item.Member ++ ops.map Prod.snd).Nodup →
      (t.items.map Item.Score ++ ops.map Prod.fst).Nodup →
      (∀ op ∈ ops, op.1 ≠ Float64.nan) →
      ∃ t', addAll t ops = some t' ∧ Tight t' ∧ t'.items = t.items ++ ops.map toItem ∧
        t'.Degree = t.Degree := by
  induction ops with
  | nil => intro t g _ _ _; exact ⟨t, rfl, g, by simp, rfl⟩
  | cons op ops ih =>
    intro t g hnd hsd hnan
    have hnan0 := hnan op (List.mem_cons_self _ _)
    have hnan1 : ∀ op' ∈ ops, op'.1 ≠ Float64.nan :=
      fun op' h => hnan op' (List.mem_cons_of_mem _ h)
    obtain ⟨score, member⟩ := op
    have hnew : ∀ it ∈ t.items, it.Member ≠ member := by
      intro it hit e
      have h1 : member ∈ t.items.map Item.Member := e ▸ List.mem_map_of_mem _ hit
      have h2 : member ∈ ((score, member) :: ops).map Prod.snd := by simp
      exact (List.nodup_append.mp hnd).2.2 h1 h2
    have hfresh : ∀ it ∈ t.items, it.Score ≠ score := by
      intro it hit e
      have h1 : score ∈ t.items.map Item.Score := e ▸ List.mem_map_of_mem _ hit
      have h2 : score ∈ ((score, member) :: ops).map Prod.fst := by simp
      exact (List.nodup_append.mp hsd).2.2 h1 h2
    obtain ⟨t1, h1, g1, hi1, hd1⟩ := Add_tight g score member hnew hnan0 hfresh
    have hnd1 : (t1.items.map Item.Member ++ ops.map Prod.snd).Nodup := by
      rw [hi1]
      simpa [List.append_assoc] using hnd
    have hsd1 : (t1.items.map Item.Score ++ ops.map Prod.fst).Nodup := by
      rw [hi1]
      simpa [List.append_assoc] using hsd
    obtain ⟨t2, h2, g2, hi2, hd2⟩ := ih t1 g1 hnd1 hsd1 hnan1
    refine ⟨t2, by simp only [addAll, h1, h2], g2, ?_, by rw [hd2, hd1]⟩
    rw [hi2, hi1]
    simp [toItem]

theorem build_tight (degree : Int) (h : 2 ≤ degree) (ops : List (Float64 × String))
    (hnd : (ops.map Prod.snd).Nodup) (hsd : (ops.map Prod.fst).Nodup)
    (hnan : ∀ op ∈ ops, op.1 ≠ Float64.nan) :
    ∃ t, build degree ops = some t ∧ Tight t ∧ t.items = ops.map toItem ∧ t.Degree = degree := by
  obtain ⟨t, h1, g, hi, hd⟩ := addAll_tight ops (NewBPlusTree degree) (tight_new degree h)
    (by simpa [NewBPlusTree] using hnd) (by simpa [NewBPlusTree] using hsd) hnan
  exact ⟨t, h1, g, by simpa [NewBPlusTree] using hi, hd⟩

end BPlusTree


namespace BPlusTree

/-- The upper end of the range of a node of a subtree is at most the upper end of the
range of the root of the subtree. -/
theorem Below.hi_le {t : BPlusTree} {ht : Nat → Nat} {ov : Option Nat} {lo hi : Nat → Option Int}
    (sh : Shape t ht ov) (ord : Ord t lo hi) {n d : Nat} (hb : Below t n d) {dd : Node}
    (hd : t.nodes[d]? = some dd) {B : Int} (hB : hi n = some B) :
    ∃ b, hi d = some b ∧ b ≤ B := by
  have hr := hb.range sh ord
  cases hhd : hi d with
  | none =>
    exfalso
    cases hld : lo d with
    | none =>
      have := (hr (B + 1) (fun b hb' => by rw [hld] at hb'; cases hb')
        (fun b hb' => by rw [hhd] at hb'; cases hb')).2 B hB
      omega
    | some a0 =>
      have := (hr (max (B + 1) a0) (fun b hb' => by
          rw [hld] at hb'
          cases hb'
          exact le_max_right _ _)
        (fun b hb' => by rw [hhd] at hb'; cases hb')).2 B hB
      have h2 : B + 1 ≤ max (B + 1) a0 := le_max_left _ _
      omega
  | some b =>
    refine ⟨b, rfl, ?_⟩
    exact (hr b (fun a ha => ord.lo_le_hi d dd hd a b ha hhd)
      (fun b' hb' => by rw [hhd] at hb'; cases hb'; exact le_refl _)).2 B hB

theorem itemAt_ne_nan {t : BPlusTree} (hnum : ∀ it ∈ t.items, it.Score ≠ Float64.nan)
    {a : Nat} (ha : a < t.items.length) : (itemAt t a).Score ≠ Float64.nan :=
  hnum _ (itemAt_mem t a ha)

/-- Two allocated items with the same score are the same item, when the scores of
the allocated items are pairwise distinct. -/
theorem itemAt_eq_of_score {t : BPlusTree} (hnd : (t.items.map Item.Score).Nodup)
    {a b : Nat} (ha : a < t.items.length) (hb : b < t.items.length)
    (h : (itemAt t a).Score = (itemAt t b).Score) : itemAt t a = itemAt t b := by
  have h1 : itemAt t a = t.items[a] := by simp [itemAt, List.getElem?_eq_getElem ha]
  have h2 : itemAt t b = t.items[b] := by simp [itemAt, List.getElem?_eq_getElem hb]
  rw [h1, h2] at h ⊢
  have ha' : a < (t.items.map Item.Score).length := by simpa using ha
  have hb' : b < (t.items.map Item.Score).length := by simpa using hb
  have heq : (t.items.map Item.Score)[a] = (t.items.map Item.Score)[b] := by
    simpa using h
  have := (List.Nodup.getElem_inj_iff hnd).mp heq
  subst this
  rfl

end BPlusTree


namespace BPlusTree

/-- C15, as stated, fails in three ways, all at degree 3.  With tied scores and
pairwise distinct members: after `Add(1, "a")`, `Add(1, "b")`, `Add(1, "c")` the root
has the separator `(1, "b")` and the entry `(1, "c")` of the leaf `Children[0]` is not
below it in the composite order.  With a repeated member and pairwise distinct
scores: after `Add(10, "a")`, `Add(20, "b")`, `Add(30, "c")`, `Add(40, "b")` the
separator is `(40, "b")` and the entry `(30, "c")` of the leaf `Children[1]` is below
it, in the composite order and in score.  With a NaN score: after `Add(1, "a")`,
`Add(NaN, "n")`, `Add(2, "b")` the separator is `(NaN, "n")`; the entry `(1, "a")` of
the leaf `Children[1]` is below it in the composite order, and the score of the entry
`(2, "b")` of the leaf `Children[0]` is not `<=` the score of the separator. -/
theorem coverage_counterexample :
    (∃ t, build 3 [(1, "a"), (1, "b"), (1, "c")] = some t ∧
      ¬ Coverage t (fun e s => e.CompareTo s < 0) (fun e s => e.CompareTo s ≥ 0)) ∧
    (∃ t, build 3 [(10, "a"), (20, "b"), (30, "c"), (40, "b")] = some t ∧
      ¬ Coverage t (fun e s => e.CompareTo s < 0) (fun e s => e.CompareTo s ≥ 0) ∧
      ¬ Coverage t (fun e s => e.Score ≤ s.Score) (fun e s => s.Score ≤ e.Score)) ∧
    (∃ t, build 3 [(1, "a"), (Float64.nan, "n"), (2, "b")] = some t ∧
      ¬ Coverage t (fun e s => e.CompareTo s < 0) (fun e s => e.CompareTo s ≥ 0) ∧
      ¬ Coverage t (fun e s => e.Score ≤ s.Score) (fun e s => s.Score ≤ e.Score)) := by
  refine ⟨⟨_, rfl, ?_⟩, ⟨_, rfl, ?_, ?_⟩, ⟨_, rfl, ?_, ?_⟩⟩
  · intro h
    have h1 := (h 1 ⟨[1], [0, 2], false, none, none⟩ 0 0 0 ⟨[2], [], true, some 1, some 2⟩ 2
      rfl rfl rfl (Below.self 0) rfl rfl (by decide)).1 1 rfl
    revert h1
    decide!
  · intro h
    have h1 := (h 1 ⟨[1], [0, 2], false, none, none⟩ 1 2 2 ⟨[1, 2], [], true, some 1, none⟩ 2
      rfl rfl rfl (Below.self 2) rfl rfl (by decide)).2 0 1 rfl rfl
    revert h1
    decide!
  · intro h
    have h1 := (h 1 ⟨[1], [0, 2], false, none, none⟩ 1 2 2 ⟨[1, 2], [], true, some 1, none⟩ 2
      rfl rfl rfl (Below.self 2) rfl rfl (by decide)).2 0 1 rfl rfl
    revert h1
    decide!
  · intro h
    have h1 := (h 1 ⟨[1], [0, 2], false, none, none⟩ 1 2 2 ⟨[1, 0], [], true, some 1, none⟩ 0
      rfl rfl rfl (Below.self 2) rfl rfl (by decide)).2 0 1 rfl rfl
    revert h1
    decide!
  · intro h
    have h1 := (h 1 ⟨[1], [0, 2], false, none, none⟩ 0 0 0 ⟨[2], [], true, some 1, some 2⟩ 2
      rfl rfl rfl (Below.self 0) rfl rfl (by decide)).1 1 rfl
    revert h1
    decide!

/-- C15 (amended): for every degree >= 2 and every sequence of `Add` calls with
pairwise distinct members and no NaN score on `NewBPlusTree(degree)`, the calls
return, and for every internal node and every child index `i`, every entry stored
in a leaf of the subtree `Children[i]` has a score `<=` that of `Items[i]` (when
`i < len(Items)`) and `>=` that of `Items[i-1]` (when `i > 0`); when the scores of
the calls are pairwise distinct as well, every such entry is `< Items[i]` and
`>= Items[i-1]` in the composite order of `CompareTo`. -/
theorem separator_coverage (degree : Int) (hdeg : 2 ≤ degree) (ops : List (Float64 × String))
    (hmem : (ops.map Prod.snd).Nodup) (hnan : ∀ op ∈ ops, op.1 ≠ Float64.nan) :
    ∃ t, build degree ops = some t ∧
      Coverage t (fun e s => e.Score ≤ s.Score) (fun e s => s.Score ≤ e.Score) ∧
      ((ops.map Prod.fst).Nodup →
        Coverage t (fun e s => e.CompareTo s < 0) (fun e s => e.CompareTo s ≥ 0)) := by
  obtain ⟨t, hb, g, hitems, _⟩ := build_good degree hdeg ops hmem hnan
  refine ⟨t, hb, ?_, ?_⟩
  · obtain ⟨ht, lo, hi, L, sh, ord, _, _, hnum⟩ := g
    intro n nd i c d dd a hn hleaf hc hbelow hd hdleaf ha
    obtain ⟨w1, w2⟩ := ord.within d dd a hd hdleaf ha
    obtain ⟨r1, r2⟩ := hbelow.range sh ord (scoreAt t a) w1 w2
    have hcb := ord.bounds n nd hn hleaf
    have hna := itemAt_ne_nan hnum (sh.item_lt d dd a hd ha)
    constructor
    · intro s hs
      have hns := itemAt_ne_nan hnum (sh.item_lt n nd s hn (List.getElem?_mem hs))
      have := (ChildBounds.at_index i nd.Items nd.Children _ _ s hcb hs).1 c hc
      show (itemAt t a).Score ≤ (itemAt t s).Score
      rw [Float64.le_iff_toInt hna hns, itemAt_score, itemAt_score]
      exact r2 _ this
    · intro j s hij hs
      subst hij
      have hns := itemAt_ne_nan hnum (sh.item_lt n nd s hn (List.getElem?_mem hs))
      have := (ChildBounds.at_index j nd.Items nd.Children _ _ s hcb hs).2 c hc
      show (itemAt t s).Score ≤ (itemAt t a).Score
      rw [Float64.le_iff_toInt hns hna, itemAt_score, itemAt_score]
      exact r1 _ this
  · intro hsc
    obtain ⟨t', hb', g', _, _⟩ := build_tight degree hdeg ops hmem hsc hnan
    rw [hb] at hb'
    cases hb'
    obtain ⟨ht, lo, hi, sh, ord, st, hnum⟩ := g'
    have hnd : (t.items.map Item.Score).Nodup := by
      rw [hitems, List.map_map]
      exact hsc
    intro n nd i c d dd a hn hleaf hc hbelow hd hdleaf ha
    obtain ⟨w1, w2⟩ := ord.within d dd a hd hdleaf ha
    obtain ⟨r1, _⟩ := hbelow.range sh ord (scoreAt t a) w1 w2
    have hcb := ord.bounds n nd hn hleaf
    have halt := sh.item_lt d dd a hd ha
    have hna := itemAt_ne_nan hnum halt
    constructor
    · intro s hs
      have hns := itemAt_ne_nan hnum (sh.item_lt n nd s hn (List.getElem?_mem hs))
      have hhic := (ChildBounds.at_index i nd.Items nd.Children _ _ s hcb hs).1 c hc
      obtain ⟨b, hb1, hb2⟩ := hbelow.hi_le sh ord hd hhic
      have hlt := st.upper d dd a hd hdleaf ha b hb1
      have : (itemAt t a).Score < (itemAt t s).Score := by
        rw [Float64.lt_iff_toInt hna hns, itemAt_score, itemAt_score]
        omega
      show (itemAt t a).CompareTo (itemAt t s) < 0
      rw [compareTo_of_score_lt this]
      decide
    · intro j s hij hs
      subst hij
      have hslt := sh.item_lt n nd s hn (List.getElem?_mem hs)
      have hns := itemAt_ne_nan hnum hslt
      have hloc := (ChildBounds.at_index j nd.Items nd.Children _ _ s hcb hs).2 c hc
      have hle : scoreAt t s ≤ scoreAt t a := r1 _ hloc
      show (itemAt t a).CompareTo (itemAt t s) ≥ 0
      rcases lt_or_eq_of_le hle with h | h
      · have : (itemAt t s).Score < (itemAt t a).Score := by
          rw [Float64.lt_iff_toInt hns hna, itemAt_score, itemAt_score]
          exact h
        rw [compareTo_of_score_gt this]
        decide
      · have : (itemAt t a).Score = (itemAt t s).Score :=
          Float64.toInt_inj hna hns (by rw [itemAt_score, itemAt_score, h])
        rw [itemAt_eq_of_score hnd halt hslt this, compareTo_self]

/-- The amended theorem at degree 3 on six insertions with two tied scores. -/
theorem separator_coverage_witness :
    (2 : Int) ≤ 3 ∧
    ([(2, "b"), (1, "a"), (2, "c"), (5, "d"), (4, "e"), (3, "f")].map
      (Prod.snd : Float64 × String → String)).Nodup ∧
    (∀ op ∈ [((2 : Float64), "b"), (1, "a"), (2, "c"), (5, "d"), (4, "e"), (3, "f")],
      op.1 ≠ Float64.nan) ∧
    ∃ t, build 3 [(2, "b"), (1, "a"), (2, "c"), (5, "d"), (4, "e"), (3, "f")] = some t ∧
      Coverage t (fun e s => e.Score ≤ s.Score) (fun e s => s.Score ≤ e.Score) ∧
      (([(2, "b"), (1, "a"), (2, "c"), (5, "d"), (4, "e"), (3, "f")].map
          (Prod.fst : Float64 × String → Float64)).Nodup →
        Coverage t (fun e s => e.CompareTo s < 0) (fun e s => e.CompareTo s ≥ 0)) :=
  ⟨by decide, by decide, by decide,
    separator_coverage 3 (by decide) _ (by decide) (by decide)⟩

end BPlusTree

end ds
